import Mathlib

/-!
# Binary search tree container (`binary_tree.h`, `binary_tree.cpp`, `node.h`)

A shallow embedding of `BinaryTree<int>`.

* A `Node<int>*` is a value of `Node`: either `Node.null` (the C++ `nullptr`) or
  `Node.mk data left right`, an owned node with its two child pointers.
* A `std::string` is a list of characters (`CppString`), a `std::queue<std::string>` is a list
  whose head is the front, a `std::stack<Node<int>*>` is a list whose head is the top.
* A member function that can throw returns an `Outcome`; a mutating member function that can
  throw returns an `Effect`, which also records the tree held by the object afterwards.
* `int` values are mathematical integers; the only place where the width of `int` is observable
  in the modelled code is stream extraction, which clamps to `[INT_MIN, INT_MAX]`.
* Memory exhaustion (`std::bad_alloc`) is outside the model.
-/

namespace BT

/-! ## Exceptions and outcomes (`exceptions.h`) -/

/-- The exception classes of `exceptions.h`. -/
inductive ExceptionKind where
  | TreeException
  | InvalidTreeOperation
  | NodeNotFound
  | SerializationError
  deriving DecidableEq, Repr

/-- How a call of a `const` member function ends: it returns a value, it throws an exception of
the given class constructed with the given message, or it runs into undefined behaviour. -/
inductive Outcome (α : Type) where
  | returns (a : α)
  | throws (kind : ExceptionKind) (message : String)
  | undefined
  deriving DecidableEq, Repr

/-! ## Nodes (`node.h`) and the tree object -/

/-- A `Node<int>*`: `null` is `nullptr`, `mk data left right` points to a node. -/
inductive Node where
  | null : Node
  | mk (data : Int) (left right : Node) : Node
  deriving DecidableEq, Repr

/-- The class `BinaryTree<int>`: its only data member is `root`. -/
structure BinaryTree where
  root : Node
  deriving DecidableEq, Repr

/-- How a call of a mutating member function ends, together with the tree the object holds
afterwards. Nothing is known about the object after undefined behaviour. -/
inductive Effect where
  | returns (after : BinaryTree)
  | throws (kind : ExceptionKind) (message : String) (after : BinaryTree)
  | undefined
  deriving DecidableEq, Repr

/-- The enumeration `TraversalType` of `binary_tree.h`. -/
inductive TraversalType where
  | PRE_ORDER
  | REVERSE_PRE_ORDER
  | IN_ORDER
  | REVERSE_IN_ORDER
  | POST_ORDER
  | REVERSE_POST_ORDER
  deriving DecidableEq, Repr

/-! ## Strings, `std::to_string`, and stream extraction -/

/-- A `std::string`. -/
abbrev CppString := List Char

/-- The decimal digit character of `d` (for `d < 10`). -/
def digitChar (d : Nat) : Char := Char.ofNat (48 + d)

/-- Decimal digits of `n`, most significant first, in front of `acc`; the first argument bounds
the number of digits and `n + 1` always suffices. -/
def toDigits : Nat → Nat → CppString → CppString
  | 0, _, acc => acc
  | fuel + 1, n, acc =>
    if n < 10 then digitChar n :: acc
    else toDigits fuel (n / 10) (digitChar (n % 10) :: acc)

/-- The library function `std::to_string(int)`: the decimal text of the value, with a leading
minus sign for a negative value. -/
def to_string (value : Int) : CppString :=
  if value < 0 then '-' :: toDigits ((-value).toNat + 1) (-value).toNat []
  else toDigits (value.toNat + 1) value.toNat []

/-- The classic-locale `isspace`: space, and the control characters 9 to 13. -/
def isSpace (c : Char) : Bool := c = ' ' || (9 ≤ c.toNat && c.toNat ≤ 13)

/-- The classic-locale `isdigit`. -/
def isDigit (c : Char) : Bool := 48 ≤ c.toNat && c.toNat ≤ 57

/-- The value of a decimal digit character. -/
def digitVal (c : Char) : Nat := c.toNat - 48

/-- Splitting loop behind `while (iss >> token) elements.push(token)`: `cur` holds the
characters of the token being read, last character first. Whitespace ends a token; runs of
whitespace produce no empty token. -/
def tokenizeAux : CppString → CppString → List CppString
  | [], cur => if cur = [] then [] else [cur.reverse]
  | c :: cs, cur =>
    if isSpace c then
      if cur = [] then tokenizeAux cs [] else cur.reverse :: tokenizeAux cs []
    else tokenizeAux cs (c :: cur)

/-- The queue of tokens that `deserialize` reads from its input string. -/
def tokenize (data : CppString) : List CppString := tokenizeAux data []

/-- The number denoted by the longest prefix of decimal digits (zero for an empty prefix). -/
def parseDigits (cs : CppString) : Nat :=
  (cs.takeWhile isDigit).foldl (fun a c => a * 10 + digitVal c) 0

/-- The largest `int`. -/
def INT_MAX : Int := 2147483647

/-- The smallest `int`. -/
def INT_MIN : Int := -2147483648

/-- Saturation of an out-of-range extraction result. -/
def clampInt (z : Int) : Int :=
  if z < INT_MIN then INT_MIN else if INT_MAX < z then INT_MAX else z

/-- The statement pair `T value; std::istringstream(token) >> value;` for `T = int`: the value
left in `value`. Extraction reads an optional sign and the longest run of decimal digits and
ignores what follows; when no digit is read the value is set to zero, and a number outside the
range of `int` is stored as `INT_MIN` or `INT_MAX`. The stream state is never inspected by the
caller, so only the stored value matters. -/
def parseInt (token : CppString) : Int :=
  match token with
  | [] => 0
  | c :: cs =>
    if c = '-' then clampInt (-(parseDigits cs : Int))
    else if c = '+' then clampInt (parseDigits cs)
    else clampInt (parseDigits (c :: cs))

/-- The literal `"null"`. -/
def nullToken : CppString := ['n', 'u', 'l', 'l']

/-! ## Serialization (`binary_tree.cpp`, lines 893-1065) -/

/-- `SerializePreOrder(node, result)`: the string `result` after the call. -/
def SerializePreOrder : Node → CppString → CppString
  | .null, result => result ++ (nullToken ++ [' '])
  | .mk data left right, result =>
    SerializePreOrder right (SerializePreOrder left (result ++ (to_string data ++ [' '])))

/-- `SerializeReversePreOrder(node, result)`: the string `result` after the call. -/
def SerializeReversePreOrder : Node → CppString → CppString
  | .null, result => result ++ (nullToken ++ [' '])
  | .mk data left right, result =>
    SerializeReversePreOrder left
      (SerializeReversePreOrder right (result ++ (to_string data ++ [' '])))

/-- `SerializeInOrder(node, result)`: the string `result` after the call. -/
def SerializeInOrder : Node → CppString → CppString
  | .null, result => result ++ (nullToken ++ [' '])
  | .mk data left right, result =>
    SerializeInOrder right (SerializeInOrder left result ++ (to_string data ++ [' ']))

/-- `SerializeReverseInOrder(node, result)`: the string `result` after the call. -/
def SerializeReverseInOrder : Node → CppString → CppString
  | .null, result => result ++ (nullToken ++ [' '])
  | .mk data left right, result =>
    SerializeReverseInOrder left (SerializeReverseInOrder right result ++ (to_string data ++ [' ']))

/-- `SerializePostOrder(node, result)`: the string `result` after the call. -/
def SerializePostOrder : Node → CppString → CppString
  | .null, result => result ++ (nullToken ++ [' '])
  | .mk data left right, result =>
    SerializePostOrder right (SerializePostOrder left result) ++ (to_string data ++ [' '])

/-- `SerializeReversePostOrder(node, result)`: the string `result` after the call. For a null
pointer the function returns without appending anything. -/
def SerializeReversePostOrder : Node → CppString → CppString
  | .null, result => result
  | .mk data left right, result =>
    SerializeReversePostOrder left (SerializeReversePostOrder right result)
      ++ (to_string data ++ [' '])

/-- `BinaryTree::serialize(type)`. None of the six helpers throws for `int`, so the handler
that rethrows as "Serialization failed" is never entered. -/
def BinaryTree.serialize (self : BinaryTree) (type : TraversalType) : Outcome CppString :=
  match type with
  | .PRE_ORDER => .returns (SerializePreOrder self.root [])
  | .REVERSE_PRE_ORDER => .returns (SerializeReversePreOrder self.root [])
  | .IN_ORDER => .returns (SerializeInOrder self.root [])
  | .REVERSE_IN_ORDER => .returns (SerializeReverseInOrder self.root [])
  | .POST_ORDER => .returns (SerializePostOrder self.root [])
  | .REVERSE_POST_ORDER => .returns (SerializeReversePostOrder self.root [])

/-! ## Deserialization (`binary_tree.cpp`, lines 1070-1278) -/

/-- `DeserializePreOrder(elements)`: the returned pointer and the queue after the call. The
first argument bounds the recursion depth; `none` means the bound was reached. Every recursive
call on a non-empty queue has popped a token first, so a bound above the queue length is never
reached (`DeserializePreOrder_isSome`). -/
def DeserializePreOrder : Nat → List CppString → Option (Node × List CppString)
  | 0, _ => none
  | _ + 1, [] => some (.null, [])
  | fuel + 1, token :: elements =>
    if token = nullToken then some (.null, elements)
    else
      match DeserializePreOrder fuel elements with
      | none => none
      | some (left, elements1) =>
        match DeserializePreOrder fuel elements1 with
        | none => none
        | some (right, elements2) => some (.mk (parseInt token) left right, elements2)

/-- `DeserializeReversePreOrder(elements)`: as `DeserializePreOrder`, but the right subtree is
read before the left one. -/
def DeserializeReversePreOrder : Nat → List CppString → Option (Node × List CppString)
  | 0, _ => none
  | _ + 1, [] => some (.null, [])
  | fuel + 1, token :: elements =>
    if token = nullToken then some (.null, elements)
    else
      match DeserializeReversePreOrder fuel elements with
      | none => none
      | some (right, elements1) =>
        match DeserializeReversePreOrder fuel elements1 with
        | none => none
        | some (left, elements2) => some (.mk (parseInt token) left right, elements2)

/-- The loop of `DeserializePostOrder(elements)` with its local `nodeStack`, followed by the
final size check. A value token takes the right child from the top of the stack and the left
child from below it; `top()` on an empty `std::stack` is undefined behaviour. The loop runs
until the queue is empty. -/
def DeserializePostOrder : List CppString → List Node → Outcome Node
  | [], nodeStack =>
    match nodeStack with
    | [node] => .returns node
    | _ => .throws .TreeException "Invalid PostOrder data format"
  | token :: elements, nodeStack =>
    if token = nullToken then DeserializePostOrder elements (.null :: nodeStack)
    else
      match nodeStack with
      | right :: left :: rest =>
        DeserializePostOrder elements (.mk (parseInt token) left right :: rest)
      | _ => .undefined

/-- The loop of `DeserializeReversePostOrder(elements)`: as `DeserializePostOrder`, but the
left child is taken from the top of the stack and the right child from below it. -/
def DeserializeReversePostOrder : List CppString → List Node → Outcome Node
  | [], nodeStack =>
    match nodeStack with
    | [node] => .returns node
    | _ => .throws .TreeException "Invalid ReversePostOrder sequence"
  | token :: elements, nodeStack =>
    if token = nullToken then DeserializeReversePostOrder elements (.null :: nodeStack)
    else
      match nodeStack with
      | left :: right :: rest =>
        DeserializeReversePostOrder elements (.mk (parseInt token) left right :: rest)
      | _ => .undefined

/-- `DeserializeInOrder(elements)`: the function only throws. -/
def DeserializeInOrder (_elements : List CppString) : Outcome Node :=
  .throws .TreeException "InOrder deserialization not supported alone"

/-- `DeserializeReverseInOrder(elements)`: the function only throws. -/
def DeserializeReverseInOrder (_elements : List CppString) : Outcome Node :=
  .throws .TreeException "ReverseInOrder deserialization not supported alone"

/-- The tail of `deserialize` after a helper returned `root` and left `elements` in the queue:
leftover tokens throw, and the handler clears the tree and rethrows. -/
def deserializeFinish (root : Node) (elements : List CppString) : Effect :=
  if elements = [] then .returns ⟨root⟩
  else .throws .TreeException "Deserialization failed" ⟨.null⟩

/-- `BinaryTree::deserialize(data, type)`. The tree is cleared first, so the prior content of
the object does not influence the result. Every exception of a helper is caught by
`catch (...)`, which clears the tree and throws `TreeException("Deserialization failed")`.
`none` only arises from the recursion bound of the pre-order helpers, which is chosen above
the number of tokens. -/
def BinaryTree.deserialize (_self : BinaryTree) (data : CppString) (type : TraversalType) :
    Option Effect :=
  let elements := tokenize data
  match type with
  | .PRE_ORDER =>
    (DeserializePreOrder (elements.length + 1) elements).map
      (fun p => deserializeFinish p.1 p.2)
  | .REVERSE_PRE_ORDER =>
    (DeserializeReversePreOrder (elements.length + 1) elements).map
      (fun p => deserializeFinish p.1 p.2)
  | .IN_ORDER =>
    match DeserializeInOrder elements with
    | .returns root => some (deserializeFinish root elements)
    | .throws _ _ => some (.throws .TreeException "Deserialization failed" ⟨.null⟩)
    | .undefined => some .undefined
  | .REVERSE_IN_ORDER =>
    match DeserializeReverseInOrder elements with
    | .returns root => some (deserializeFinish root elements)
    | .throws _ _ => some (.throws .TreeException "Deserialization failed" ⟨.null⟩)
    | .undefined => some .undefined
  | .POST_ORDER =>
    match DeserializePostOrder elements [] with
    | .returns root => some (deserializeFinish root [])
    | .throws _ _ => some (.throws .TreeException "Deserialization failed" ⟨.null⟩)
    | .undefined => some .undefined
  | .REVERSE_POST_ORDER =>
    match DeserializeReversePostOrder elements [] with
    | .returns root => some (deserializeFinish root [])
    | .throws _ _ => some (.throws .TreeException "Deserialization failed" ⟨.null⟩)
    | .undefined => some .undefined

/-! ## Search and mutation (`binary_tree.cpp`, lines 263-438) -/

/-- `BinaryTree::IsEmpty()`. -/
def BinaryTree.IsEmpty (self : BinaryTree) : Bool :=
  match self.root with
  | .null => true
  | .mk _ _ _ => false

/-- `FindNode(node, value)`: the pointer to the node found by the ordered search, or null. -/
def FindNode : Node → Int → Node
  | .null, _ => .null
  | .mk data left right, value =>
    if value = data then .mk data left right
    else if value < data then FindNode left value
    else FindNode right value

/-- `FindMin(node)`: null for a null argument, otherwise the leftmost node below `node`. -/
def FindMin : Node → Node
  | .null => .null
  | .mk data left right =>
    match left with
    | .null => .mk data left right
    | .mk _ _ _ => FindMin left

/-- `RemoveNode(node, value)`: the pointer the function returns, which the caller stores in
place of `node`. No statement of the `try` block throws for `int`, so the handler is never
entered; `none` stands for the undefined behaviour of `temp->data` on a null `temp`.
In the two-children case the node takes the data of `FindMin(node->right)` and the recursive
call on the right subtree is made with the original `value`. -/
def RemoveNode : Node → Int → Option Node
  | .null, _ => some .null
  | .mk data left right, value =>
    if value < data then
      (RemoveNode left value).map (fun left1 => .mk data left1 right)
    else if value > data then
      (RemoveNode right value).map (fun right1 => .mk data left right1)
    else
      match left, right with
      | .null, _ => some right
      | .mk _ _ _, .null => some left
      | .mk _ _ _, .mk _ _ _ =>
        match FindMin right with
        | .null => none
        | .mk tempData _ _ =>
          (RemoveNode right value).map (fun right1 => .mk tempData left right1)

/-- The `while (1)` loop of `BinaryTree::Insert`, entered with `current` pointing to the node
`data left right`: the subtree rooted at that node when the loop is left by `break`. Each loop
iteration uses one unit of the first argument, and `none` means that the loop is still running
after that many iterations. When `value` is neither less nor greater than `current->data`, the
iteration changes nothing and the next iteration starts from the same `current`. -/
def InsertLoop : Nat → Int → Node → Node → Int → Option Node
  | 0, _, _, _, _ => none
  | fuel + 1, data, left, right, value =>
    if value < data then
      match left with
      | .null => some (.mk data (.mk value .null .null) right)
      | .mk d l r => (InsertLoop fuel d l r value).map (fun left1 => .mk data left1 right)
    else if value > data then
      match right with
      | .null => some (.mk data left (.mk value .null .null))
      | .mk d l r => (InsertLoop fuel d l r value).map (fun right1 => .mk data left right1)
    else InsertLoop fuel data left right value

/-- `BinaryTree::Insert(value)`: the tree after the call, where `fuel` bounds the number of
iterations of the `while (1)` loop and `none` means that the call has not returned within that
bound. -/
def BinaryTree.Insert (self : BinaryTree) (fuel : Nat) (value : Int) : Option BinaryTree :=
  match self.root with
  | .null => some ⟨.mk value .null .null⟩
  | .mk data left right => (InsertLoop fuel data left right value).map BinaryTree.mk

/-- The `while (current != nullptr)` loop of `BinaryTree::Contains` followed by the final
`return false`, entered with `current` equal to the argument. -/
def ContainsLoop : Node → Int → Outcome Bool
  | .null, _ => .returns false
  | .mk data left right, value =>
    if value = data then .returns true
    else if value < data then
      match left with
      | .null => .throws .TreeException "Value not found - left subtree ended"
      | .mk _ _ _ => ContainsLoop left value
    else
      match right with
      | .null => .throws .TreeException "Value not found - right subtree ended"
      | .mk _ _ _ => ContainsLoop right value

/-- `BinaryTree::Contains(value)`. -/
def BinaryTree.Contains (self : BinaryTree) (value : Int) : Outcome Bool :=
  if self.IsEmpty then .throws .TreeException "Tree is empty - cannot check containment"
  else ContainsLoop self.root value

/-- `BinaryTree::Remove(value)`. The call of `Contains` is outside the `try` block, so an
exception of `Contains` reaches the caller unchanged and the tree is untouched. -/
def BinaryTree.Remove (self : BinaryTree) (value : Int) : Effect :=
  match self.Contains value with
  | .returns true =>
    match RemoveNode self.root value with
    | some root => .returns ⟨root⟩
    | none => .undefined
  | .returns false =>
    .throws .TreeException "Cannot remove - value not found in tree" self
  | .throws kind message => .throws kind message self
  | .undefined => .undefined

/-! ## Traversal (`binary_tree.cpp`, lines 442-642)

A traversal is modelled by the sequence of values handed to `action`, for an `action` that is
present and does not throw. -/

/-- `PreOrder(node, action)`. -/
def PreOrder : Node → List Int
  | .null => []
  | .mk data left right => data :: (PreOrder left ++ PreOrder right)

/-- `ReversePreOrder(node, action)`. -/
def ReversePreOrder : Node → List Int
  | .null => []
  | .mk data left right => data :: (ReversePreOrder right ++ ReversePreOrder left)

/-- `InOrder(node, action)`. -/
def InOrder : Node → List Int
  | .null => []
  | .mk data left right => InOrder left ++ data :: InOrder right

/-- `ReverseInOrder(node, action)`. -/
def ReverseInOrder : Node → List Int
  | .null => []
  | .mk data left right => ReverseInOrder right ++ data :: ReverseInOrder left

/-- `PostOrder(node, action)`. -/
def PostOrder : Node → List Int
  | .null => []
  | .mk data left right => PostOrder left ++ PostOrder right ++ [data]

/-- `ReversePostOrder(node, action)`. -/
def ReversePostOrder : Node → List Int
  | .null => []
  | .mk data left right => ReversePostOrder right ++ ReversePostOrder left ++ [data]

/-- The public `BinaryTree::Traverse(type, action)`. -/
def BinaryTree.Traverse (self : BinaryTree) (type : TraversalType) : List Int :=
  match type with
  | .PRE_ORDER => PreOrder self.root
  | .REVERSE_PRE_ORDER => ReversePreOrder self.root
  | .IN_ORDER => InOrder self.root
  | .REVERSE_IN_ORDER => ReverseInOrder self.root
  | .POST_ORDER => PostOrder self.root
  | .REVERSE_POST_ORDER => ReversePostOrder self.root

/-- `BinaryTree::Size()` (`binary_tree.h`): the number of calls of the counting action during
an in-order traversal. -/
def BinaryTree.Size (self : BinaryTree) : Nat := (self.Traverse .IN_ORDER).length

/-! ## Specification-level notions -/

/-- The tree invariant of the specification: at every node, every value of the left subtree is
strictly less than the node's value and every value of the right subtree is strictly greater. -/
def IsBST : Node → Prop
  | .null => True
  | .mk data left right =>
    (∀ x ∈ InOrder left, x < data) ∧ (∀ x ∈ InOrder right, data < x) ∧ IsBST left ∧ IsBST right

/-- The invariant is decidable. -/
instance IsBST.decidable : (node : Node) → Decidable (IsBST node)
  | .null => isTrue trivial
  | .mk data left right =>
    @instDecidableAnd (∀ x ∈ InOrder left, x < data) _ inferInstance
      (@instDecidableAnd (∀ x ∈ InOrder right, data < x) _ inferInstance
        (@instDecidableAnd _ _ (IsBST.decidable left) (IsBST.decidable right)))

/-- Every value stored in the tree is a value of type `int`. -/
def InIntRange : Node → Prop
  | .null => True
  | .mk data left right => INT_MIN ≤ data ∧ data ≤ INT_MAX ∧ InIntRange left ∧ InIntRange right

/-- Calling `Insert` for the values of a list one after the other, as the drivers of `main.cpp`
do; every call is given the same iteration bound. -/
def InsertAll (fuel : Nat) : BinaryTree → List Int → Option BinaryTree
  | tree, [] => some tree
  | tree, value :: values =>
    match tree.Insert fuel value with
    | none => none
    | some tree1 => InsertAll fuel tree1 values

/-- Range membership is decidable. -/
instance InIntRange.decidable : (node : Node) → Decidable (InIntRange node)
  | .null => isTrue trivial
  | .mk data left right =>
    @instDecidableAnd (INT_MIN ≤ data) _ inferInstance
      (@instDecidableAnd (data ≤ INT_MAX) _ inferInstance
        (@instDecidableAnd _ _ (InIntRange.decidable left) (InIntRange.decidable right)))

/-! ## Copying and merging (`binary_tree.cpp`, lines 183-221 and 714-743) -/

/-- `Copy(node)`: a deep copy of the subtree, built node by node. -/
def Copy : Node → Node
  | .null => .null
  | .mk data left right => .mk data (Copy left) (Copy right)

/-- `BinaryTree::merge(other)`: `result` starts as a copy of the receiver, and the action
handed to `other.Traverse(IN_ORDER, ...)` calls `result.Insert(value)` for every value of
`other` in ascending order. The handler in the action only catches exceptions, and `Insert`
throws none in this model, so the action is `Insert` itself. As for `Insert`, `fuel` bounds the
iterations of each `while (1)` loop and `none` means that the call has not returned. -/
def BinaryTree.merge (self : BinaryTree) (fuel : Nat) (other : BinaryTree) :
    Option BinaryTree :=
  InsertAll fuel ⟨Copy self.root⟩ (other.Traverse .IN_ORDER)

/-- The number of nodes of a tree. -/
def nodeCount : Node → Nat
  | .null => 0
  | .mk _ left right => nodeCount left + nodeCount right + 1

/-- The value-first token stream of the specification's grammar
`tree := "null" | value child child`, children in the order left, right. -/
def preOrderTokens : Node → List CppString
  | .null => [nullToken]
  | .mk data left right => to_string data :: (preOrderTokens left ++ preOrderTokens right)

/-- The value-first token stream with the children in the order right, left. -/
def reversePreOrderTokens : Node → List CppString
  | .null => [nullToken]
  | .mk data left right =>
    to_string data :: (reversePreOrderTokens right ++ reversePreOrderTokens left)

/-- The value-last token stream of the specification's grammar
`tree := "null" | child child value`, children in the order left, right. -/
def postOrderTokens : Node → List CppString
  | .null => [nullToken]
  | .mk data left right => postOrderTokens left ++ postOrderTokens right ++ [to_string data]

/-- The value-last token stream with the children in the order right, left. -/
def reversePostOrderTokens : Node → List CppString
  | .null => [nullToken]
  | .mk data left right =>
    reversePostOrderTokens right ++ reversePostOrderTokens left ++ [to_string data]

/-- The token stream left subtree, value, right subtree, with `null` for an absent node. -/
def inOrderTokens : Node → List CppString
  | .null => [nullToken]
  | .mk data left right => inOrderTokens left ++ to_string data :: inOrderTokens right

/-- The token stream right subtree, value, left subtree, with `null` for an absent node. -/
def reverseInOrderTokens : Node → List CppString
  | .null => [nullToken]
  | .mk data left right =>
    reverseInOrderTokens right ++ to_string data :: reverseInOrderTokens left

/-- The pre-order encoding in the words of the specification: `"null "` for an absent node,
otherwise the decimal value followed by one space, then the encoding of the left subtree, then
the encoding of the right subtree. -/
def preOrderEncoding : Node → CppString
  | .null => "null ".toList
  | .mk data left right =>
    to_string data ++ " ".toList ++ preOrderEncoding left ++ preOrderEncoding right

/-- The number of `null` tokens of a token stream. -/
def nullTokenCount (tokens : List CppString) : Nat := tokens.count nullToken

/-- The number of tokens other than `null` of a token stream. -/
def valueTokenCount (tokens : List CppString) : Nat :=
  (tokens.filter (fun token => decide (token ≠ nullToken))).length

/-- The tree built by inserting 10, 5, 15, 3, 7 (the example of `test_all_features`). -/
def exampleTree : BinaryTree :=
  ⟨.mk 10 (.mk 5 (.mk 3 .null .null) (.mk 7 .null .null)) (.mk 15 .null .null)⟩

/-- A tree with one node. -/
def singletonTree (value : Int) : BinaryTree := ⟨.mk value .null .null⟩

/-- The empty tree. -/
def emptyTree : BinaryTree := ⟨.null⟩

/-- The tree built by inserting 10, 5, 15: a root with two children. -/
def threeTree : BinaryTree := ⟨.mk 10 (.mk 5 .null .null) (.mk 15 .null .null)⟩

/-- The tree built by inserting 5, 8. -/
def fiveEightTree : BinaryTree := ⟨.mk 5 .null (.mk 8 .null .null)⟩

/-- The tree built by inserting 8, 12 (the second tree of the merge test of
`test_all_features`). -/
def eightTwelveTree : BinaryTree := ⟨.mk 8 .null (.mk 12 .null .null)⟩

/-! ## Subtree operations (`binary_tree.cpp`, lines 747-814) -/

/-- `BinaryTree::extractSubtree(value)`: the returned tree, or the `NodeNotFound` thrown when
`FindNode` returns null. -/
def BinaryTree.extractSubtree (self : BinaryTree) (value : Int) : Outcome BinaryTree :=
  match FindNode self.root value with
  | .null => .throws .NodeNotFound "Value not found in tree - cannot extract subtree"
  | .mk data left right => .returns ⟨Copy (.mk data left right)⟩

/-- `CompareSubtrees(ourNode, subNode)`: true as soon as `subNode` is null, false when only
`ourNode` is null, otherwise equal data and the comparison of both pairs of children. -/
def CompareSubtrees : Node → Node → Bool
  | _, .null => true
  | .null, .mk _ _ _ => false
  | .mk ourData ourLeft ourRight, .mk subData subLeft subRight =>
    decide (ourData = subData) && CompareSubtrees ourLeft subLeft
      && CompareSubtrees ourRight subRight

/-- `BinaryTree::containsSubtree(subtree)`. -/
def BinaryTree.containsSubtree (self subtree : BinaryTree) : Outcome Bool :=
  match subtree.root with
  | .null => .throws .TreeException "Cannot search for empty subtree"
  | .mk data left right =>
    match FindNode self.root data with
    | .null => .returns false
    | .mk d l r => .returns (CompareSubtrees (.mk d l r) (.mk data left right))

/-! ## Paths (`binary_tree.cpp`, lines 818-889) -/

/-- The literal `"left"`. -/
def leftToken : CppString := ['l', 'e', 'f', 't']

/-- The literal `"right"`. -/
def rightToken : CppString := ['r', 'i', 'g', 'h', 't']

/-- The `for` loop of `GetByPath` followed by `return current->data`, entered with `current`
pointing to the node `data left right` and the directions still to be processed. -/
def GetByPathLoop : Int → Node → Node → List CppString → Outcome Int
  | data, _, _, [] => .returns data
  | _, left, right, direction :: path =>
    if direction ≠ leftToken ∧ direction ≠ rightToken then
      .throws .InvalidTreeOperation ("Invalid path direction: " ++ String.mk direction)
    else
      match (if direction = leftToken then left else right) with
      | .null => .throws .NodeNotFound "Path leads to non-existent node"
      | .mk d l r => GetByPathLoop d l r path

/-- `BinaryTree::GetByPath(path)`. -/
def BinaryTree.GetByPath (self : BinaryTree) (path : List CppString) : Outcome Int :=
  match self.root with
  | .null => .throws .NodeNotFound "Tree is empty - path cannot be traversed"
  | .mk data left right => GetByPathLoop data left right path

/-- The `for` loop of `GetByRelativePath` followed by `return current->data`: the loop of
`GetByPath` with another message for an absent child. -/
def GetByRelativePathLoop : Int → Node → Node → List CppString → Outcome Int
  | data, _, _, [] => .returns data
  | _, left, right, direction :: path =>
    if direction ≠ leftToken ∧ direction ≠ rightToken then
      .throws .InvalidTreeOperation ("Invalid path direction: " ++ String.mk direction)
    else
      match (if direction = leftToken then left else right) with
      | .null => .throws .NodeNotFound "Path leads to non-existent node from base"
      | .mk d l r => GetByRelativePathLoop d l r path

/-- `BinaryTree::GetByRelativePath(base, path)`. -/
def BinaryTree.GetByRelativePath (self : BinaryTree) (base : Int) (path : List CppString) :
    Outcome Int :=
  match FindNode self.root base with
  | .null => .throws .NodeNotFound "Base node with value not found"
  | .mk data left right => GetByRelativePathLoop data left right path

/-! ## Traversal with an explicit action, and `where` (`binary_tree.cpp`, lines 523-712)

Here the action is a state transformer: `action value s` is the state of the caller's
variables after the action ran on `value` in state `s`. The action does not throw. -/

/-- `PreOrder(node, action)` as a state transformer. -/
def PreOrderWith {σ : Type} (action : Int → σ → σ) : Node → σ → σ
  | .null, s => s
  | .mk data left right, s =>
    PreOrderWith action right (PreOrderWith action left (action data s))

/-- `ReversePreOrder(node, action)` as a state transformer. -/
def ReversePreOrderWith {σ : Type} (action : Int → σ → σ) : Node → σ → σ
  | .null, s => s
  | .mk data left right, s =>
    ReversePreOrderWith action left (ReversePreOrderWith action right (action data s))

/-- `InOrder(node, action)` as a state transformer. -/
def InOrderWith {σ : Type} (action : Int → σ → σ) : Node → σ → σ
  | .null, s => s
  | .mk data left right, s =>
    InOrderWith action right (action data (InOrderWith action left s))

/-- `ReverseInOrder(node, action)` as a state transformer. -/
def ReverseInOrderWith {σ : Type} (action : Int → σ → σ) : Node → σ → σ
  | .null, s => s
  | .mk data left right, s =>
    ReverseInOrderWith action left (action data (ReverseInOrderWith action right s))

/-- `PostOrder(node, action)` as a state transformer. -/
def PostOrderWith {σ : Type} (action : Int → σ → σ) : Node → σ → σ
  | .null, s => s
  | .mk data left right, s =>
    action data (PostOrderWith action right (PostOrderWith action left s))

/-- `ReversePostOrder(node, action)` as a state transformer. -/
def ReversePostOrderWith {σ : Type} (action : Int → σ → σ) : Node → σ → σ
  | .null, s => s
  | .mk data left right, s =>
    action data (ReversePostOrderWith action left (ReversePostOrderWith action right s))

/-- The public `BinaryTree::Traverse(type, action)` as a state transformer. -/
def BinaryTree.TraverseWith {σ : Type} (self : BinaryTree) (type : TraversalType)
    (action : Int → σ → σ) (s : σ) : σ :=
  match type with
  | .PRE_ORDER => PreOrderWith action self.root s
  | .REVERSE_PRE_ORDER => ReversePreOrderWith action self.root s
  | .IN_ORDER => InOrderWith action self.root s
  | .REVERSE_IN_ORDER => ReverseInOrderWith action self.root s
  | .POST_ORDER => PostOrderWith action self.root s
  | .REVERSE_POST_ORDER => ReversePostOrderWith action self.root s

/-- The action that `where` hands to `Traverse`: `result.Insert(value)` when the predicate
holds. The state is the tree `result`, or `none` once a call of `Insert` has not returned
within `fuel` loop iterations. -/
def whereAction (fuel : Nat) (predicate : Int → Bool) (value : Int) :
    Option BinaryTree → Option BinaryTree
  | none => none
  | some result => if predicate value then result.Insert fuel value else some result

/-- `BinaryTree::where(predicate)` for a predicate that is present and does not throw: the
tree `result` after the in-order traversal, where `fuel` bounds the loop iterations of each
`Insert` and `none` means that a call has not returned. -/
def BinaryTree.where_ (self : BinaryTree) (fuel : Nat) (predicate : Int → Bool) :
    Option BinaryTree :=
  match self.root with
  | .null => some ⟨.null⟩
  | .mk _ _ _ => self.TraverseWith .IN_ORDER (whereAction fuel predicate) (some ⟨.null⟩)

/-! ## Specification-level notions for subtrees, paths and traversals -/

/-- The node `sub` is the root of the tree or of one of its subtrees. -/
def IsSubtreeOf (sub : Node) : Node → Prop
  | .null => sub = .null
  | .mk data left right =>
    sub = .mk data left right ∨ IsSubtreeOf sub left ∨ IsSubtreeOf sub right

/-- The candidate `sub` matches `ours` as far as the candidate reaches: an absent candidate
node matches anything, a present candidate node needs a present node with the same value whose
children match the candidate's children in the same way. -/
def MatchesAsFarAs : Node → Node → Prop
  | _, .null => True
  | .null, .mk _ _ _ => False
  | .mk ourData ourLeft ourRight, .mk subData subLeft subRight =>
    ourData = subData ∧ MatchesAsFarAs ourLeft subLeft ∧ MatchesAsFarAs ourRight subRight

/-- The visiting sequence that the table of the specification assigns to an order. -/
def visitSequence (type : TraversalType) : Node → List Int
  | .null => []
  | .mk data left right =>
    match type with
    | .PRE_ORDER => [data] ++ visitSequence type left ++ visitSequence type right
    | .REVERSE_PRE_ORDER => [data] ++ visitSequence type right ++ visitSequence type left
    | .IN_ORDER => visitSequence type left ++ [data] ++ visitSequence type right
    | .REVERSE_IN_ORDER => visitSequence type right ++ [data] ++ visitSequence type left
    | .POST_ORDER => visitSequence type left ++ visitSequence type right ++ [data]
    | .REVERSE_POST_ORDER => visitSequence type right ++ visitSequence type left ++ [data]

/-- An outcome without the text of the exception message: the value returned, or the class of
the exception thrown. -/
def Outcome.withoutMessage {α : Type} : Outcome α → Outcome α
  | .returns a => .returns a
  | .throws kind _ => .throws kind ""
  | .undefined => .undefined

/-- The predicate `value > 5` of the filter test of `test_all_features`. -/
def greaterThanFive (value : Int) : Bool := decide (value > 5)

/-! ## `map` (`binary_tree.cpp`, lines 645-678) -/

/-- The action that `map` hands to `Traverse`: `result.Insert(mapper(value))`. The state is
the tree `result`, or `none` once a call of `Insert` has not returned within `fuel` loop
iterations. -/
def mapAction (fuel : Nat) (mapper : Int → Int) (value : Int) :
    Option BinaryTree → Option BinaryTree
  | none => none
  | some result => result.Insert fuel (mapper value)

/-- `BinaryTree::map(mapper)` for a mapper that is present and does not throw: the tree
`result` after the pre-order traversal, where `fuel` bounds the loop iterations of each
`Insert` and `none` means that a call has not returned. -/
def BinaryTree.map (self : BinaryTree) (fuel : Nat) (mapper : Int → Int) :
    Option BinaryTree :=
  match self.root with
  | .null => some ⟨.null⟩
  | .mk _ _ _ => self.TraverseWith .PRE_ORDER (mapAction fuel mapper) (some ⟨.null⟩)

/-! ## Traversal with an action that can throw (`binary_tree.cpp`, lines 484-642)

Here `action value s` is `none` when the action throws on `value` in state `s`, and the new
state otherwise. A run records the values on which the action has been invoked. -/

/-- What a traversal has done when it ends: the values on which the action was invoked, in
the order of the calls, and how the traversal ended. -/
structure TraversalRun (σ : Type) where
  invoked : List Int
  outcome : Outcome σ

/-- Sequencing of two statements: the second runs only when the first returned; an exception
of the first leaves the function. -/
def TraversalRun.andThen {σ : Type} (run : TraversalRun σ)
    (next : σ → List Int → TraversalRun σ) : TraversalRun σ :=
  match run.outcome with
  | .returns s => next s run.invoked
  | .throws _ _ => run
  | .undefined => run

/-- The statement `try { action(node->data); } catch (...) { throw TreeException(message); }`
of the six traversal functions. -/
def callAction {σ : Type} (message : String) (action : Int → σ → Option σ) (data : Int)
    (s : σ) (invoked : List Int) : TraversalRun σ :=
  match action data s with
  | none => ⟨invoked ++ [data], .throws .TreeException message⟩
  | some s1 => ⟨invoked ++ [data], .returns s1⟩

/-- `PreOrder(node, action)` with an action that can throw. -/
def PreOrderTry {σ : Type} (action : Int → σ → Option σ) :
    Node → σ → List Int → TraversalRun σ
  | .null, s, invoked => ⟨invoked, .returns s⟩
  | .mk data left right, s, invoked =>
    ((callAction "Action failed during PreOrder traversal" action data s invoked).andThen
      (PreOrderTry action left)).andThen (PreOrderTry action right)

/-- `ReversePreOrder(node, action)` with an action that can throw. -/
def ReversePreOrderTry {σ : Type} (action : Int → σ → Option σ) :
    Node → σ → List Int → TraversalRun σ
  | .null, s, invoked => ⟨invoked, .returns s⟩
  | .mk data left right, s, invoked =>
    ((callAction "Action failed during ReversePreOrder traversal" action data s
      invoked).andThen (ReversePreOrderTry action right)).andThen
        (ReversePreOrderTry action left)

/-- `InOrder(node, action)` with an action that can throw. -/
def InOrderTry {σ : Type} (action : Int → σ → Option σ) :
    Node → σ → List Int → TraversalRun σ
  | .null, s, invoked => ⟨invoked, .returns s⟩
  | .mk data left right, s, invoked =>
    ((InOrderTry action left s invoked).andThen
      (callAction "Action failed during InOrder traversal" action data)).andThen
        (InOrderTry action right)

/-- `ReverseInOrder(node, action)` with an action that can throw. -/
def ReverseInOrderTry {σ : Type} (action : Int → σ → Option σ) :
    Node → σ → List Int → TraversalRun σ
  | .null, s, invoked => ⟨invoked, .returns s⟩
  | .mk data left right, s, invoked =>
    ((ReverseInOrderTry action right s invoked).andThen
      (callAction "Action failed during ReverseInOrder traversal" action data)).andThen
        (ReverseInOrderTry action left)

/-- `PostOrder(node, action)` with an action that can throw. -/
def PostOrderTry {σ : Type} (action : Int → σ → Option σ) :
    Node → σ → List Int → TraversalRun σ
  | .null, s, invoked => ⟨invoked, .returns s⟩
  | .mk data left right, s, invoked =>
    ((PostOrderTry action left s invoked).andThen (PostOrderTry action right)).andThen
      (callAction "Action failed during PostOrder traversal" action data)

/-- `ReversePostOrder(node, action)` with an action that can throw. -/
def ReversePostOrderTry {σ : Type} (action : Int → σ → Option σ) :
    Node → σ → List Int → TraversalRun σ
  | .null, s, invoked => ⟨invoked, .returns s⟩
  | .mk data left right, s, invoked =>
    ((ReversePostOrderTry action right s invoked).andThen
      (ReversePostOrderTry action left)).andThen
        (callAction "Action failed during ReversePostOrder traversal" action data)

/-- The handler of the public `Traverse`: an exception `e` of the traversal is rethrown as
`TreeException("Traversal failed: " + e.what())`. -/
def rethrowTraversal {σ : Type} (run : TraversalRun σ) : TraversalRun σ :=
  match run.outcome with
  | .throws _ message => ⟨run.invoked, .throws .TreeException ("Traversal failed: " ++ message)⟩
  | .returns _ => run
  | .undefined => run

/-- The public `BinaryTree::Traverse(type, action)` with an action that is present and can
throw. -/
def BinaryTree.TraverseTry {σ : Type} (self : BinaryTree) (type : TraversalType)
    (action : Int → σ → Option σ) (s : σ) : TraversalRun σ :=
  match type with
  | .PRE_ORDER => rethrowTraversal (PreOrderTry action self.root s [])
  | .REVERSE_PRE_ORDER => rethrowTraversal (ReversePreOrderTry action self.root s [])
  | .IN_ORDER => rethrowTraversal (InOrderTry action self.root s [])
  | .REVERSE_IN_ORDER => rethrowTraversal (ReverseInOrderTry action self.root s [])
  | .POST_ORDER => rethrowTraversal (PostOrderTry action self.root s [])
  | .REVERSE_POST_ORDER => rethrowTraversal (ReversePostOrderTry action self.root s [])

/-! ## Specification-level notions for positions, shapes and failing actions -/

/-- A tree with one position left open: the way from the root to that position, with the
values and the subtrees beside the way. -/
inductive Ctx where
  | hole : Ctx
  | inLeft (data : Int) (ctx : Ctx) (right : Node) : Ctx
  | inRight (data : Int) (left : Node) (ctx : Ctx) : Ctx

/-- The tree with `node` at the open position; every other node keeps value and position. -/
def plug : Ctx → Node → Node
  | .hole, node => node
  | .inLeft data ctx right, node => .mk data (plug ctx node) right
  | .inRight data left ctx, node => .mk data left (plug ctx node)

/-- The values visited in order before the open position. -/
def Ctx.before : Ctx → List Int
  | .hole => []
  | .inLeft _ ctx _ => ctx.before
  | .inRight data left ctx => InOrder left ++ data :: ctx.before

/-- The values visited in order after the open position. -/
def Ctx.after : Ctx → List Int
  | .hole => []
  | .inLeft data ctx right => ctx.after ++ data :: InOrder right
  | .inRight _ _ ctx => ctx.after

/-- One step of a path. -/
inductive Direction where
  | left
  | right
  deriving DecidableEq, Repr

/-- The value of the node to which a left/right path from the root resolves, if it resolves
to a node. -/
def valueAt : Node → List Direction → Option Int
  | .null, _ => none
  | .mk data _ _, [] => some data
  | .mk _ left _, .left :: path => valueAt left path
  | .mk _ _ right, .right :: path => valueAt right path

/-- Insertion of a value at the free position that the ordered search reaches; a tree in
which the search meets the value is left as it is. -/
def insertLeaf : Node → Int → Node
  | .null, value => .mk value .null .null
  | .mk data left right, value =>
    if value < data then .mk data (insertLeaf left value) right
    else if value > data then .mk data left (insertLeaf right value)
    else .mk data left right

/-- The tree of the same shape with the function applied to the value at every position. -/
def mapValues (f : Int → Int) : Node → Node
  | .null => .null
  | .mk data left right => .mk (f data) (mapValues f left) (mapValues f right)

/-- No node of the tree has a left child. -/
def IsRightChain : Node → Prop
  | .null => True
  | .mk _ left right => left = .null ∧ IsRightChain right

/-- The number of nodes on the longest way from the root downwards. -/
def height : Node → Nat
  | .null => 0
  | .mk _ left right => max (height left) (height right) + 1

/-- The name of an order as it occurs in the messages of the traversal functions. -/
def orderName : TraversalType → String
  | .PRE_ORDER => "PreOrder"
  | .REVERSE_PRE_ORDER => "ReversePreOrder"
  | .IN_ORDER => "InOrder"
  | .REVERSE_IN_ORDER => "ReverseInOrder"
  | .POST_ORDER => "PostOrder"
  | .REVERSE_POST_ORDER => "ReversePostOrder"

/-- Calling the action on the values of a list one after the other until it throws. -/
def runList {σ : Type} (message : String) (action : Int → σ → Option σ) :
    List Int → σ → List Int → TraversalRun σ
  | [], s, invoked => ⟨invoked, .returns s⟩
  | value :: values, s, invoked =>
    (callAction message action value s invoked).andThen (runList message action values)

/-- The mapper of the map test of `test_all_features`. -/
def doubling (value : Int) : Int := value * 2

/-- An action that counts its calls and throws on the value 5. -/
def failOnFive (value : Int) (count : Nat) : Option Nat :=
  if value = 5 then none else some (count + 1)

/-! ## Lemmas on decimal text -/

theorem digitChar_facts (d : Nat) (h : d < 10) :
    isDigit (digitChar d) = true ∧ digitVal (digitChar d) = d := by
  interval_cases d <;> decide

theorem isDigit_not_isSpace (c : Char) (h : isDigit c = true) : isSpace c = false := by
  simp only [isDigit, Bool.and_eq_true, decide_eq_true_eq] at h
  simp only [isSpace, Bool.or_eq_false_iff, decide_eq_false_iff_not, Bool.and_eq_false_imp,
    decide_eq_true_eq]
  constructor
  · rintro rfl
    have : (' ' : Char).toNat = 32 := by decide
    omega
  · omega

theorem isDigit_ne_of_toNat (c x : Char) (h : isDigit c = true)
    (hx : x.toNat < 48 ∨ 57 < x.toNat) : c ≠ x := by
  simp only [isDigit, Bool.and_eq_true, decide_eq_true_eq] at h
  rintro rfl
  omega

/-- The digits written by `toDigits` are a non-empty block of decimal digits in front of the
accumulator, and reading them back gives the number. -/
theorem toDigits_spec (fuel n : Nat) (acc : CppString) (h : n < fuel) :
    ∃ ds : CppString, toDigits fuel n acc = ds ++ acc ∧ ds ≠ [] ∧
      (∀ c ∈ ds, isDigit c = true) ∧
      ds.foldl (fun a c => a * 10 + digitVal c) 0 = n := by
  induction fuel generalizing n acc with
  | zero => omega
  | succ fuel ih =>
    by_cases h10 : n < 10
    · refine ⟨[digitChar n], ?_, by simp, ?_, ?_⟩
      · simp [toDigits, h10]
      · intro c hc
        simp only [List.mem_singleton] at hc
        subst hc
        exact (digitChar_facts n h10).1
      · simp [(digitChar_facts n h10).2]
    · have hlt : n / 10 < fuel := by omega
      obtain ⟨ds, h1, _, h3, h4⟩ := ih (n / 10) (digitChar (n % 10) :: acc) hlt
      have hd := digitChar_facts (n % 10) (Nat.mod_lt _ (by decide))
      refine ⟨ds ++ [digitChar (n % 10)], ?_, by simp, ?_, ?_⟩
      · simp [toDigits, h10, h1]
      · intro c hc
        rcases List.mem_append.1 hc with hc | hc
        · exact h3 c hc
        · simp only [List.mem_singleton] at hc
          subst hc
          exact hd.1
      · rw [List.foldl_append, h4]
        simp only [List.foldl_cons, List.foldl_nil, hd.2]
        omega

theorem parseDigits_of_digits (ds : CppString) (h : ∀ c ∈ ds, isDigit c = true) :
    parseDigits ds = ds.foldl (fun a c => a * 10 + digitVal c) 0 := by
  unfold parseDigits
  rw [List.takeWhile_eq_self_iff.2 h]

theorem clampInt_of_range (z : Int) (h1 : INT_MIN ≤ z) (h2 : z ≤ INT_MAX) : clampInt z = z := by
  unfold clampInt
  rw [if_neg (by omega), if_neg (by omega)]

/-- The text written by `std::to_string` is a single token: it is non-empty, has no whitespace
and is not the literal `null`; stream extraction reads the written value back. -/
theorem to_string_spec (v : Int) :
    to_string v ≠ [] ∧ (∀ c ∈ to_string v, isSpace c = false) ∧ to_string v ≠ nullToken ∧
      (INT_MIN ≤ v → v ≤ INT_MAX → parseInt (to_string v) = v) := by
  by_cases hv : v < 0
  · obtain ⟨ds, h1, h2, h3, h4⟩ := toDigits_spec ((-v).toNat + 1) (-v).toNat [] (by omega)
    have hs : to_string v = '-' :: ds := by simp [to_string, hv, h1]
    rw [hs]
    refine ⟨by simp, ?_, ?_, ?_⟩
    · intro c hc
      rcases List.mem_cons.1 hc with hc | hc
      · subst hc; decide
      · exact isDigit_not_isSpace c (h3 c hc)
    · simp [nullToken]
    · intro hmin hmax
      simp only [parseInt, if_true]
      rw [parseDigits_of_digits ds h3, h4]
      have : (((-v).toNat : Nat) : Int) = -v := Int.toNat_of_nonneg (by omega)
      rw [this, neg_neg]
      exact clampInt_of_range v hmin hmax
  · obtain ⟨ds, h1, h2, h3, h4⟩ := toDigits_spec (v.toNat + 1) v.toNat [] (by omega)
    have hs : to_string v = ds := by simp [to_string, hv, h1]
    rw [hs]
    refine ⟨h2, fun c hc => isDigit_not_isSpace c (h3 c hc), ?_, ?_⟩
    · rintro rfl
      have := h3 'n' (by simp [nullToken])
      revert this
      decide
    · intro hmin hmax
      cases ds with
      | nil => exact absurd rfl h2
      | cons c cs =>
        have hc := h3 c (by simp)
        have hm : c ≠ '-' := isDigit_ne_of_toNat c '-' hc (by decide)
        have hp : c ≠ '+' := isDigit_ne_of_toNat c '+' hc (by decide)
        simp only [parseInt, if_neg hm, if_neg hp]
        rw [parseDigits_of_digits (c :: cs) h3, h4]
        have : ((v.toNat : Nat) : Int) = v := Int.toNat_of_nonneg (by omega)
        rw [this]
        exact clampInt_of_range v hmin hmax

/-! ## Lemmas on tokenizing -/

theorem tokenizeAux_token (tok rest cur : CppString) (hns : ∀ c ∈ tok, isSpace c = false)
    (hne : cur ++ tok ≠ []) :
    tokenizeAux (tok ++ ' ' :: rest) cur = (cur.reverse ++ tok) :: tokenizeAux rest [] := by
  induction tok generalizing cur with
  | nil =>
    have hcur : cur ≠ [] := by simpa using hne
    have hsp : isSpace ' ' = true := by decide
    simp [tokenizeAux, hsp, hcur]
  | cons c cs ih =>
    have hc : isSpace c = false := hns c (by simp)
    have := ih (c :: cur) (fun x hx => hns x (List.mem_cons_of_mem _ hx)) (by simp)
    simp only [List.cons_append, tokenizeAux, hc]
    simpa using this

/-- A token followed by one space is read as that token. -/
theorem tokenize_token (tok rest : CppString) (hns : ∀ c ∈ tok, isSpace c = false)
    (hne : tok ≠ []) :
    tokenize ((tok ++ [' ']) ++ rest) = tok :: tokenize rest := by
  have := tokenizeAux_token tok rest [] hns (by simpa using hne)
  simpa [tokenize] using this

theorem nullToken_spec : nullToken ≠ [] ∧ ∀ c ∈ nullToken, isSpace c = false := by
  decide

/-! ## Serialization followed by deserialization -/

theorem SerializePreOrder_append (node : Node) (result : CppString) :
    SerializePreOrder node result = result ++ SerializePreOrder node [] := by
  induction node generalizing result with
  | null => simp [SerializePreOrder]
  | mk data left right ihl ihr =>
    simp only [SerializePreOrder]
    rw [ihr, ihl, ihr (SerializePreOrder left _), ihl ([] ++ _)]
    simp [List.append_assoc]

theorem SerializeReversePreOrder_append (node : Node) (result : CppString) :
    SerializeReversePreOrder node result = result ++ SerializeReversePreOrder node [] := by
  induction node generalizing result with
  | null => simp [SerializeReversePreOrder]
  | mk data left right ihl ihr =>
    simp only [SerializeReversePreOrder]
    rw [ihl, ihr, ihl (SerializeReversePreOrder right _), ihr ([] ++ _)]
    simp [List.append_assoc]

theorem SerializePostOrder_append (node : Node) (result : CppString) :
    SerializePostOrder node result = result ++ SerializePostOrder node [] := by
  induction node generalizing result with
  | null => simp [SerializePostOrder]
  | mk data left right ihl ihr =>
    simp only [SerializePostOrder]
    rw [ihr, ihl, ihr (SerializePostOrder left _)]
    simp [List.append_assoc]

theorem SerializeReversePostOrder_append (node : Node) (result : CppString) :
    SerializeReversePostOrder node result = result ++ SerializeReversePostOrder node [] := by
  induction node generalizing result with
  | null => simp [SerializeReversePostOrder]
  | mk data left right ihl ihr =>
    simp only [SerializeReversePostOrder]
    rw [ihl, ihr, ihl (SerializeReversePostOrder right _)]
    simp [List.append_assoc]

/-- The tokens read from a pre-order serialization are the pre-order token stream. -/
theorem tokenize_SerializePreOrder (node : Node) (rest : CppString) :
    tokenize (SerializePreOrder node [] ++ rest) = preOrderTokens node ++ tokenize rest := by
  induction node generalizing rest with
  | null =>
    simpa [SerializePreOrder, preOrderTokens] using
      tokenize_token nullToken rest nullToken_spec.2 nullToken_spec.1
  | mk data left right ihl ihr =>
    obtain ⟨hne, hns, _, _⟩ := to_string_spec data
    simp only [SerializePreOrder, preOrderTokens]
    rw [SerializePreOrder_append right, SerializePreOrder_append left]
    have e : ([] ++ (to_string data ++ [' ']) ++ SerializePreOrder left [] ++
        SerializePreOrder right []) ++ rest =
        (to_string data ++ [' ']) ++
          (SerializePreOrder left [] ++ (SerializePreOrder right [] ++ rest)) := by
      simp [List.append_assoc]
    rw [e, tokenize_token _ _ hns hne, ihl, ihr]
    simp [List.append_assoc]

/-- The tokens read from a reverse pre-order serialization. -/
theorem tokenize_SerializeReversePreOrder (node : Node) (rest : CppString) :
    tokenize (SerializeReversePreOrder node [] ++ rest) =
      reversePreOrderTokens node ++ tokenize rest := by
  induction node generalizing rest with
  | null =>
    simpa [SerializeReversePreOrder, reversePreOrderTokens] using
      tokenize_token nullToken rest nullToken_spec.2 nullToken_spec.1
  | mk data left right ihl ihr =>
    obtain ⟨hne, hns, _, _⟩ := to_string_spec data
    simp only [SerializeReversePreOrder, reversePreOrderTokens]
    rw [SerializeReversePreOrder_append left, SerializeReversePreOrder_append right]
    have e : ([] ++ (to_string data ++ [' ']) ++ SerializeReversePreOrder right [] ++
        SerializeReversePreOrder left []) ++ rest =
        (to_string data ++ [' ']) ++
          (SerializeReversePreOrder right [] ++ (SerializeReversePreOrder left [] ++ rest)) := by
      simp [List.append_assoc]
    rw [e, tokenize_token _ _ hns hne, ihr, ihl]
    simp [List.append_assoc]

/-- The tokens read from a post-order serialization are the post-order token stream. -/
theorem tokenize_SerializePostOrder (node : Node) (rest : CppString) :
    tokenize (SerializePostOrder node [] ++ rest) = postOrderTokens node ++ tokenize rest := by
  induction node generalizing rest with
  | null =>
    simpa [SerializePostOrder, postOrderTokens] using
      tokenize_token nullToken rest nullToken_spec.2 nullToken_spec.1
  | mk data left right ihl ihr =>
    obtain ⟨hne, hns, _, _⟩ := to_string_spec data
    simp only [SerializePostOrder, postOrderTokens]
    rw [SerializePostOrder_append right]
    have e : (SerializePostOrder left [] ++ SerializePostOrder right [] ++
        (to_string data ++ [' '])) ++ rest =
        SerializePostOrder left [] ++ (SerializePostOrder right [] ++
          ((to_string data ++ [' ']) ++ rest)) := by
      simp [List.append_assoc]
    rw [e, ihl, ihr, tokenize_token _ _ hns hne]
    simp [List.append_assoc]

/-- The tokens read from a reverse post-order serialization are the texts of the values in
reverse post-order; no `null` token is among them. -/
theorem tokenize_SerializeReversePostOrder (node : Node) (rest : CppString) :
    tokenize (SerializeReversePostOrder node [] ++ rest) =
      (ReversePostOrder node).map to_string ++ tokenize rest := by
  induction node generalizing rest with
  | null => simp [SerializeReversePostOrder, ReversePostOrder]
  | mk data left right ihl ihr =>
    obtain ⟨hne, hns, _, _⟩ := to_string_spec data
    simp only [SerializeReversePostOrder, ReversePostOrder]
    rw [SerializeReversePostOrder_append left]
    have e : (SerializeReversePostOrder right [] ++ SerializeReversePostOrder left [] ++
        (to_string data ++ [' '])) ++ rest =
        SerializeReversePostOrder right [] ++ (SerializeReversePostOrder left [] ++
          ((to_string data ++ [' ']) ++ rest)) := by
      simp [List.append_assoc]
    rw [e, ihr, ihl, tokenize_token _ _ hns hne]
    simp [List.append_assoc]

theorem preOrderTokens_length (node : Node) :
    (preOrderTokens node).length = 2 * nodeCount node + 1 := by
  induction node with
  | null => rfl
  | mk data left right ihl ihr => simp [preOrderTokens, nodeCount, ihl, ihr]; omega

theorem reversePreOrderTokens_length (node : Node) :
    (reversePreOrderTokens node).length = 2 * nodeCount node + 1 := by
  induction node with
  | null => rfl
  | mk data left right ihl ihr => simp [reversePreOrderTokens, nodeCount, ihl, ihr]; omega

/-- Reading a pre-order token stream rebuilds the tree and leaves the rest of the queue. -/
theorem DeserializePreOrder_tokens (node : Node) (h : InIntRange node) (fuel : Nat)
    (rest : List CppString) (hf : 2 * nodeCount node + 1 ≤ fuel) :
    DeserializePreOrder fuel (preOrderTokens node ++ rest) = some (node, rest) := by
  induction node generalizing fuel rest with
  | null =>
    cases fuel with
    | zero => omega
    | succ fuel => simp [preOrderTokens, DeserializePreOrder]
  | mk data left right ihl ihr =>
    obtain ⟨h1, h2, hl, hr⟩ := h
    obtain ⟨_, _, hnn, hp⟩ := to_string_spec data
    cases fuel with
    | zero => omega
    | succ fuel =>
      simp only [nodeCount] at hf
      have e : preOrderTokens (.mk data left right) ++ rest =
          to_string data :: (preOrderTokens left ++ (preOrderTokens right ++ rest)) := by
        simp [preOrderTokens, List.append_assoc]
      rw [e]
      simp only [DeserializePreOrder, if_neg hnn]
      rw [ihl hl fuel _ (by omega)]
      simp only []
      rw [ihr hr fuel _ (by omega)]
      simp only [hp h1 h2]

/-- Reading a reverse pre-order token stream rebuilds the tree. -/
theorem DeserializeReversePreOrder_tokens (node : Node) (h : InIntRange node) (fuel : Nat)
    (rest : List CppString) (hf : 2 * nodeCount node + 1 ≤ fuel) :
    DeserializeReversePreOrder fuel (reversePreOrderTokens node ++ rest) = some (node, rest) := by
  induction node generalizing fuel rest with
  | null =>
    cases fuel with
    | zero => omega
    | succ fuel => simp [reversePreOrderTokens, DeserializeReversePreOrder]
  | mk data left right ihl ihr =>
    obtain ⟨h1, h2, hl, hr⟩ := h
    obtain ⟨_, _, hnn, hp⟩ := to_string_spec data
    cases fuel with
    | zero => omega
    | succ fuel =>
      simp only [nodeCount] at hf
      have e : reversePreOrderTokens (.mk data left right) ++ rest =
          to_string data ::
            (reversePreOrderTokens right ++ (reversePreOrderTokens left ++ rest)) := by
        simp [reversePreOrderTokens, List.append_assoc]
      rw [e]
      simp only [DeserializeReversePreOrder, if_neg hnn]
      rw [ihr hr fuel _ (by omega)]
      simp only []
      rw [ihl hl fuel _ (by omega)]
      simp only [hp h1 h2]

/-- Processing a post-order token stream pushes the tree on the stack. -/
theorem DeserializePostOrder_tokens (node : Node) (h : InIntRange node)
    (rest : List CppString) (nodeStack : List Node) :
    DeserializePostOrder (postOrderTokens node ++ rest) nodeStack =
      DeserializePostOrder rest (node :: nodeStack) := by
  induction node generalizing rest nodeStack with
  | null => simp [postOrderTokens, DeserializePostOrder]
  | mk data left right ihl ihr =>
    obtain ⟨h1, h2, hl, hr⟩ := h
    obtain ⟨_, _, hnn, hp⟩ := to_string_spec data
    have e : postOrderTokens (.mk data left right) ++ rest =
        postOrderTokens left ++ (postOrderTokens right ++ (to_string data :: rest)) := by
      simp [postOrderTokens, List.append_assoc]
    rw [e, ihl hl, ihr hr]
    simp only [DeserializePostOrder, if_neg hnn, hp h1 h2]

/-- The recursion bound of `DeserializePreOrder` is not reached when it exceeds the length of
the queue, and the queue does not grow. -/
theorem DeserializePreOrder_isSome (fuel : Nat) (elements : List CppString)
    (h : elements.length < fuel) :
    ∃ node rest, DeserializePreOrder fuel elements = some (node, rest) ∧
      rest.length ≤ elements.length := by
  induction fuel generalizing elements with
  | zero => omega
  | succ fuel ih =>
    cases elements with
    | nil => exact ⟨.null, [], rfl, le_refl _⟩
    | cons token elements =>
      simp only [List.length_cons] at h
      by_cases hn : token = nullToken
      · exact ⟨.null, elements, by simp [DeserializePreOrder, hn], by simp⟩
      · obtain ⟨l, r1, e1, h1⟩ := ih elements (by omega)
        obtain ⟨r, r2, e2, h2⟩ := ih r1 (by omega)
        refine ⟨.mk (parseInt token) l r, r2, by simp [DeserializePreOrder, hn, e1, e2], ?_⟩
        simp only [List.length_cons]
        omega

/-- The recursion bound of `DeserializeReversePreOrder` is not reached when it exceeds the
length of the queue, and the queue does not grow. -/
theorem DeserializeReversePreOrder_isSome (fuel : Nat) (elements : List CppString)
    (h : elements.length < fuel) :
    ∃ node rest, DeserializeReversePreOrder fuel elements = some (node, rest) ∧
      rest.length ≤ elements.length := by
  induction fuel generalizing elements with
  | zero => omega
  | succ fuel ih =>
    cases elements with
    | nil => exact ⟨.null, [], rfl, le_refl _⟩
    | cons token elements =>
      simp only [List.length_cons] at h
      by_cases hn : token = nullToken
      · exact ⟨.null, elements, by simp [DeserializeReversePreOrder, hn], by simp⟩
      · obtain ⟨r, r1, e1, h1⟩ := ih elements (by omega)
        obtain ⟨l, r2, e2, h2⟩ := ih r1 (by omega)
        refine ⟨.mk (parseInt token) l r, r2,
          by simp [DeserializeReversePreOrder, hn, e1, e2], ?_⟩
        simp only [List.length_cons]
        omega

/-- The model of `deserialize` always yields an effect: the recursion bound it chooses is
sufficient for every input. -/
theorem deserialize_isSome (self : BinaryTree) (data : CppString) (type : TraversalType) :
    ∃ effect, self.deserialize data type = some effect := by
  cases type with
  | PRE_ORDER =>
    obtain ⟨n, r, e, _⟩ :=
      DeserializePreOrder_isSome ((tokenize data).length + 1) (tokenize data) (by omega)
    exact ⟨deserializeFinish n r, by simp [BinaryTree.deserialize, e]⟩
  | REVERSE_PRE_ORDER =>
    obtain ⟨n, r, e, _⟩ :=
      DeserializeReversePreOrder_isSome ((tokenize data).length + 1) (tokenize data) (by omega)
    exact ⟨deserializeFinish n r, by simp [BinaryTree.deserialize, e]⟩
  | IN_ORDER => exact ⟨_, rfl⟩
  | REVERSE_IN_ORDER => exact ⟨_, rfl⟩
  | POST_ORDER =>
    simp only [BinaryTree.deserialize]
    cases DeserializePostOrder (tokenize data) [] <;> exact ⟨_, rfl⟩
  | REVERSE_POST_ORDER =>
    simp only [BinaryTree.deserialize]
    cases DeserializeReversePostOrder (tokenize data) [] <;> exact ⟨_, rfl⟩

theorem tokenize_nil : tokenize [] = [] := rfl

/-! ## Round trips of the codec (claims C1 to C4) -/

/-- C1: for every tree `T` of `int` values (the empty tree included) and every target tree,
`serialize(PRE_ORDER)` returns a string, and `deserialize` of that string with `PRE_ORDER`
returns normally and leaves the target equal to `T`, node for node. -/
theorem preorder_roundtrip (T target : BinaryTree) (h : InIntRange T.root) :
    T.serialize .PRE_ORDER = .returns (SerializePreOrder T.root []) ∧
      target.deserialize (SerializePreOrder T.root []) .PRE_ORDER = some (.returns T) := by
  refine ⟨rfl, ?_⟩
  have ht : tokenize (SerializePreOrder T.root []) = preOrderTokens T.root := by
    have := tokenize_SerializePreOrder T.root []
    simpa [tokenize_nil] using this
  have hd := DeserializePreOrder_tokens T.root h ((preOrderTokens T.root).length + 1) []
    (by rw [preOrderTokens_length]; omega)
  rw [List.append_nil] at hd
  simp only [BinaryTree.deserialize, ht, hd, Option.map_some', deserializeFinish, if_true]

/-- C1, at the tree built from 10, 5, 15, 3, 7 and a non-empty target. -/
theorem preorder_roundtrip_witness :
    InIntRange exampleTree.root ∧
      (exampleTree.serialize .PRE_ORDER = .returns (SerializePreOrder exampleTree.root []) ∧
        (singletonTree 1).deserialize (SerializePreOrder exampleTree.root []) .PRE_ORDER
          = some (.returns exampleTree)) :=
  ⟨by decide, preorder_roundtrip exampleTree (singletonTree 1) (by decide)⟩

/-- C2, what the code does: `SerializeReversePostOrder` writes no `null` token, so the string
written for a tree is never read back. For the empty tree the string is empty and
`deserialize` throws; for every other tree the first token is a value token, which the decoder
meets with an empty stack (`top()` on an empty `std::stack`). -/
theorem reverse_postorder_roundtrip_fails (T target : BinaryTree) :
    T.serialize .REVERSE_POST_ORDER = .returns (SerializeReversePostOrder T.root []) ∧
      target.deserialize (SerializeReversePostOrder T.root []) .REVERSE_POST_ORDER =
        some (if T.root = .null then .throws .TreeException "Deserialization failed" ⟨.null⟩
          else .undefined) := by
  refine ⟨rfl, ?_⟩
  have ht : tokenize (SerializeReversePostOrder T.root []) =
      (ReversePostOrder T.root).map to_string := by
    have := tokenize_SerializeReversePostOrder T.root []
    simpa [tokenize_nil] using this
  simp only [BinaryTree.deserialize, ht]
  cases hT : T.root with
  | null => simp [ReversePostOrder, DeserializeReversePostOrder]
  | mk data left right =>
    have hne : (ReversePostOrder (.mk data left right)).map to_string ≠ [] := by
      simp [ReversePostOrder]
    have hall : ∀ tok ∈ (ReversePostOrder (.mk data left right)).map to_string,
        tok ≠ nullToken := by
      intro tok htok
      obtain ⟨v, _, rfl⟩ := List.mem_map.1 htok
      exact (to_string_spec v).2.2.1
    cases hl : (ReversePostOrder (.mk data left right)).map to_string with
    | nil => exact absurd hl hne
    | cons tok toks =>
      have : tok ≠ nullToken := hall tok (by rw [hl]; simp)
      simp [DeserializeReversePostOrder, this]

/-- C3: for every tree `T` of `int` values (the empty tree included) and every target tree,
`serialize(POST_ORDER)` returns a string whose tokens the stack decoder consumes ending with
exactly the one subtree `T` on its stack, and `deserialize` with `POST_ORDER` returns normally
and leaves the target equal to `T`. -/
theorem postorder_roundtrip (T target : BinaryTree) (h : InIntRange T.root) :
    T.serialize .POST_ORDER = .returns (SerializePostOrder T.root []) ∧
      DeserializePostOrder (tokenize (SerializePostOrder T.root [])) [] = .returns T.root ∧
      target.deserialize (SerializePostOrder T.root []) .POST_ORDER = some (.returns T) := by
  have ht : tokenize (SerializePostOrder T.root []) = postOrderTokens T.root := by
    have := tokenize_SerializePostOrder T.root []
    simpa [tokenize_nil] using this
  have hd : DeserializePostOrder (postOrderTokens T.root) [] = .returns T.root := by
    have := DeserializePostOrder_tokens T.root h [] []
    rw [List.append_nil] at this
    rw [this]
    simp [DeserializePostOrder]
  refine ⟨rfl, by rw [ht, hd], ?_⟩
  simp only [BinaryTree.deserialize, ht, hd, deserializeFinish, if_true]

/-- C3, at the tree built from 10, 5, 15, 3, 7 and a non-empty target. -/
theorem postorder_roundtrip_witness :
    InIntRange exampleTree.root ∧
      (exampleTree.serialize .POST_ORDER = .returns (SerializePostOrder exampleTree.root []) ∧
        DeserializePostOrder (tokenize (SerializePostOrder exampleTree.root [])) []
          = .returns exampleTree.root ∧
        (singletonTree 1).deserialize (SerializePostOrder exampleTree.root []) .POST_ORDER
          = some (.returns exampleTree)) :=
  ⟨by decide, postorder_roundtrip exampleTree (singletonTree 1) (by decide)⟩

/-- C4: for every tree `T` of `int` values (the empty tree included) and every target tree,
`serialize(REVERSE_PRE_ORDER)` returns a string, and `deserialize` of that string with
`REVERSE_PRE_ORDER` returns normally and leaves the target equal to `T`, node for node. -/
theorem reverse_preorder_roundtrip (T target : BinaryTree) (h : InIntRange T.root) :
    T.serialize .REVERSE_PRE_ORDER = .returns (SerializeReversePreOrder T.root []) ∧
      target.deserialize (SerializeReversePreOrder T.root []) .REVERSE_PRE_ORDER
        = some (.returns T) := by
  refine ⟨rfl, ?_⟩
  have ht : tokenize (SerializeReversePreOrder T.root []) = reversePreOrderTokens T.root := by
    have := tokenize_SerializeReversePreOrder T.root []
    simpa [tokenize_nil] using this
  have hd := DeserializeReversePreOrder_tokens T.root h
    ((reversePreOrderTokens T.root).length + 1) []
    (by rw [reversePreOrderTokens_length]; omega)
  rw [List.append_nil] at hd
  simp only [BinaryTree.deserialize, ht, hd, Option.map_some', deserializeFinish, if_true]

/-- C4, at the tree built from 10, 5, 15, 3, 7 and a non-empty target. -/
theorem reverse_preorder_roundtrip_witness :
    InIntRange exampleTree.root ∧
      (exampleTree.serialize .REVERSE_PRE_ORDER
          = .returns (SerializeReversePreOrder exampleTree.root []) ∧
        (singletonTree 1).deserialize (SerializeReversePreOrder exampleTree.root [])
          .REVERSE_PRE_ORDER = some (.returns exampleTree)) :=
  ⟨by decide, reverse_preorder_roundtrip exampleTree (singletonTree 1) (by decide)⟩

/-! ## Insertion and membership (claims C5 to C7) -/

theorem nodeCount_eq_length (node : Node) : nodeCount node = (InOrder node).length := by
  induction node with
  | null => rfl
  | mk data left right ihl ihr => simp [nodeCount, InOrder, ihl, ihr]; omega

/-- The in-order sequence of a tree that satisfies the invariant is strictly ascending. -/
theorem IsBST.sorted (node : Node) (h : IsBST node) : List.Sorted (· < ·) (InOrder node) := by
  induction node with
  | null => simp [InOrder]
  | mk data left right ihl ihr =>
    obtain ⟨h1, h2, hl, hr⟩ := h
    simp only [InOrder, List.Sorted, List.pairwise_append, List.pairwise_cons]
    refine ⟨ihl hl, ⟨h2, ihr hr⟩, ?_⟩
    intro a ha b hb
    rcases List.mem_cons.1 hb with hb | hb
    · subst hb; exact h1 a ha
    · exact lt_trans (h1 a ha) (h2 b hb)

/-- The loop of `Insert` is left after at most as many iterations as the subtree has nodes when
the value is not in the subtree; the new subtree holds the old values and the new one, and the
invariant is kept. -/
theorem InsertLoop_spec (fuel : Nat) (data : Int) (left right : Node) (value : Int)
    (hnot : value ∉ InOrder (.mk data left right))
    (hf : nodeCount (.mk data left right) ≤ fuel) :
    ∃ node, InsertLoop fuel data left right value = some node ∧
      List.Perm (InOrder node) (value :: InOrder (.mk data left right)) ∧
      (IsBST (.mk data left right) → IsBST node) := by
  induction fuel generalizing data left right with
  | zero => simp [nodeCount] at hf
  | succ fuel ih =>
    simp only [InOrder, List.mem_append, List.mem_cons, not_or] at hnot
    obtain ⟨hnl, hnd, hnr⟩ := hnot
    simp only [nodeCount] at hf
    by_cases hlt : value < data
    · cases left with
      | null =>
        refine ⟨.mk data (.mk value .null .null) right, by simp [InsertLoop, hlt], ?_, ?_⟩
        · simp [InOrder]
        · rintro ⟨_, h2, _, hr⟩
          refine ⟨?_, h2, ⟨by simp [InOrder], by simp [InOrder], trivial, trivial⟩, hr⟩
          intro x hx
          simp only [InOrder, List.nil_append, List.mem_singleton] at hx
          subst hx; exact hlt
      | mk d l r =>
        obtain ⟨node, e, hp, hb⟩ := ih d l r hnl (by omega)
        refine ⟨.mk data node right, by simp [InsertLoop, hlt, e], ?_, ?_⟩
        · simpa [InOrder] using hp.append_right (data :: InOrder right)
        · rintro ⟨h1, h2, hl, hr⟩
          refine ⟨?_, h2, hb hl, hr⟩
          intro x hx
          rcases List.mem_cons.1 (hp.mem_iff.1 hx) with hx | hx
          · subst hx; exact hlt
          · exact h1 x hx
    · have hgt : value > data := lt_of_le_of_ne (not_lt.1 hlt) (Ne.symm hnd)
      cases right with
      | null =>
        refine ⟨.mk data left (.mk value .null .null), by simp [InsertLoop, hlt, hgt], ?_, ?_⟩
        · have h1 : List.Perm (InOrder left ++ [data, value]) (value :: (InOrder left ++ [data])) := by
            have : InOrder left ++ [data, value] = (InOrder left ++ [data]) ++ [value] := by simp
            rw [this]
            exact List.perm_append_singleton value _
          simpa [InOrder] using h1
        · rintro ⟨h1, _, hl, _⟩
          refine ⟨h1, ?_, hl, ⟨by simp [InOrder], by simp [InOrder], trivial, trivial⟩⟩
          intro x hx
          simp only [InOrder, List.nil_append, List.mem_singleton] at hx
          subst hx; exact hgt
      | mk d l r =>
        obtain ⟨node, e, hp, hb⟩ := ih d l r hnr (by omega)
        refine ⟨.mk data left node, by simp [InsertLoop, hlt, hgt, e], ?_, ?_⟩
        · have h1 : List.Perm (InOrder left ++ data :: InOrder node)
              (InOrder left ++ data :: value :: InOrder (.mk d l r)) :=
            (hp.cons data).append_left _
          have h2 : List.Perm (data :: value :: InOrder (.mk d l r))
              (value :: data :: InOrder (.mk d l r)) := List.Perm.swap _ _ _
          exact (h1.trans (h2.append_left _)).trans List.perm_middle
        · rintro ⟨h1, h2, hl, hr⟩
          refine ⟨h1, ?_, hl, hb hr⟩
          intro x hx
          rcases List.mem_cons.1 (hp.mem_iff.1 hx) with hx | hx
          · subst hx; exact hgt
          · exact h2 x hx

/-- One call of `Insert` with a value that is not in the tree returns within as many loop
iterations as the tree has nodes, adds the value and keeps the invariant. -/
theorem Insert_spec (tree : BinaryTree) (fuel : Nat) (value : Int)
    (hnot : value ∉ InOrder tree.root) (hf : nodeCount tree.root ≤ fuel) :
    ∃ tree1, tree.Insert fuel value = some tree1 ∧
      List.Perm (InOrder tree1.root) (value :: InOrder tree.root) ∧
      (IsBST tree.root → IsBST tree1.root) := by
  obtain ⟨root⟩ := tree
  cases root with
  | null =>
    refine ⟨⟨.mk value .null .null⟩, rfl, by simp [InOrder], ?_⟩
    intro _
    exact ⟨by simp [InOrder], by simp [InOrder], trivial, trivial⟩
  | mk data left right =>
    obtain ⟨node, e, hp, hb⟩ := InsertLoop_spec fuel data left right value hnot hf
    exact ⟨⟨node⟩, by simp [BinaryTree.Insert, e], hp, hb⟩

/-- Inserting pairwise distinct values that are not yet in the tree, one after the other. -/
theorem InsertAll_spec (fuel : Nat) (values : List Int) (tree : BinaryTree)
    (hb : IsBST tree.root) (hnd : values.Nodup) (hdis : ∀ v ∈ values, v ∉ InOrder tree.root)
    (hf : nodeCount tree.root + values.length ≤ fuel) :
    ∃ tree1, InsertAll fuel tree values = some tree1 ∧ IsBST tree1.root ∧
      List.Perm (InOrder tree1.root) (InOrder tree.root ++ values) := by
  induction values generalizing tree with
  | nil => exact ⟨tree, rfl, hb, by simp⟩
  | cons v vs ih =>
    obtain ⟨hv, hvs⟩ := List.nodup_cons.1 hnd
    simp only [List.length_cons] at hf
    obtain ⟨t1, e, hp, hb1⟩ := Insert_spec tree fuel v (hdis v (by simp)) (by omega)
    have hcount : nodeCount t1.root = nodeCount tree.root + 1 := by
      rw [nodeCount_eq_length, nodeCount_eq_length, hp.length_eq]; simp
    have hdis1 : ∀ w ∈ vs, w ∉ InOrder t1.root := by
      intro w hw hmem
      rcases List.mem_cons.1 (hp.mem_iff.1 hmem) with h | h
      · subst h; exact hv hw
      · exact hdis w (List.mem_cons_of_mem _ hw) h
    obtain ⟨t2, e2, hb2, hp2⟩ := ih t1 (hb1 hb) hvs hdis1 (by omega)
    refine ⟨t2, by simp [InsertAll, e, e2], hb2, ?_⟩
    exact (hp2.trans (hp.append_right vs)).trans List.perm_middle.symm

/-- On a tree that satisfies the invariant the loop of `Contains` finds every stored value. -/
theorem ContainsLoop_of_mem (node : Node) (value : Int) (hb : IsBST node)
    (hm : value ∈ InOrder node) : ContainsLoop node value = .returns true := by
  induction node with
  | null => simp [InOrder] at hm
  | mk data left right ihl ihr =>
    obtain ⟨h1, h2, hl, hr⟩ := hb
    simp only [InOrder, List.mem_append, List.mem_cons] at hm
    by_cases heq : value = data
    · simp [ContainsLoop, heq]
    · by_cases hlt : value < data
      · have hml : value ∈ InOrder left := by
          rcases hm with h | h | h
          · exact h
          · exact absurd h heq
          · exact absurd (h2 value h) (by omega)
        cases left with
        | null => simp [InOrder] at hml
        | mk d l r => simpa [ContainsLoop, heq, hlt] using ihl hl hml
      · have hmr : value ∈ InOrder right := by
          rcases hm with h | h | h
          · exact absurd (h1 value h) hlt
          · exact absurd h heq
          · exact h
        cases right with
        | null => simp [InOrder] at hmr
        | mk d l r => simpa [ContainsLoop, heq, hlt] using ihr hr hmr

/-- The loop of `Contains`, entered at a node, is never left through its final
`return false`. -/
theorem ContainsLoop_ne_false (node : Node) (value : Int) (hn : node ≠ .null) :
    ContainsLoop node value ≠ .returns false := by
  induction node with
  | null => exact absurd rfl hn
  | mk data left right ihl ihr =>
    by_cases heq : value = data
    · simp [ContainsLoop, heq]
    · by_cases hlt : value < data
      · cases left with
        | null => simp [ContainsLoop, heq, hlt]
        | mk d l r => simpa [ContainsLoop, heq, hlt] using ihl (by simp)
      · cases right with
        | null => simp [ContainsLoop, heq, hlt]
        | mk d l r => simpa [ContainsLoop, heq, hlt] using ihr (by simp)

/-- The loop of `Contains`, entered at a node, either finds the value, which is then stored in
the tree, or throws. -/
theorem ContainsLoop_cases (node : Node) (value : Int) (hn : node ≠ .null) :
    (ContainsLoop node value = .returns true ∧ value ∈ InOrder node) ∨
      ∃ message, ContainsLoop node value = .throws .TreeException message := by
  induction node with
  | null => exact absurd rfl hn
  | mk data left right ihl ihr =>
    by_cases heq : value = data
    · left; simp [ContainsLoop, heq, InOrder]
    · by_cases hlt : value < data
      · cases left with
        | null =>
          right
          exact ⟨"Value not found - left subtree ended", by simp [ContainsLoop, heq, hlt]⟩
        | mk d l r =>
          rcases ihl (by simp) with ⟨h1, h2⟩ | ⟨m, hm⟩
          · left
            refine ⟨by simpa [ContainsLoop, heq, hlt] using h1, ?_⟩
            simp only [InOrder, List.mem_append] at h2 ⊢
            exact Or.inl h2
          · right; exact ⟨m, by simpa [ContainsLoop, heq, hlt] using hm⟩
      · cases right with
        | null =>
          right
          exact ⟨"Value not found - right subtree ended", by simp [ContainsLoop, heq, hlt]⟩
        | mk d l r =>
          rcases ihr (by simp) with ⟨h1, h2⟩ | ⟨m, hm⟩
          · left
            refine ⟨by simpa [ContainsLoop, heq, hlt] using h1, ?_⟩
            simp only [InOrder, List.mem_append, List.mem_cons] at h2 ⊢
            exact Or.inr (Or.inr h2)
          · right; exact ⟨m, by simpa [ContainsLoop, heq, hlt] using hm⟩

/-- C5, what the code does: for every tree (the empty tree included) and every value that is
not stored in it, `Contains` throws a `TreeException`; it does not return `false`. -/
theorem Contains_throws_when_absent (tree : BinaryTree) (value : Int)
    (h : value ∉ InOrder tree.root) :
    ∃ message, tree.Contains value = .throws .TreeException message := by
  obtain ⟨root⟩ := tree
  cases root with
  | null => exact ⟨_, rfl⟩
  | mk data left right =>
    rcases ContainsLoop_cases (.mk data left right) value (by simp) with ⟨_, h2⟩ | ⟨m, hm⟩
    · exact absurd h2 h
    · exact ⟨m, by simpa [BinaryTree.Contains, BinaryTree.IsEmpty] using hm⟩

/-- C5, at the empty tree and the value 5. -/
theorem Contains_throws_when_absent_witness :
    (5 : Int) ∉ InOrder emptyTree.root ∧
      ∃ message, emptyTree.Contains 5 = .throws .TreeException message :=
  ⟨by decide, Contains_throws_when_absent emptyTree 5 (by decide)⟩

/-- C6: for every list of pairwise distinct values, inserting them one by one into an empty
tree returns every time (within as many loop iterations as there are values), and in the
resulting tree `Contains` returns `true` for every value of the list. -/
theorem Contains_after_InsertAll (values : List Int) (hnd : values.Nodup) (fuel : Nat)
    (hf : values.length ≤ fuel) :
    ∃ tree, InsertAll fuel emptyTree values = some tree ∧
      ∀ v ∈ values, tree.Contains v = .returns true := by
  obtain ⟨tree, e, hb, hp⟩ := InsertAll_spec fuel values emptyTree trivial hnd
    (by intro v _; simp [emptyTree, InOrder]) (by simpa [emptyTree, nodeCount] using hf)
  refine ⟨tree, e, ?_⟩
  intro v hv
  have hm : v ∈ InOrder tree.root := by
    rw [hp.mem_iff]; simpa [emptyTree, InOrder] using hv
  have hl := ContainsLoop_of_mem tree.root v hb hm
  obtain ⟨root⟩ := tree
  cases root with
  | null => simp [InOrder] at hm
  | mk data left right => simpa [BinaryTree.Contains, BinaryTree.IsEmpty] using hl

/-- C6, at the values 10, 5, 15, 3, 7. -/
theorem Contains_after_InsertAll_witness :
    [10, 5, 15, 3, 7].Nodup ∧ [10, 5, 15, 3, 7].length ≤ 5 ∧
      ∃ tree, InsertAll 5 emptyTree [10, 5, 15, 3, 7] = some tree ∧
        ∀ v ∈ [10, 5, 15, 3, 7], tree.Contains v = .returns true :=
  ⟨by decide, by decide, Contains_after_InsertAll [10, 5, 15, 3, 7] (by decide) 5 (by decide)⟩

/-- C7: for every list of pairwise distinct values, inserting them one by one into an empty
tree returns every time, and the in-order traversal of the resulting tree is strictly
ascending and visits exactly the inserted values, each once. -/
theorem InOrder_after_InsertAll (values : List Int) (hnd : values.Nodup) (fuel : Nat)
    (hf : values.length ≤ fuel) :
    ∃ tree, InsertAll fuel emptyTree values = some tree ∧
      List.Sorted (· < ·) (tree.Traverse .IN_ORDER) ∧
      List.Perm (tree.Traverse .IN_ORDER) values := by
  obtain ⟨tree, e, hb, hp⟩ := InsertAll_spec fuel values emptyTree trivial hnd
    (by intro v _; simp [emptyTree, InOrder]) (by simpa [emptyTree, nodeCount] using hf)
  exact ⟨tree, e, IsBST.sorted tree.root hb, by simpa [emptyTree, InOrder] using hp⟩

/-- C7, at the example of the specification: inserting 10, 5, 15, 3, 7 gives the tree whose
in-order traversal is 3, 5, 7, 10, 15. -/
theorem InOrder_after_InsertAll_witness :
    [10, 5, 15, 3, 7].Nodup ∧ [10, 5, 15, 3, 7].length ≤ 5 ∧
      (∃ tree, InsertAll 5 emptyTree [10, 5, 15, 3, 7] = some tree ∧
        List.Sorted (· < ·) (tree.Traverse .IN_ORDER) ∧
        List.Perm (tree.Traverse .IN_ORDER) [10, 5, 15, 3, 7]) ∧
      (InsertAll 5 emptyTree [10, 5, 15, 3, 7]).map (fun t => t.Traverse .IN_ORDER)
        = some [3, 5, 7, 10, 15] :=
  ⟨by decide, by decide, InOrder_after_InsertAll [10, 5, 15, 3, 7] (by decide) 5 (by decide),
    by decide⟩

/-! ## Removal (claims C8 to C10) -/

/-- `FindMin` of a node is a node. -/
theorem FindMin_ne_null (node : Node) (hn : node ≠ .null) : FindMin node ≠ .null := by
  induction node with
  | null => exact absurd rfl hn
  | mk data left right ihl _ =>
    cases left with
    | null => simp [FindMin]
    | mk d l r => simpa [FindMin] using ihl (by simp)

/-- `RemoveNode` called with a value below every value of the subtree walks down the left spine
and changes nothing. -/
theorem RemoveNode_of_lt_all (node : Node) (value : Int) (h : ∀ x ∈ InOrder node, value < x) :
    RemoveNode node value = some node := by
  induction node with
  | null => rfl
  | mk data left right ihl _ =>
    have hd : value < data := h data (by simp [InOrder])
    have hl := ihl (fun x hx => h x (by simp [InOrder, hx]))
    simp [RemoveNode, hd, hl]

/-- Removing the value of a node with two children from a tree that satisfies the invariant:
the node takes the data of the minimum of its right subtree, and the right subtree, which
still holds that minimum, is returned unchanged by the recursive call. -/
theorem RemoveNode_two_children (data : Int) (left right : Node)
    (hb : IsBST (.mk data left right)) (hl : left ≠ .null) (hr : right ≠ .null) :
    ∃ m l r, FindMin right = .mk m l r ∧
      RemoveNode (.mk data left right) data = some (.mk m left right) := by
  obtain ⟨_, h2, _, _⟩ := hb
  have hrem := RemoveNode_of_lt_all right data h2
  cases hm : FindMin right with
  | null => exact absurd hm (FindMin_ne_null right hr)
  | mk m l r =>
    refine ⟨m, l, r, rfl, ?_⟩
    cases left with
    | null => exact absurd rfl hl
    | mk ld ll lr =>
      cases right with
      | null => exact absurd rfl hr
      | mk rd rl rr =>
        rw [RemoveNode]
        simp only [lt_irrefl, gt_iff_lt, if_false]
        rw [hm]
        simp only []
        rw [hrem]
        rfl

/-- C8, what the code does at a node with two children: in the tree built from 10, 5, 15
(a valid tree holding 10), `Remove(10)` returns with the root overwritten by 15 and the old
node 15 still in place, so the in-order sequence is 5, 15, 15 and `Size()` is still 3. -/
theorem Remove_two_children_keeps_size :
    IsBST threeTree.root ∧ threeTree.Contains 10 = .returns true ∧ threeTree.Size = 3 ∧
      threeTree.Remove 10
        = .returns ⟨.mk 15 (.mk 5 .null .null) (.mk 15 .null .null)⟩ ∧
      BinaryTree.Traverse ⟨.mk 15 (.mk 5 .null .null) (.mk 15 .null .null)⟩ .IN_ORDER
        = [5, 15, 15] ∧
      BinaryTree.Size ⟨.mk 15 (.mk 5 .null .null) (.mk 15 .null .null)⟩ = 3 := by
  decide

/-- C9, what the code does at a node with two children: in the tree built from 10, 5, 15,
`Remove(10)` returns a tree whose root 15 has the right child 15, which is not strictly
greater than the root, so the result does not satisfy the invariant. -/
theorem Remove_two_children_breaks_invariant :
    IsBST threeTree.root ∧ (10 : Int) ∈ InOrder threeTree.root ∧
      threeTree.Remove 10
        = .returns ⟨.mk 15 (.mk 5 .null .null) (.mk 15 .null .null)⟩ ∧
      ¬ IsBST (Node.mk 15 (.mk 5 .null .null) (.mk 15 .null .null)) := by
  decide

/-- `Contains` never returns `false`. -/
theorem Contains_ne_false (tree : BinaryTree) (value : Int) :
    tree.Contains value ≠ .returns false := by
  obtain ⟨root⟩ := tree
  cases root with
  | null => simp [BinaryTree.Contains, BinaryTree.IsEmpty]
  | mk data left right =>
    simpa [BinaryTree.Contains, BinaryTree.IsEmpty] using
      ContainsLoop_ne_false (.mk data left right) value (by simp)

/-- C10, what the code does: after `Remove(10)` on the tree holding only 10 the tree is empty
and `Contains(10)` throws; after `Remove(5)` on the tree built from 10, 5, 15 the search for 5
ends at the absent left child of the root and `Contains(5)` throws. -/
theorem Contains_after_Remove_throws :
    (singletonTree 10).Remove 10 = .returns emptyTree ∧
      emptyTree.Contains 10
        = .throws .TreeException "Tree is empty - cannot check containment" ∧
      threeTree.Remove 5 = .returns ⟨.mk 10 .null (.mk 15 .null .null)⟩ ∧
      BinaryTree.Contains ⟨.mk 10 .null (.mk 15 .null .null)⟩ 5
        = .throws .TreeException "Value not found - left subtree ended" := by
  decide

/-! ## Duplicates and merging (claims C11 to C13) -/

/-- The loop of `Insert` never ends when the value is stored in a subtree that satisfies the
invariant: the search reaches the node holding the value, and from then on every iteration
leaves `current` where it is. -/
theorem InsertLoop_none_of_mem (fuel : Nat) (data : Int) (left right : Node) (value : Int)
    (hb : IsBST (.mk data left right)) (hm : value ∈ InOrder (.mk data left right)) :
    InsertLoop fuel data left right value = none := by
  induction fuel generalizing data left right with
  | zero => rfl
  | succ fuel ih =>
    obtain ⟨h1, h2, hl, hr⟩ := hb
    simp only [InOrder, List.mem_append, List.mem_cons] at hm
    by_cases hlt : value < data
    · have hml : value ∈ InOrder left := by
        rcases hm with h | h | h
        · exact h
        · omega
        · exact absurd (h2 value h) (by omega)
      cases left with
      | null => simp [InOrder] at hml
      | mk d l r => simp [InsertLoop, hlt, ih d l r hl hml]
    · by_cases hgt : value > data
      · have hmr : value ∈ InOrder right := by
          rcases hm with h | h | h
          · exact absurd (h1 value h) hlt
          · omega
          · exact h
        cases right with
        | null => simp [InOrder] at hmr
        | mk d l r => simp [InsertLoop, hlt, hgt, ih d l r hr hmr]
      · have := ih data left right ⟨h1, h2, hl, hr⟩
          (by simp only [InOrder, List.mem_append, List.mem_cons]; exact hm)
        simp [InsertLoop, hlt, hgt, this]

/-- When the loop of `Insert` is left, the subtree holds the old values and the new one, and
the invariant is kept. -/
theorem InsertLoop_sound (fuel : Nat) (data : Int) (left right : Node) (value : Int)
    (node : Node) (h : InsertLoop fuel data left right value = some node) :
    List.Perm (InOrder node) (value :: InOrder (.mk data left right)) ∧
      (IsBST (.mk data left right) → IsBST node) := by
  induction fuel generalizing data left right node with
  | zero => simp [InsertLoop] at h
  | succ fuel ih =>
    by_cases hlt : value < data
    · cases left with
      | null =>
        simp only [InsertLoop, hlt, if_true, Option.some.injEq] at h
        subst h
        refine ⟨by simp [InOrder], ?_⟩
        rintro ⟨_, h2, _, hr⟩
        refine ⟨?_, h2, ⟨by simp [InOrder], by simp [InOrder], trivial, trivial⟩, hr⟩
        intro x hx
        simp only [InOrder, List.nil_append, List.mem_singleton] at hx
        subst hx; exact hlt
      | mk d l r =>
        simp only [InsertLoop, hlt, if_true, Option.map_eq_some'] at h
        obtain ⟨n1, e, rfl⟩ := h
        obtain ⟨hp, hb⟩ := ih d l r n1 e
        refine ⟨by simpa [InOrder] using hp.append_right (data :: InOrder right), ?_⟩
        rintro ⟨h1, h2, hl, hr⟩
        refine ⟨?_, h2, hb hl, hr⟩
        intro x hx
        rcases List.mem_cons.1 (hp.mem_iff.1 hx) with hx | hx
        · subst hx; exact hlt
        · exact h1 x hx
    · by_cases hgt : value > data
      · cases right with
        | null =>
          simp only [InsertLoop, hlt, hgt, if_true, if_false, Option.some.injEq] at h
          subst h
          constructor
          · have h1 : List.Perm (InOrder left ++ [data, value])
                (value :: (InOrder left ++ [data])) := by
              have : InOrder left ++ [data, value] = (InOrder left ++ [data]) ++ [value] := by
                simp
              rw [this]
              exact List.perm_append_singleton value _
            simpa [InOrder] using h1
          · rintro ⟨h1, _, hl, _⟩
            refine ⟨h1, ?_, hl, ⟨by simp [InOrder], by simp [InOrder], trivial, trivial⟩⟩
            intro x hx
            simp only [InOrder, List.nil_append, List.mem_singleton] at hx
            subst hx; exact hgt
        | mk d l r =>
          simp only [InsertLoop, hlt, hgt, if_true, if_false, Option.map_eq_some'] at h
          obtain ⟨n1, e, rfl⟩ := h
          obtain ⟨hp, hb⟩ := ih d l r n1 e
          constructor
          · have h1 : List.Perm (InOrder left ++ data :: InOrder n1)
                (InOrder left ++ data :: value :: InOrder (.mk d l r)) :=
              (hp.cons data).append_left _
            have h2 : List.Perm (data :: value :: InOrder (.mk d l r))
                (value :: data :: InOrder (.mk d l r)) := List.Perm.swap _ _ _
            exact (h1.trans (h2.append_left _)).trans List.perm_middle
          · rintro ⟨h1, h2, hl, hr⟩
            refine ⟨h1, ?_, hl, hb hr⟩
            intro x hx
            rcases List.mem_cons.1 (hp.mem_iff.1 hx) with hx | hx
            · subst hx; exact hgt
            · exact h2 x hx
      · simp only [InsertLoop, hlt, hgt, if_false] at h
        exact ih data left right node h

/-- A call of `Insert` that returns has added the value and kept the invariant. -/
theorem Insert_sound (tree : BinaryTree) (fuel : Nat) (value : Int) (tree1 : BinaryTree)
    (h : tree.Insert fuel value = some tree1) :
    List.Perm (InOrder tree1.root) (value :: InOrder tree.root) ∧
      (IsBST tree.root → IsBST tree1.root) := by
  obtain ⟨root⟩ := tree
  cases root with
  | null =>
    simp only [BinaryTree.Insert, Option.some.injEq] at h
    subst h
    exact ⟨by simp [InOrder], fun _ => ⟨by simp [InOrder], by simp [InOrder], trivial, trivial⟩⟩
  | mk data left right =>
    simp only [BinaryTree.Insert, Option.map_eq_some'] at h
    obtain ⟨n1, e, rfl⟩ := h
    exact InsertLoop_sound fuel data left right value n1 e

/-- C11, what the code does: `Insert` of a value that a valid tree already holds does not
return to the caller, whatever number of loop iterations is allowed; no error is signalled. -/
theorem Insert_duplicate_never_returns (tree : BinaryTree) (value : Int)
    (hb : IsBST tree.root) (hm : value ∈ InOrder tree.root) (fuel : Nat) :
    tree.Insert fuel value = none := by
  obtain ⟨root⟩ := tree
  cases root with
  | null => simp [InOrder] at hm
  | mk data left right =>
    simp [BinaryTree.Insert, InsertLoop_none_of_mem fuel data left right value hb hm]

/-- C11, at the tree built from 10, 5, 15 and the value 5, with a million loop iterations. -/
theorem Insert_duplicate_never_returns_witness :
    IsBST threeTree.root ∧ (5 : Int) ∈ InOrder threeTree.root ∧
      threeTree.Insert 1000000 5 = none :=
  ⟨by decide, by decide,
    Insert_duplicate_never_returns threeTree 5 (by decide) (by decide) 1000000⟩

theorem Copy_eq (node : Node) : Copy node = node := by
  induction node with
  | null => rfl
  | mk data left right ihl ihr => simp [Copy, ihl, ihr]

/-- Inserting a list of values does not return when one of them is already in the tree. -/
theorem InsertAll_none_of_shared (fuel : Nat) (values : List Int) (tree : BinaryTree)
    (hb : IsBST tree.root) (v : Int) (hv : v ∈ values) (hm : v ∈ InOrder tree.root) :
    InsertAll fuel tree values = none := by
  induction values generalizing tree with
  | nil => simp at hv
  | cons w ws ih =>
    cases e : tree.Insert fuel w with
    | none => simp [InsertAll, e]
    | some t1 =>
      obtain ⟨hp, hb1⟩ := Insert_sound tree fuel w t1 e
      have hne : v ≠ w := by
        rintro rfl
        rw [Insert_duplicate_never_returns tree v hb hm fuel] at e
        exact absurd e (by simp)
      have hv1 : v ∈ ws := by
        rcases List.mem_cons.1 hv with h | h
        · exact absurd h hne
        · exact h
      have hm1 : v ∈ InOrder t1.root := hp.mem_iff.2 (List.mem_cons_of_mem _ hm)
      simp only [InsertAll, e]
      exact ih t1 (hb1 hb) hv1 hm1

/-- C12, what the code does: when the receiver is a valid tree and the two trees share a
value, `merge` does not return, whatever number of loop iterations is allowed: the `Insert` of
the first shared value never leaves its loop. -/
theorem merge_shared_never_returns (a b : BinaryTree) (ha : IsBST a.root) (v : Int)
    (hva : v ∈ InOrder a.root) (hvb : v ∈ InOrder b.root) (fuel : Nat) :
    a.merge fuel b = none := by
  unfold BinaryTree.merge
  rw [Copy_eq]
  exact InsertAll_none_of_shared fuel _ ⟨a.root⟩ ha v
    (by simpa [BinaryTree.Traverse] using hvb) hva

/-- C12, at the example of the specification: merging the tree built from 10, 5, 15 with the
tree built from 5, 8, with a million loop iterations for each `Insert`. -/
theorem merge_shared_never_returns_witness :
    IsBST threeTree.root ∧ IsBST fiveEightTree.root ∧ (5 : Int) ∈ InOrder threeTree.root ∧
      (5 : Int) ∈ InOrder fiveEightTree.root ∧ threeTree.merge 1000000 fiveEightTree = none :=
  ⟨by decide, by decide, by decide, by decide,
    merge_shared_never_returns threeTree fiveEightTree (by decide) 5 (by decide) (by decide)
      1000000⟩

/-- C13: for all valid trees `a` and `b` without a common value (either may be empty),
`merge` returns (every `Insert` within as many loop iterations as both trees have nodes) a
valid tree whose in-order sequence is strictly ascending and consists of the values of `a`
and the values of `b`. -/
theorem merge_disjoint (a b : BinaryTree) (ha : IsBST a.root) (hb : IsBST b.root)
    (hdis : ∀ v ∈ InOrder b.root, v ∉ InOrder a.root) (fuel : Nat)
    (hf : nodeCount a.root + nodeCount b.root ≤ fuel) :
    ∃ t, a.merge fuel b = some t ∧ IsBST t.root ∧
      List.Sorted (· < ·) (t.Traverse .IN_ORDER) ∧
      List.Perm (t.Traverse .IN_ORDER) (a.Traverse .IN_ORDER ++ b.Traverse .IN_ORDER) := by
  have hnd : (InOrder b.root).Nodup := (IsBST.sorted b.root hb).nodup
  obtain ⟨t, e, hbt, hp⟩ := InsertAll_spec fuel (InOrder b.root) ⟨a.root⟩ ha hnd hdis
    (by rw [← nodeCount_eq_length b.root]; exact hf)
  refine ⟨t, ?_, hbt, IsBST.sorted t.root hbt, hp⟩
  unfold BinaryTree.merge
  rw [Copy_eq]
  exact e

/-- C13, at the merge test of `test_all_features`: the tree built from 10, 5, 15, 3, 7 merged
with the tree built from 8, 12 has the in-order sequence 3, 5, 7, 8, 10, 12, 15. -/
theorem merge_disjoint_witness :
    IsBST exampleTree.root ∧ IsBST eightTwelveTree.root ∧
      (∀ v ∈ InOrder eightTwelveTree.root, v ∉ InOrder exampleTree.root) ∧
      nodeCount exampleTree.root + nodeCount eightTwelveTree.root ≤ 7 ∧
      (∃ t, exampleTree.merge 7 eightTwelveTree = some t ∧ IsBST t.root ∧
        List.Sorted (· < ·) (t.Traverse .IN_ORDER) ∧
        List.Perm (t.Traverse .IN_ORDER)
          (exampleTree.Traverse .IN_ORDER ++ eightTwelveTree.Traverse .IN_ORDER)) ∧
      (exampleTree.merge 7 eightTwelveTree).map (fun t => t.Traverse .IN_ORDER)
        = some [3, 5, 7, 8, 10, 12, 15] :=
  ⟨by decide, by decide, by decide, by decide,
    merge_disjoint exampleTree eightTwelveTree (by decide) (by decide) (by decide) 7
      (by decide),
    by decide⟩

/-! ## The form of the serialized text (claims C14 to C16) -/

theorem SerializeInOrder_append (node : Node) (result : CppString) :
    SerializeInOrder node result = result ++ SerializeInOrder node [] := by
  induction node generalizing result with
  | null => simp [SerializeInOrder]
  | mk data left right ihl ihr =>
    simp only [SerializeInOrder]
    rw [ihr, ihl, ihr (SerializeInOrder left [] ++ _)]
    simp [List.append_assoc]

theorem SerializeReverseInOrder_append (node : Node) (result : CppString) :
    SerializeReverseInOrder node result = result ++ SerializeReverseInOrder node [] := by
  induction node generalizing result with
  | null => simp [SerializeReverseInOrder]
  | mk data left right ihl ihr =>
    simp only [SerializeReverseInOrder]
    rw [ihl, ihr, ihl (SerializeReverseInOrder right [] ++ _)]
    simp [List.append_assoc]

/-- The tokens read from an in-order serialization. -/
theorem tokenize_SerializeInOrder (node : Node) (rest : CppString) :
    tokenize (SerializeInOrder node [] ++ rest) = inOrderTokens node ++ tokenize rest := by
  induction node generalizing rest with
  | null =>
    simpa [SerializeInOrder, inOrderTokens] using
      tokenize_token nullToken rest nullToken_spec.2 nullToken_spec.1
  | mk data left right ihl ihr =>
    obtain ⟨hne, hns, _, _⟩ := to_string_spec data
    simp only [SerializeInOrder, inOrderTokens]
    rw [SerializeInOrder_append right]
    have e : (([] ++ SerializeInOrder left []) ++ (to_string data ++ [' ']) ++
        SerializeInOrder right []) ++ rest =
        SerializeInOrder left [] ++ ((to_string data ++ [' ']) ++
          (SerializeInOrder right [] ++ rest)) := by
      simp [List.append_assoc]
    have e0 : SerializeInOrder left [] = [] ++ SerializeInOrder left [] := by simp
    rw [e0, e, ihl, tokenize_token _ _ hns hne, ihr]
    simp [List.append_assoc]

/-- The tokens read from a reverse in-order serialization. -/
theorem tokenize_SerializeReverseInOrder (node : Node) (rest : CppString) :
    tokenize (SerializeReverseInOrder node [] ++ rest) =
      reverseInOrderTokens node ++ tokenize rest := by
  induction node generalizing rest with
  | null =>
    simpa [SerializeReverseInOrder, reverseInOrderTokens] using
      tokenize_token nullToken rest nullToken_spec.2 nullToken_spec.1
  | mk data left right ihl ihr =>
    obtain ⟨hne, hns, _, _⟩ := to_string_spec data
    simp only [SerializeReverseInOrder, reverseInOrderTokens]
    rw [SerializeReverseInOrder_append left]
    have e : (([] ++ SerializeReverseInOrder right []) ++ (to_string data ++ [' ']) ++
        SerializeReverseInOrder left []) ++ rest =
        SerializeReverseInOrder right [] ++ ((to_string data ++ [' ']) ++
          (SerializeReverseInOrder left [] ++ rest)) := by
      simp [List.append_assoc]
    have e0 : SerializeReverseInOrder right [] = [] ++ SerializeReverseInOrder right [] := by
      simp
    rw [e0, e, ihr, tokenize_token _ _ hns hne, ihl]
    simp [List.append_assoc]

/-- C14, as amended: for every tree, `serialize(IN_ORDER)` and `serialize(REVERSE_IN_ORDER)`
return a string, whose tokens are the in-order (reverse in-order) sequence of the value texts
with a `null` token for every absent child. -/
theorem serialize_in_order_returns (T : BinaryTree) :
    (T.serialize .IN_ORDER = .returns (SerializeInOrder T.root []) ∧
      tokenize (SerializeInOrder T.root []) = inOrderTokens T.root) ∧
    (T.serialize .REVERSE_IN_ORDER = .returns (SerializeReverseInOrder T.root []) ∧
      tokenize (SerializeReverseInOrder T.root []) = reverseInOrderTokens T.root) := by
  refine ⟨⟨rfl, ?_⟩, ⟨rfl, ?_⟩⟩
  · have := tokenize_SerializeInOrder T.root []
    simpa [tokenize_nil] using this
  · have := tokenize_SerializeReverseInOrder T.root []
    simpa [tokenize_nil] using this

/-- C14 as stated fails: for the tree built from 10, 5, 15, `serialize(IN_ORDER)` and
`serialize(REVERSE_IN_ORDER)` return strings. -/
theorem serialize_in_order_counterexample :
    threeTree.serialize .IN_ORDER = .returns "null 5 null 10 null 15 null ".toList ∧
      threeTree.serialize .REVERSE_IN_ORDER
        = .returns "null 15 null 10 null 5 null ".toList := by
  decide

theorem SerializePreOrder_eq_encoding (node : Node) :
    SerializePreOrder node [] = preOrderEncoding node := by
  induction node with
  | null => rfl
  | mk data left right ihl ihr =>
    simp only [SerializePreOrder, preOrderEncoding]
    rw [SerializePreOrder_append right, SerializePreOrder_append left, ihl, ihr]
    simp [List.append_assoc]

/-- C15: for every tree, `serialize(PRE_ORDER)` returns the recursively defined encoding
(`"null "` for an absent node, otherwise the decimal value, one space, the encoding of the left
subtree, the encoding of the right subtree); for the tree built by inserting 10, 5, 15, 3, 7
it is `"10 5 3 null null 7 null null 15 null null "`. -/
theorem serialize_preorder_encoding (T : BinaryTree) :
    T.serialize .PRE_ORDER = .returns (preOrderEncoding T.root) ∧
      (InsertAll 5 emptyTree [10, 5, 15, 3, 7]).map (fun t => t.serialize .PRE_ORDER)
        = some (.returns "10 5 3 null null 7 null null 15 null null ".toList) := by
  refine ⟨?_, by decide⟩
  simp only [BinaryTree.serialize, SerializePreOrder_eq_encoding]

theorem nullTokenCount_append (xs ys : List CppString) :
    nullTokenCount (xs ++ ys) = nullTokenCount xs + nullTokenCount ys := by
  simp [nullTokenCount]

theorem valueTokenCount_append (xs ys : List CppString) :
    valueTokenCount (xs ++ ys) = valueTokenCount xs + valueTokenCount ys := by
  simp [valueTokenCount]

theorem tokenCount_value (v : Int) :
    nullTokenCount [to_string v] = 0 ∧ valueTokenCount [to_string v] = 1 := by
  have h := (to_string_spec v).2.2.1
  constructor
  · simp [nullTokenCount, List.count_cons, h]
  · simp [valueTokenCount, List.filter_cons, h]

theorem tokenCount_null :
    nullTokenCount [nullToken] = 1 ∧ valueTokenCount [nullToken] = 0 := by
  decide

theorem preOrderTokens_count (node : Node) :
    nullTokenCount (preOrderTokens node) = nodeCount node + 1 ∧
      valueTokenCount (preOrderTokens node) = nodeCount node := by
  induction node with
  | null => exact tokenCount_null
  | mk data left right ihl ihr =>
    have e : preOrderTokens (.mk data left right) =
        [to_string data] ++ (preOrderTokens left ++ preOrderTokens right) := rfl
    rw [e]
    obtain ⟨l1, l2⟩ := ihl
    obtain ⟨r1, r2⟩ := ihr
    obtain ⟨v1, v2⟩ := tokenCount_value data
    refine ⟨?_, ?_⟩ <;>
      simp only [nullTokenCount_append, valueTokenCount_append, v1, v2, l1, l2, r1, r2,
        nodeCount] <;> omega

theorem reversePreOrderTokens_count (node : Node) :
    nullTokenCount (reversePreOrderTokens node) = nodeCount node + 1 ∧
      valueTokenCount (reversePreOrderTokens node) = nodeCount node := by
  induction node with
  | null => exact tokenCount_null
  | mk data left right ihl ihr =>
    have e : reversePreOrderTokens (.mk data left right) =
        [to_string data] ++ (reversePreOrderTokens right ++ reversePreOrderTokens left) := rfl
    rw [e]
    obtain ⟨l1, l2⟩ := ihl
    obtain ⟨r1, r2⟩ := ihr
    obtain ⟨v1, v2⟩ := tokenCount_value data
    refine ⟨?_, ?_⟩ <;>
      simp only [nullTokenCount_append, valueTokenCount_append, v1, v2, l1, l2, r1, r2,
        nodeCount] <;> omega

theorem postOrderTokens_count (node : Node) :
    nullTokenCount (postOrderTokens node) = nodeCount node + 1 ∧
      valueTokenCount (postOrderTokens node) = nodeCount node := by
  induction node with
  | null => exact tokenCount_null
  | mk data left right ihl ihr =>
    obtain ⟨l1, l2⟩ := ihl
    obtain ⟨r1, r2⟩ := ihr
    obtain ⟨v1, v2⟩ := tokenCount_value data
    refine ⟨?_, ?_⟩ <;>
      (simp only [postOrderTokens, nullTokenCount_append, valueTokenCount_append, v1, v2, l1,
        l2, r1, r2, nodeCount]; first | done | omega)

theorem valueTexts_count (values : List Int) :
    nullTokenCount (values.map to_string) = 0 ∧
      valueTokenCount (values.map to_string) = values.length := by
  induction values with
  | nil => exact ⟨rfl, rfl⟩
  | cons v vs ih =>
    have e : (v :: vs).map to_string = [to_string v] ++ vs.map to_string := rfl
    rw [e]
    obtain ⟨i1, i2⟩ := ih
    obtain ⟨v1, v2⟩ := tokenCount_value v
    refine ⟨?_, ?_⟩ <;>
      (simp only [nullTokenCount_append, valueTokenCount_append, v1, v2, i1, i2,
        List.length_cons]; first | done | omega)

theorem ReversePostOrder_length (node : Node) :
    (ReversePostOrder node).length = nodeCount node := by
  induction node with
  | null => rfl
  | mk data left right ihl ihr => simp [ReversePostOrder, nodeCount, ihl, ihr]; omega

/-- C16, what the code does: for every tree with `n` nodes the token streams written for
`PRE_ORDER`, `REVERSE_PRE_ORDER` and `POST_ORDER` have `n + 1` `null` tokens and `n` value
tokens, but the token stream written for `REVERSE_POST_ORDER` has the `n` value tokens and no
`null` token at all; for the empty tree it is empty. -/
theorem serialized_token_counts (T : BinaryTree) :
    (nullTokenCount (tokenize (SerializePreOrder T.root [])) = nodeCount T.root + 1 ∧
      valueTokenCount (tokenize (SerializePreOrder T.root [])) = nodeCount T.root) ∧
    (nullTokenCount (tokenize (SerializeReversePreOrder T.root [])) = nodeCount T.root + 1 ∧
      valueTokenCount (tokenize (SerializeReversePreOrder T.root [])) = nodeCount T.root) ∧
    (nullTokenCount (tokenize (SerializePostOrder T.root [])) = nodeCount T.root + 1 ∧
      valueTokenCount (tokenize (SerializePostOrder T.root [])) = nodeCount T.root) ∧
    (T.serialize .REVERSE_POST_ORDER = .returns (SerializeReversePostOrder T.root []) ∧
      nullTokenCount (tokenize (SerializeReversePostOrder T.root [])) = 0 ∧
      valueTokenCount (tokenize (SerializeReversePostOrder T.root [])) = nodeCount T.root) ∧
    emptyTree.serialize .REVERSE_POST_ORDER = .returns [] := by
  have h1 : tokenize (SerializePreOrder T.root []) = preOrderTokens T.root := by
    simpa [tokenize_nil] using tokenize_SerializePreOrder T.root []
  have h2 : tokenize (SerializeReversePreOrder T.root []) = reversePreOrderTokens T.root := by
    simpa [tokenize_nil] using tokenize_SerializeReversePreOrder T.root []
  have h3 : tokenize (SerializePostOrder T.root []) = postOrderTokens T.root := by
    simpa [tokenize_nil] using tokenize_SerializePostOrder T.root []
  have h4 : tokenize (SerializeReversePostOrder T.root []) =
      (ReversePostOrder T.root).map to_string := by
    simpa [tokenize_nil] using tokenize_SerializeReversePostOrder T.root []
  rw [h1, h2, h3, h4]
  refine ⟨preOrderTokens_count _, reversePreOrderTokens_count _, postOrderTokens_count _,
    ⟨rfl, (valueTexts_count _).1, ?_⟩, rfl⟩
  rw [(valueTexts_count _).2, ReversePostOrder_length]

/-! ## Malformed input (claims C17 to C20) -/

/-- Processing a reverse post-order token stream pushes the tree on the stack. -/
theorem DeserializeReversePostOrder_tokens (node : Node) (h : InIntRange node)
    (rest : List CppString) (nodeStack : List Node) :
    DeserializeReversePostOrder (reversePostOrderTokens node ++ rest) nodeStack =
      DeserializeReversePostOrder rest (node :: nodeStack) := by
  induction node generalizing rest nodeStack with
  | null => simp [reversePostOrderTokens, DeserializeReversePostOrder]
  | mk data left right ihl ihr =>
    obtain ⟨h1, h2, hl, hr⟩ := h
    obtain ⟨_, _, hnn, hp⟩ := to_string_spec data
    have e : reversePostOrderTokens (.mk data left right) ++ rest =
        reversePostOrderTokens right ++
          (reversePostOrderTokens left ++ (to_string data :: rest)) := by
      simp [reversePostOrderTokens, List.append_assoc]
    rw [e, ihr hr, ihl hl]
    simp only [DeserializeReversePostOrder, if_neg hnn, hp h1 h2]

/-- C18: when the tokens of the input are a complete pre-order (reverse pre-order) encoding of
a tree of `int` values followed by at least one further token, `deserialize` in that order
throws and leaves the target empty, whatever the target held before. -/
theorem deserialize_extra_tokens (T target : BinaryTree) (h : InIntRange T.root)
    (extra : List CppString) (hne : extra ≠ []) (data : CppString) :
    (tokenize data = preOrderTokens T.root ++ extra →
      target.deserialize data .PRE_ORDER
        = some (.throws .TreeException "Deserialization failed" emptyTree)) ∧
    (tokenize data = reversePreOrderTokens T.root ++ extra →
      target.deserialize data .REVERSE_PRE_ORDER
        = some (.throws .TreeException "Deserialization failed" emptyTree)) := by
  constructor
  · intro ht
    have hd := DeserializePreOrder_tokens T.root h
      ((preOrderTokens T.root ++ extra).length + 1) extra
      (by rw [List.length_append, preOrderTokens_length]; omega)
    simp only [BinaryTree.deserialize, ht, hd, Option.map_some', deserializeFinish, if_neg hne,
      emptyTree]
  · intro ht
    have hd := DeserializeReversePreOrder_tokens T.root h
      ((reversePreOrderTokens T.root ++ extra).length + 1) extra
      (by rw [List.length_append, reversePreOrderTokens_length]; omega)
    simp only [BinaryTree.deserialize, ht, hd, Option.map_some', deserializeFinish, if_neg hne,
      emptyTree]

/-- C18, at the encoding `10 null null` of a one-node tree followed by the token `7`, read
into the tree built from 10, 5, 15. -/
theorem deserialize_extra_tokens_witness :
    InIntRange (singletonTree 10).root ∧
      tokenize "10 null null 7".toList = preOrderTokens (singletonTree 10).root ++ ["7".toList] ∧
      tokenize "10 null null 7".toList
        = reversePreOrderTokens (singletonTree 10).root ++ ["7".toList] ∧
      threeTree.deserialize "10 null null 7".toList .PRE_ORDER
        = some (.throws .TreeException "Deserialization failed" emptyTree) ∧
      threeTree.deserialize "10 null null 7".toList .REVERSE_PRE_ORDER
        = some (.throws .TreeException "Deserialization failed" emptyTree) :=
  ⟨by decide, by decide, by decide,
    (deserialize_extra_tokens (singletonTree 10) threeTree (by decide) ["7".toList] (by decide)
      "10 null null 7".toList).1 (by decide),
    (deserialize_extra_tokens (singletonTree 10) threeTree (by decide) ["7".toList] (by decide)
      "10 null null 7".toList).2 (by decide)⟩

/-- C19, what the code does: a token that is not `null` always creates a node, whether or not
it is the decimal text of an integer; the node holds whatever stream extraction leaves in
`value`. The input `abc null null` gives a node holding 0 and `12x null null` a node holding
12, in pre-order; `null null abc` gives a node holding 0 in post-order. -/
theorem deserialize_unparsable_token :
    (∀ (self : BinaryTree) (token : CppString), token ≠ [] →
        (∀ c ∈ token, isSpace c = false) → token ≠ nullToken →
        self.deserialize (token ++ " null null".toList) .PRE_ORDER
          = some (.returns ⟨.mk (parseInt token) .null .null⟩)) ∧
    parseInt "abc".toList = 0 ∧ parseInt "12x".toList = 12 ∧
    emptyTree.deserialize "abc null null".toList .PRE_ORDER
      = some (.returns ⟨.mk 0 .null .null⟩) ∧
    emptyTree.deserialize "12x null null".toList .PRE_ORDER
      = some (.returns ⟨.mk 12 .null .null⟩) ∧
    emptyTree.deserialize "null null abc".toList .POST_ORDER
      = some (.returns ⟨.mk 0 .null .null⟩) := by
  refine ⟨?_, by decide, by decide, by decide, by decide, by decide⟩
  intro self token hne hns hnn
  have ht : tokenize (token ++ " null null".toList) = [token, nullToken, nullToken] := by
    have h1 := tokenize_token token "null null".toList hns hne
    have h2 : tokenize "null null".toList = [nullToken, nullToken] := by decide
    have e : token ++ " null null".toList = (token ++ [' ']) ++ "null null".toList := by
      simp
    rw [e, h1, h2]
  have hd : DeserializePreOrder 4 [token, nullToken, nullToken]
      = some (.mk (parseInt token) .null .null, []) := by
    simp [DeserializePreOrder, hnn]
  unfold BinaryTree.deserialize
  simp only []
  rw [ht]
  exact congrArg (Option.map _) hd

/-- C20: for every input string and every prior content of the target, `deserialize` with
`IN_ORDER` or `REVERSE_IN_ORDER` throws and leaves the target empty. -/
theorem deserialize_in_order_fails (self : BinaryTree) (data : CppString) :
    self.deserialize data .IN_ORDER
        = some (.throws .TreeException "Deserialization failed" emptyTree) ∧
      self.deserialize data .REVERSE_IN_ORDER
        = some (.throws .TreeException "Deserialization failed" emptyTree) :=
  ⟨rfl, rfl⟩

/-! ## The order of deserialized values (claim C21) -/

/-- C21, as amended: `deserialize` rebuilds the tree that the token stream encodes and does
not look at the order of the values. When the tokens are the encoding of a valid tree `T` of
`int` values in the order used (one `null` token for every absent child), `deserialize`
returns and the tree it leaves in the target is `T` itself, node for node, hence a valid
tree. -/
theorem deserialize_of_valid_encoding (T target : BinaryTree) (hb : IsBST T.root)
    (hr : InIntRange T.root) (data : CppString) :
    (tokenize data = preOrderTokens T.root →
      ∃ R, target.deserialize data .PRE_ORDER = some (.returns R) ∧ R = T ∧
        IsBST R.root) ∧
    (tokenize data = reversePreOrderTokens T.root →
      ∃ R, target.deserialize data .REVERSE_PRE_ORDER = some (.returns R) ∧ R = T ∧
        IsBST R.root) ∧
    (tokenize data = postOrderTokens T.root →
      ∃ R, target.deserialize data .POST_ORDER = some (.returns R) ∧ R = T ∧
        IsBST R.root) ∧
    (tokenize data = reversePostOrderTokens T.root →
      ∃ R, target.deserialize data .REVERSE_POST_ORDER = some (.returns R) ∧ R = T ∧
        IsBST R.root) := by
  refine ⟨?_, ?_, ?_, ?_⟩
  · intro ht
    have hd := DeserializePreOrder_tokens T.root hr ((preOrderTokens T.root).length + 1) []
      (by rw [preOrderTokens_length]; omega)
    rw [List.append_nil] at hd
    exact ⟨T, by simp only [BinaryTree.deserialize, ht, hd, Option.map_some',
      deserializeFinish, if_true], rfl, hb⟩
  · intro ht
    have hd := DeserializeReversePreOrder_tokens T.root hr
      ((reversePreOrderTokens T.root).length + 1) []
      (by rw [reversePreOrderTokens_length]; omega)
    rw [List.append_nil] at hd
    exact ⟨T, by simp only [BinaryTree.deserialize, ht, hd, Option.map_some',
      deserializeFinish, if_true], rfl, hb⟩
  · intro ht
    have hd : DeserializePostOrder (postOrderTokens T.root) [] = .returns T.root := by
      have := DeserializePostOrder_tokens T.root hr [] []
      rw [List.append_nil] at this
      rw [this]
      simp [DeserializePostOrder]
    exact ⟨T, by simp only [BinaryTree.deserialize, ht, hd, deserializeFinish, if_true],
      rfl, hb⟩
  · intro ht
    have hd : DeserializeReversePostOrder (reversePostOrderTokens T.root) []
        = .returns T.root := by
      have := DeserializeReversePostOrder_tokens T.root hr [] []
      rw [List.append_nil] at this
      rw [this]
      simp [DeserializeReversePostOrder]
    exact ⟨T, by simp only [BinaryTree.deserialize, ht, hd, deserializeFinish, if_true],
      rfl, hb⟩

/-- C21 as amended, at the pre-order text and the post-order text of the tree built from
10, 5, 15, read into a target that holds another tree: the target becomes that tree. -/
theorem deserialize_of_valid_encoding_witness :
    IsBST threeTree.root ∧ InIntRange threeTree.root ∧
      tokenize "10 5 null null 15 null null".toList = preOrderTokens threeTree.root ∧
      (∃ R, fiveEightTree.deserialize "10 5 null null 15 null null".toList .PRE_ORDER
        = some (.returns R) ∧ R = threeTree ∧ IsBST R.root) ∧
      tokenize "null null 5 null null 15 10".toList = postOrderTokens threeTree.root ∧
      (∃ R, fiveEightTree.deserialize "null null 5 null null 15 10".toList .POST_ORDER
        = some (.returns R) ∧ R = threeTree ∧ IsBST R.root) ∧
      fiveEightTree.deserialize "10 5 null null 15 null null".toList .PRE_ORDER
        = some (.returns threeTree) :=
  ⟨by decide, by decide, by decide,
    (deserialize_of_valid_encoding threeTree fiveEightTree (by decide) (by decide)
      "10 5 null null 15 null null".toList).1 (by decide),
    by decide,
    (deserialize_of_valid_encoding threeTree fiveEightTree (by decide) (by decide)
      "null null 5 null null 15 10".toList).2.2.1 (by decide),
    by decide⟩

/-- C21 as stated fails: the pre-order stream `5 10 null null null` is accepted and gives the
node 5 with the left child 10, which is not a valid tree. -/
theorem deserialize_not_bst_counterexample :
    emptyTree.deserialize "5 10 null null null".toList .PRE_ORDER
        = some (.returns ⟨.mk 5 (.mk 10 .null .null) .null⟩) ∧
      ¬ IsBST (Node.mk 5 (.mk 10 .null .null) .null) := by
  decide

/-! ## Subtrees (claims C22 to C25) -/

theorem CompareSubtrees_iff (ours sub : Node) :
    CompareSubtrees ours sub = true ↔ MatchesAsFarAs ours sub := by
  induction sub generalizing ours with
  | null => cases ours <;> simp [CompareSubtrees, MatchesAsFarAs]
  | mk subData subLeft subRight ihl ihr =>
    cases ours with
    | null => simp [CompareSubtrees, MatchesAsFarAs]
    | mk ourData ourLeft ourRight =>
      simp [CompareSubtrees, MatchesAsFarAs, ihl, ihr, and_assoc]

theorem CompareSubtrees_self (node : Node) : CompareSubtrees node node = true := by
  induction node with
  | null => rfl
  | mk data left right ihl ihr => simp [CompareSubtrees, ihl, ihr]

/-- The node that `FindNode` returns holds the value that was searched, and it is a node of
the tree. -/
theorem FindNode_spec (node : Node) (value data : Int) (left right : Node)
    (h : FindNode node value = .mk data left right) :
    data = value ∧ IsSubtreeOf (.mk data left right) node := by
  induction node with
  | null => simp [FindNode] at h
  | mk d l r ihl ihr =>
    by_cases heq : value = d
    · simp only [FindNode, heq, if_true, Node.mk.injEq] at h
      obtain ⟨rfl, rfl, rfl⟩ := h
      exact ⟨heq.symm, Or.inl rfl⟩
    · by_cases hlt : value < d
      · simp only [FindNode, heq, hlt, if_true, if_false] at h
        exact ⟨(ihl h).1, Or.inr (Or.inl (ihl h).2)⟩
      · simp only [FindNode, heq, hlt, if_false] at h
        exact ⟨(ihr h).1, Or.inr (Or.inr (ihr h).2)⟩

/-- On a tree that satisfies the invariant `FindNode` returns null exactly for the values that
are not stored. -/
theorem FindNode_null_iff (node : Node) (hb : IsBST node) (value : Int) :
    FindNode node value = .null ↔ value ∉ InOrder node := by
  induction node with
  | null => simp [FindNode, InOrder]
  | mk d l r ihl ihr =>
    obtain ⟨h1, h2, hl, hr⟩ := hb
    simp only [InOrder, List.mem_append, List.mem_cons, not_or]
    by_cases heq : value = d
    · simp [FindNode, heq]
    · by_cases hlt : value < d
      · have e : FindNode (.mk d l r) value = FindNode l value := by
          simp only [FindNode, heq, hlt, if_true, if_false]
        rw [e, ihl hl]
        constructor
        · intro h
          exact ⟨h, heq, fun hm => absurd (h2 value hm) (by omega)⟩
        · intro h; exact h.1
      · have e : FindNode (.mk d l r) value = FindNode r value := by
          simp only [FindNode, heq, hlt, if_false]
        rw [e, ihr hr]
        constructor
        · intro h
          exact ⟨fun hm => absurd (h1 value hm) hlt, heq, h⟩
        · intro h; exact h.2.2

/-- The root value of a node of the tree is one of the values of the tree. -/
theorem IsSubtreeOf_mem (node : Node) (v : Int) (l r : Node)
    (h : IsSubtreeOf (.mk v l r) node) : v ∈ InOrder node := by
  induction node with
  | null => simp [IsSubtreeOf] at h
  | mk d L R ihl ihr =>
    simp only [InOrder, List.mem_append, List.mem_cons]
    rcases h with h | h | h
    · simp only [Node.mk.injEq] at h
      exact Or.inr (Or.inl h.1)
    · exact Or.inl (ihl h)
    · exact Or.inr (Or.inr (ihr h))

/-- On a tree that satisfies the invariant `FindNode` returns the one node that holds the
value. -/
theorem FindNode_of_subtree (node : Node) (hb : IsBST node) (v : Int) (l r : Node)
    (h : IsSubtreeOf (.mk v l r) node) : FindNode node v = .mk v l r := by
  induction node with
  | null => simp [IsSubtreeOf] at h
  | mk d L R ihl ihr =>
    obtain ⟨h1, h2, hl, hr⟩ := hb
    rcases h with h | h | h
    · simp only [Node.mk.injEq] at h
      obtain ⟨rfl, rfl, rfl⟩ := h
      simp [FindNode]
    · have hlt : v < d := h1 v (IsSubtreeOf_mem L v l r h)
      have hne : v ≠ d := by omega
      simp only [FindNode, hne, hlt, if_true, if_false]
      exact ihl hl h
    · have hgt : d < v := h2 v (IsSubtreeOf_mem R v l r h)
      have hne : v ≠ d := by omega
      have hnl : ¬ v < d := by omega
      simp only [FindNode, hne, hnl, if_false]
      exact ihr hr h

/-- C22, as amended: for a non-empty candidate, `containsSubtree` returns, and it returns
`true` exactly when the node found by the ordered search for the candidate's root value
matches the candidate as far as the candidate reaches: equal values at every node of the
candidate and a node in the receiver wherever the candidate has one; where the candidate has no
child the receiver may have one. When the search finds no node the result is `false`. -/
theorem containsSubtree_iff (t : BinaryTree) (data : Int) (left right : Node) :
    (∃ b, t.containsSubtree ⟨.mk data left right⟩ = .returns b) ∧
      (t.containsSubtree ⟨.mk data left right⟩ = .returns true ↔
        MatchesAsFarAs (FindNode t.root data) (.mk data left right)) := by
  cases hf : FindNode t.root data with
  | null => simp [BinaryTree.containsSubtree, hf, MatchesAsFarAs]
  | mk d l r =>
    refine ⟨⟨CompareSubtrees (.mk d l r) (.mk data left right),
      by simp only [BinaryTree.containsSubtree, hf]⟩, ?_⟩
    simp only [BinaryTree.containsSubtree, hf, Outcome.returns.injEq]
    exact CompareSubtrees_iff _ _

/-- C22 as stated fails: in the tree built from 10, 5, 15, 3, 7 the node found for 5 has the
children 3 and 7, the candidate is the single node 5 without children, and `containsSubtree`
returns `true`. -/
theorem containsSubtree_counterexample :
    FindNode exampleTree.root 5 = .mk 5 (.mk 3 .null .null) (.mk 7 .null .null) ∧
      exampleTree.containsSubtree (singletonTree 5) = .returns true := by
  decide

/-- C23: for every valid tree and every value, `extractSubtree` throws `NodeNotFound` exactly
when the value is not stored in the tree, and returns a tree otherwise; on the empty tree it
throws for every value. -/
theorem extractSubtree_fails_iff (t : BinaryTree) (hb : IsBST t.root) (value : Int) :
    (t.extractSubtree value
        = .throws .NodeNotFound "Value not found in tree - cannot extract subtree" ↔
      value ∉ InOrder t.root) ∧
    (value ∈ InOrder t.root → ∃ s, t.extractSubtree value = .returns s) ∧
    emptyTree.extractSubtree value
      = .throws .NodeNotFound "Value not found in tree - cannot extract subtree" := by
  have hn := FindNode_null_iff t.root hb value
  refine ⟨?_, ?_, rfl⟩
  · rw [← hn]
    cases hf : FindNode t.root value with
    | null => simp [BinaryTree.extractSubtree, hf]
    | mk d l r => simp [BinaryTree.extractSubtree, hf]
  · intro hm
    cases hf : FindNode t.root value with
    | null => exact absurd hm (hn.1 hf)
    | mk d l r =>
      exact ⟨⟨Copy (.mk d l r)⟩, by simp only [BinaryTree.extractSubtree, hf]⟩

/-- C23, at the tree built from 10, 5, 15, 3, 7 and the value 4, which it does not hold. -/
theorem extractSubtree_fails_iff_witness :
    IsBST exampleTree.root ∧ (4 : Int) ∉ InOrder exampleTree.root ∧
      exampleTree.extractSubtree 4
        = .throws .NodeNotFound "Value not found in tree - cannot extract subtree" :=
  ⟨by decide, by decide, (extractSubtree_fails_iff exampleTree (by decide) 4).1.2 (by decide)⟩

/-- C24: for every valid tree and every value it holds, `extractSubtree` returns a tree equal,
node for node, to the subtree rooted at the node holding the value; that node is the only node
of the tree with this value. The in-order sequence of the result is therefore the in-order
sequence of that subtree. -/
theorem extractSubtree_returns_subtree (t : BinaryTree) (hb : IsBST t.root) (value : Int)
    (hm : value ∈ InOrder t.root) :
    ∃ left right, t.extractSubtree value = .returns ⟨.mk value left right⟩ ∧
      IsSubtreeOf (.mk value left right) t.root ∧
      (∀ l r, IsSubtreeOf (.mk value l r) t.root → Node.mk value l r = .mk value left right) ∧
      BinaryTree.Traverse ⟨.mk value left right⟩ .IN_ORDER = InOrder (.mk value left right) := by
  cases hf : FindNode t.root value with
  | null => exact absurd hm ((FindNode_null_iff t.root hb value).1 hf)
  | mk d l r =>
    obtain ⟨hd, hs⟩ := FindNode_spec t.root value d l r hf
    subst hd
    refine ⟨l, r, by simp only [BinaryTree.extractSubtree, hf, Copy_eq], hs, ?_, rfl⟩
    intro l1 r1 h1
    rw [← hf]
    exact (FindNode_of_subtree t.root hb d l1 r1 h1).symm

/-- C24, at the example: `extractSubtree(5)` of the tree built from 10, 5, 15, 3, 7 has the
in-order sequence 3, 5, 7. -/
theorem extractSubtree_returns_subtree_witness :
    IsBST exampleTree.root ∧ (5 : Int) ∈ InOrder exampleTree.root ∧
      (∃ left right, exampleTree.extractSubtree 5 = .returns ⟨.mk 5 left right⟩ ∧
        IsSubtreeOf (.mk 5 left right) exampleTree.root ∧
        (∀ l r, IsSubtreeOf (.mk 5 l r) exampleTree.root →
          Node.mk 5 l r = .mk 5 left right) ∧
        BinaryTree.Traverse ⟨.mk 5 left right⟩ .IN_ORDER = InOrder (.mk 5 left right)) ∧
      exampleTree.extractSubtree 5
        = .returns ⟨.mk 5 (.mk 3 .null .null) (.mk 7 .null .null)⟩ ∧
      BinaryTree.Traverse ⟨.mk 5 (.mk 3 .null .null) (.mk 7 .null .null)⟩ .IN_ORDER
        = [3, 5, 7] :=
  ⟨by decide, by decide,
    extractSubtree_returns_subtree exampleTree (by decide) 5 (by decide), by decide, by decide⟩

/-- C25: for every valid tree `t` and every value it holds, `extractSubtree` returns a tree
for which `t.containsSubtree` returns `true`. -/
theorem containsSubtree_extractSubtree (t : BinaryTree) (hb : IsBST t.root) (value : Int)
    (hm : value ∈ InOrder t.root) :
    ∃ s, t.extractSubtree value = .returns s ∧ t.containsSubtree s = .returns true := by
  cases hf : FindNode t.root value with
  | null => exact absurd hm ((FindNode_null_iff t.root hb value).1 hf)
  | mk d l r =>
    obtain ⟨hd, _⟩ := FindNode_spec t.root value d l r hf
    subst hd
    refine ⟨⟨.mk d l r⟩, by simp only [BinaryTree.extractSubtree, hf, Copy_eq], ?_⟩
    simp only [BinaryTree.containsSubtree, hf, CompareSubtrees_self]

/-- C25, at the test of `test_all_features`: the tree built from 10, 5, 15, 3, 7 and the
value 5. -/
theorem containsSubtree_extractSubtree_witness :
    IsBST exampleTree.root ∧ (5 : Int) ∈ InOrder exampleTree.root ∧
      ∃ s, exampleTree.extractSubtree 5 = .returns s ∧
        exampleTree.containsSubtree s = .returns true :=
  ⟨by decide, by decide, containsSubtree_extractSubtree exampleTree (by decide) 5 (by decide)⟩

/-! ## Paths (claims C26 and C27) -/

/-- C26: `GetByPath` throws `NodeNotFound` on the empty tree for every path; on a tree with a
root it returns the root's value for the empty path, throws `InvalidTreeOperation` at a token
that is neither `left` nor `right`, throws `NodeNotFound` at a step to an absent child, and
otherwise continues with the rest of the path from the child stepped to. On the tree built
from 10, 5, 15, 3, 7 the path `left` gives 5. -/
theorem GetByPath_spec :
    (∀ path, emptyTree.GetByPath path
        = .throws .NodeNotFound "Tree is empty - path cannot be traversed") ∧
    (∀ data left right, BinaryTree.GetByPath ⟨.mk data left right⟩ [] = .returns data) ∧
    (∀ data left right token path, token ≠ leftToken → token ≠ rightToken →
        BinaryTree.GetByPath ⟨.mk data left right⟩ (token :: path)
          = .throws .InvalidTreeOperation ("Invalid path direction: " ++ String.mk token)) ∧
    (∀ data right path, BinaryTree.GetByPath ⟨.mk data .null right⟩ (leftToken :: path)
        = .throws .NodeNotFound "Path leads to non-existent node") ∧
    (∀ data left path, BinaryTree.GetByPath ⟨.mk data left .null⟩ (rightToken :: path)
        = .throws .NodeNotFound "Path leads to non-existent node") ∧
    (∀ data d l r right path,
        BinaryTree.GetByPath ⟨.mk data (.mk d l r) right⟩ (leftToken :: path)
          = BinaryTree.GetByPath ⟨.mk d l r⟩ path) ∧
    (∀ data left d l r path,
        BinaryTree.GetByPath ⟨.mk data left (.mk d l r)⟩ (rightToken :: path)
          = BinaryTree.GetByPath ⟨.mk d l r⟩ path) ∧
    exampleTree.GetByPath [leftToken] = .returns 5 := by
  have hlr : rightToken ≠ leftToken := by decide
  refine ⟨fun _ => rfl, fun _ _ _ => rfl, ?_, ?_, ?_, ?_, ?_, by decide⟩
  · intro data left right token path h1 h2
    simp [BinaryTree.GetByPath, GetByPathLoop, h1, h2]
  · intro data right path
    simp [BinaryTree.GetByPath, GetByPathLoop]
  · intro data left path
    simp [BinaryTree.GetByPath, GetByPathLoop, hlr]
  · intro data d l r right path
    simp [BinaryTree.GetByPath, GetByPathLoop]
  · intro data left d l r path
    simp [BinaryTree.GetByPath, GetByPathLoop, hlr]

theorem GetByRelativePathLoop_withoutMessage (path : List CppString) (data : Int)
    (left right : Node) :
    (GetByRelativePathLoop data left right path).withoutMessage
      = (GetByPathLoop data left right path).withoutMessage := by
  induction path generalizing data left right with
  | nil => rfl
  | cons direction path ih =>
    simp only [GetByRelativePathLoop, GetByPathLoop]
    split
    · rfl
    · cases (if direction = leftToken then left else right) with
      | null => rfl
      | mk d l r => exact ih d l r

/-- C27: `GetByRelativePath(base, path)` throws `NodeNotFound` when the ordered search does
not find `base`; otherwise, for the tree that `extractSubtree(base)` returns, it gives what
`GetByPath(path)` gives on that tree: the same value or an exception of the same class (the
message text for an absent child differs). Since this holds for every path, the two calls fail
at the same token. On the tree built from 10, 5, 15, 3, 7, base 5 and path `right` give 7. -/
theorem GetByRelativePath_spec (t : BinaryTree) (base : Int) (path : List CppString) :
    (FindNode t.root base = .null →
      t.GetByRelativePath base path = .throws .NodeNotFound "Base node with value not found") ∧
    (∀ s, t.extractSubtree base = .returns s →
      (t.GetByRelativePath base path).withoutMessage = (s.GetByPath path).withoutMessage) ∧
    exampleTree.GetByRelativePath 5 [rightToken] = .returns 7 := by
  refine ⟨?_, ?_, by decide⟩
  · intro hf
    simp only [BinaryTree.GetByRelativePath, hf]
  · intro s hs
    cases hf : FindNode t.root base with
    | null => simp [BinaryTree.extractSubtree, hf] at hs
    | mk d l r =>
      simp only [BinaryTree.extractSubtree, hf, Copy_eq, Outcome.returns.injEq] at hs
      subst hs
      simp only [BinaryTree.GetByRelativePath, hf, BinaryTree.GetByPath]
      exact GetByRelativePathLoop_withoutMessage path d l r

/-! ## Traversal orders (claims C28 and C29) -/

theorem PreOrderWith_foldl {σ : Type} (action : Int → σ → σ) (node : Node) (s : σ) :
    PreOrderWith action node s = (PreOrder node).foldl (fun s v => action v s) s := by
  induction node generalizing s with
  | null => rfl
  | mk data left right ihl ihr =>
    simp [PreOrderWith, PreOrder, List.foldl_append, ihl, ihr]

theorem PreOrder_eq_visitSequence (node : Node) :
    PreOrder node = visitSequence .PRE_ORDER node := by
  induction node with
  | null => rfl
  | mk data left right ihl ihr => simp [PreOrder, visitSequence, ihl, ihr]

theorem PreOrder_count (node : Node) (a : Int) :
    (PreOrder node).count a = (InOrder node).count a := by
  induction node with
  | null => rfl
  | mk data left right ihl ihr =>
    simp only [PreOrder, InOrder, List.count_append, List.count_cons, List.count_nil, ihl, ihr]
    omega

theorem ReversePreOrderWith_foldl {σ : Type} (action : Int → σ → σ) (node : Node) (s : σ) :
    ReversePreOrderWith action node s = (ReversePreOrder node).foldl (fun s v => action v s) s := by
  induction node generalizing s with
  | null => rfl
  | mk data left right ihl ihr =>
    simp [ReversePreOrderWith, ReversePreOrder, List.foldl_append, ihl, ihr]

theorem ReversePreOrder_eq_visitSequence (node : Node) :
    ReversePreOrder node = visitSequence .REVERSE_PRE_ORDER node := by
  induction node with
  | null => rfl
  | mk data left right ihl ihr => simp [ReversePreOrder, visitSequence, ihl, ihr]

theorem ReversePreOrder_count (node : Node) (a : Int) :
    (ReversePreOrder node).count a = (InOrder node).count a := by
  induction node with
  | null => rfl
  | mk data left right ihl ihr =>
    simp only [ReversePreOrder, InOrder, List.count_append, List.count_cons, List.count_nil, ihl, ihr]
    omega

theorem InOrderWith_foldl {σ : Type} (action : Int → σ → σ) (node : Node) (s : σ) :
    InOrderWith action node s = (InOrder node).foldl (fun s v => action v s) s := by
  induction node generalizing s with
  | null => rfl
  | mk data left right ihl ihr =>
    simp [InOrderWith, InOrder, List.foldl_append, ihl, ihr]

theorem InOrder_eq_visitSequence (node : Node) :
    InOrder node = visitSequence .IN_ORDER node := by
  induction node with
  | null => rfl
  | mk data left right ihl ihr => simp [InOrder, visitSequence, ihl, ihr]

theorem ReverseInOrderWith_foldl {σ : Type} (action : Int → σ → σ) (node : Node) (s : σ) :
    ReverseInOrderWith action node s = (ReverseInOrder node).foldl (fun s v => action v s) s := by
  induction node generalizing s with
  | null => rfl
  | mk data left right ihl ihr =>
    simp [ReverseInOrderWith, ReverseInOrder, List.foldl_append, ihl, ihr]

theorem ReverseInOrder_eq_visitSequence (node : Node) :
    ReverseInOrder node = visitSequence .REVERSE_IN_ORDER node := by
  induction node with
  | null => rfl
  | mk data left right ihl ihr => simp [ReverseInOrder, visitSequence, ihl, ihr]

theorem ReverseInOrder_count (node : Node) (a : Int) :
    (ReverseInOrder node).count a = (InOrder node).count a := by
  induction node with
  | null => rfl
  | mk data left right ihl ihr =>
    simp only [ReverseInOrder, InOrder, List.count_append, List.count_cons, List.count_nil, ihl, ihr]
    omega

theorem PostOrderWith_foldl {σ : Type} (action : Int → σ → σ) (node : Node) (s : σ) :
    PostOrderWith action node s = (PostOrder node).foldl (fun s v => action v s) s := by
  induction node generalizing s with
  | null => rfl
  | mk data left right ihl ihr =>
    simp [PostOrderWith, PostOrder, List.foldl_append, ihl, ihr]

theorem PostOrder_eq_visitSequence (node : Node) :
    PostOrder node = visitSequence .POST_ORDER node := by
  induction node with
  | null => rfl
  | mk data left right ihl ihr => simp [PostOrder, visitSequence, ihl, ihr]

theorem PostOrder_count (node : Node) (a : Int) :
    (PostOrder node).count a = (InOrder node).count a := by
  induction node with
  | null => rfl
  | mk data left right ihl ihr =>
    simp only [PostOrder, InOrder, List.count_append, List.count_cons, List.count_nil, ihl, ihr]
    omega

theorem ReversePostOrderWith_foldl {σ : Type} (action : Int → σ → σ) (node : Node) (s : σ) :
    ReversePostOrderWith action node s = (ReversePostOrder node).foldl (fun s v => action v s) s := by
  induction node generalizing s with
  | null => rfl
  | mk data left right ihl ihr =>
    simp [ReversePostOrderWith, ReversePostOrder, List.foldl_append, ihl, ihr]

theorem ReversePostOrder_eq_visitSequence (node : Node) :
    ReversePostOrder node = visitSequence .REVERSE_POST_ORDER node := by
  induction node with
  | null => rfl
  | mk data left right ihl ihr => simp [ReversePostOrder, visitSequence, ihl, ihr]

theorem ReversePostOrder_count (node : Node) (a : Int) :
    (ReversePostOrder node).count a = (InOrder node).count a := by
  induction node with
  | null => rfl
  | mk data left right ihl ihr =>
    simp only [ReversePostOrder, InOrder, List.count_append, List.count_cons, List.count_nil, ihl, ihr]
    omega

theorem Traverse_perm_InOrder (tree : BinaryTree) (type : TraversalType) :
    List.Perm (tree.Traverse type) (InOrder tree.root) := by
  rw [List.perm_iff_count]
  intro a
  cases type with
  | PRE_ORDER => exact PreOrder_count tree.root a
  | REVERSE_PRE_ORDER => exact ReversePreOrder_count tree.root a
  | IN_ORDER => rfl
  | REVERSE_IN_ORDER => exact ReverseInOrder_count tree.root a
  | POST_ORDER => exact PostOrder_count tree.root a
  | REVERSE_POST_ORDER => exact ReversePostOrder_count tree.root a

/-- C28: for every tree and each of the six orders, `Traverse` runs the action on the values
in exactly the sequence that the table assigns to the order, one call after the other; the
sequence has as many entries as the tree has nodes, and the sequences of any two orders are
permutations of one another. -/
theorem Traverse_visits_in_order (tree : BinaryTree) (type : TraversalType) :
    (∀ (σ : Type) (action : Int → σ → σ) (s : σ),
      tree.TraverseWith type action s
        = (visitSequence type tree.root).foldl (fun s v => action v s) s) ∧
    tree.Traverse type = visitSequence type tree.root ∧
    (tree.Traverse type).length = nodeCount tree.root ∧
    (∀ other : TraversalType, List.Perm (tree.Traverse type) (tree.Traverse other)) := by
  refine ⟨?_, ?_, ?_, ?_⟩
  · intro σ action s
    cases type with
    | PRE_ORDER =>
      simp only [BinaryTree.TraverseWith, PreOrderWith_foldl, PreOrder_eq_visitSequence]
    | REVERSE_PRE_ORDER =>
      simp only [BinaryTree.TraverseWith, ReversePreOrderWith_foldl,
        ReversePreOrder_eq_visitSequence]
    | IN_ORDER =>
      simp only [BinaryTree.TraverseWith, InOrderWith_foldl, InOrder_eq_visitSequence]
    | REVERSE_IN_ORDER =>
      simp only [BinaryTree.TraverseWith, ReverseInOrderWith_foldl,
        ReverseInOrder_eq_visitSequence]
    | POST_ORDER =>
      simp only [BinaryTree.TraverseWith, PostOrderWith_foldl, PostOrder_eq_visitSequence]
    | REVERSE_POST_ORDER =>
      simp only [BinaryTree.TraverseWith, ReversePostOrderWith_foldl,
        ReversePostOrder_eq_visitSequence]
  · cases type with
    | PRE_ORDER => exact PreOrder_eq_visitSequence _
    | REVERSE_PRE_ORDER => exact ReversePreOrder_eq_visitSequence _
    | IN_ORDER => exact InOrder_eq_visitSequence _
    | REVERSE_IN_ORDER => exact ReverseInOrder_eq_visitSequence _
    | POST_ORDER => exact PostOrder_eq_visitSequence _
    | REVERSE_POST_ORDER => exact ReversePostOrder_eq_visitSequence _
  · rw [(Traverse_perm_InOrder tree type).length_eq, nodeCount_eq_length]
  · intro other
    exact (Traverse_perm_InOrder tree type).trans (Traverse_perm_InOrder tree other).symm

theorem ReverseInOrder_eq_reverse (node : Node) :
    ReverseInOrder node = (InOrder node).reverse := by
  induction node with
  | null => rfl
  | mk data left right ihl ihr => simp [ReverseInOrder, InOrder, ihl, ihr]

/-- C29: for every list of pairwise distinct values, the tree built by inserting them one by
one has a reverse-in-order traversal that is strictly descending and is the reversal of its
in-order traversal. -/
theorem ReverseInOrder_after_InsertAll (values : List Int) (hnd : values.Nodup) (fuel : Nat)
    (hf : values.length ≤ fuel) :
    ∃ tree, InsertAll fuel emptyTree values = some tree ∧
      List.Sorted (· > ·) (tree.Traverse .REVERSE_IN_ORDER) ∧
      tree.Traverse .REVERSE_IN_ORDER = (tree.Traverse .IN_ORDER).reverse := by
  obtain ⟨tree, e, hb, _⟩ := InsertAll_spec fuel values emptyTree trivial hnd
    (by intro v _; simp [emptyTree, InOrder]) (by simpa [emptyTree, nodeCount] using hf)
  have hrev : tree.Traverse .REVERSE_IN_ORDER = (tree.Traverse .IN_ORDER).reverse :=
    ReverseInOrder_eq_reverse tree.root
  refine ⟨tree, e, ?_, hrev⟩
  rw [hrev]
  exact List.pairwise_reverse.2 (IsBST.sorted tree.root hb)

/-- C29, at the values 10, 5, 15, 3, 7: the reverse-in-order traversal is 15, 10, 7, 5, 3. -/
theorem ReverseInOrder_after_InsertAll_witness :
    [10, 5, 15, 3, 7].Nodup ∧ [10, 5, 15, 3, 7].length ≤ 5 ∧
      (∃ tree, InsertAll 5 emptyTree [10, 5, 15, 3, 7] = some tree ∧
        List.Sorted (· > ·) (tree.Traverse .REVERSE_IN_ORDER) ∧
        tree.Traverse .REVERSE_IN_ORDER = (tree.Traverse .IN_ORDER).reverse) ∧
      (InsertAll 5 emptyTree [10, 5, 15, 3, 7]).map (fun t => t.Traverse .REVERSE_IN_ORDER)
        = some [15, 10, 7, 5, 3] :=
  ⟨by decide, by decide,
    ReverseInOrder_after_InsertAll [10, 5, 15, 3, 7] (by decide) 5 (by decide), by decide⟩

/-! ## Filtering (claim C30) -/

theorem whereAction_foldl_none (fuel : Nat) (predicate : Int → Bool) (values : List Int) :
    values.foldl (fun s v => whereAction fuel predicate v s) none = none := by
  induction values with
  | nil => rfl
  | cons v vs ih => simpa [whereAction] using ih

/-- Running the action of `where` over a list of values inserts the values that satisfy the
predicate, one after the other. -/
theorem whereAction_foldl (fuel : Nat) (predicate : Int → Bool) (values : List Int)
    (result : BinaryTree) :
    values.foldl (fun s v => whereAction fuel predicate v s) (some result)
      = InsertAll fuel result (values.filter predicate) := by
  induction values generalizing result with
  | nil => rfl
  | cons v vs ih =>
    have hstep : whereAction fuel predicate v (some result)
        = if predicate v = true then result.Insert fuel v else some result := rfl
    rw [List.foldl_cons, hstep]
    by_cases hp : predicate v = true
    · rw [if_pos hp, List.filter_cons_of_pos hp]
      simp only [InsertAll]
      cases e : result.Insert fuel v with
      | none => exact whereAction_foldl_none fuel predicate vs
      | some r1 => exact ih r1
    · rw [if_neg hp, List.filter_cons_of_neg hp]
      exact ih result

/-- C30: for every valid tree and every predicate, `where` returns (every `Insert` within as
many loop iterations as the tree has nodes) a valid tree whose in-order sequence is the
in-order sequence of the receiver filtered by the predicate. -/
theorem where_filters (t : BinaryTree) (hb : IsBST t.root) (predicate : Int → Bool)
    (fuel : Nat) (hf : nodeCount t.root ≤ fuel) :
    ∃ r, t.where_ fuel predicate = some r ∧ IsBST r.root ∧
      r.Traverse .IN_ORDER = (t.Traverse .IN_ORDER).filter predicate := by
  have hs := IsBST.sorted t.root hb
  have hlen : ((InOrder t.root).filter predicate).length ≤ fuel := by
    have := List.length_filter_le predicate (InOrder t.root)
    rw [nodeCount_eq_length] at hf
    omega
  obtain ⟨r, e, hbr, hp⟩ := InsertAll_spec fuel ((InOrder t.root).filter predicate) ⟨.null⟩
    trivial (hs.nodup.filter predicate) (by intro v _; simp [InOrder])
    (by simpa [nodeCount] using hlen)
  have hw : t.where_ fuel predicate = some r := by
    rw [← e]
    unfold BinaryTree.where_
    cases hroot : t.root with
    | null => simp [InOrder, InsertAll]
    | mk d l r1 =>
      simp only [BinaryTree.TraverseWith]
      rw [← hroot, InOrderWith_foldl, whereAction_foldl]
  refine ⟨r, hw, hbr, ?_⟩
  have hp1 : List.Perm (InOrder r.root) ((InOrder t.root).filter predicate) := by
    simpa [InOrder] using hp
  exact List.eq_of_perm_of_sorted hp1 (IsBST.sorted r.root hbr) (hs.filter predicate)

/-- C30, at the filter test of `test_all_features`: the tree built from 10, 5, 15, 3, 7
filtered by `value > 5` has the in-order sequence 7, 10, 15. -/
theorem where_filters_witness :
    IsBST exampleTree.root ∧ nodeCount exampleTree.root ≤ 5 ∧
      (∃ r, exampleTree.where_ 5 greaterThanFive = some r ∧ IsBST r.root ∧
        r.Traverse .IN_ORDER = (exampleTree.Traverse .IN_ORDER).filter greaterThanFive) ∧
      (exampleTree.where_ 5 greaterThanFive).map (fun t => t.Traverse .IN_ORDER)
        = some [7, 10, 15] :=
  ⟨by decide, by decide, where_filters exampleTree (by decide) greaterThanFive 5 (by decide),
    by decide⟩

/-! ## Reversed orders and the outcomes of `Contains` and `Remove` (claims C40, C36, C32) -/

theorem PostOrder_eq_reverse (node : Node) :
    PostOrder node = (ReversePreOrder node).reverse := by
  induction node with
  | null => rfl
  | mk data left right ihl ihr => simp [PostOrder, ReversePreOrder, ihl, ihr]

theorem ReversePostOrder_eq_reverse (node : Node) :
    ReversePostOrder node = (PreOrder node).reverse := by
  induction node with
  | null => rfl
  | mk data left right ihl ihr => simp [ReversePostOrder, PreOrder, ihl, ihr]

/-- C40: for every tree, the post-order sequence is the reversal of the reverse-pre-order
sequence, and the reverse-post-order sequence is the reversal of the pre-order sequence. -/
theorem PostOrder_reverses_ReversePreOrder (tree : BinaryTree) :
    tree.Traverse .POST_ORDER = (tree.Traverse .REVERSE_PRE_ORDER).reverse ∧
      tree.Traverse .REVERSE_POST_ORDER = (tree.Traverse .PRE_ORDER).reverse :=
  ⟨PostOrder_eq_reverse tree.root, ReversePostOrder_eq_reverse tree.root⟩

/-- The three ways in which the loop of `Contains`, entered at a node, ends. -/
theorem ContainsLoop_outcomes (node : Node) (value : Int) (hn : node ≠ .null) :
    ContainsLoop node value = .returns true ∨
      ContainsLoop node value
        = .throws .TreeException "Value not found - left subtree ended" ∨
      ContainsLoop node value
        = .throws .TreeException "Value not found - right subtree ended" := by
  induction node with
  | null => exact absurd rfl hn
  | mk data left right ihl ihr =>
    by_cases heq : value = data
    · left; simp [ContainsLoop, heq]
    · by_cases hlt : value < data
      · cases left with
        | null => right; left; simp [ContainsLoop, heq, hlt]
        | mk d l r => simpa [ContainsLoop, heq, hlt] using ihl (by simp)
      · cases right with
        | null => right; right; simp [ContainsLoop, heq, hlt]
        | mk d l r => simpa [ContainsLoop, heq, hlt] using ihr (by simp)

/-- C36: for every tree and every value, `Contains` returns `true` or throws a
`TreeException`: for the empty tree, or because the search reached an absent left or right
child. It never returns `false`. -/
theorem Contains_true_or_throws (tree : BinaryTree) (value : Int) :
    (tree.Contains value = .returns true ∨
      (tree.root = .null ∧ tree.Contains value
        = .throws .TreeException "Tree is empty - cannot check containment") ∨
      tree.Contains value = .throws .TreeException "Value not found - left subtree ended" ∨
      tree.Contains value = .throws .TreeException "Value not found - right subtree ended") ∧
    tree.Contains value ≠ .returns false := by
  obtain ⟨root⟩ := tree
  cases root with
  | null =>
    refine ⟨Or.inr (Or.inl ⟨rfl, rfl⟩), ?_⟩
    simp [BinaryTree.Contains, BinaryTree.IsEmpty]
  | mk data left right =>
    have h := ContainsLoop_outcomes (.mk data left right) value (by simp)
    have e : BinaryTree.Contains ⟨.mk data left right⟩ value
        = ContainsLoop (.mk data left right) value := by
      simp [BinaryTree.Contains, BinaryTree.IsEmpty]
    rw [e]
    refine ⟨?_, ContainsLoop_ne_false _ value (by simp)⟩
    rcases h with h | h | h
    · exact Or.inl h
    · exact Or.inr (Or.inr (Or.inl h))
    · exact Or.inr (Or.inr (Or.inr h))

/-- C32: for every tree (the empty tree included) and every value that is not stored in it,
`Remove` throws a `TreeException` and the tree is the same as before the call. -/
theorem Remove_absent_fails (tree : BinaryTree) (value : Int)
    (h : value ∉ InOrder tree.root) :
    ∃ message, tree.Remove value = .throws .TreeException message tree := by
  have hc : ∃ message, tree.Contains value = .throws .TreeException message := by
    obtain ⟨root⟩ := tree
    cases root with
    | null => exact ⟨_, rfl⟩
    | mk data left right =>
      rcases ContainsLoop_cases (.mk data left right) value (by simp) with ⟨_, h2⟩ | ⟨m, hm⟩
      · exact absurd h2 h
      · exact ⟨m, by simpa [BinaryTree.Contains, BinaryTree.IsEmpty] using hm⟩
  obtain ⟨m, hm⟩ := hc
  exact ⟨m, by simp only [BinaryTree.Remove, hm]⟩

/-- C32, at the tree built from 10, 5, 15 and the value 7, and at the empty tree. -/
theorem Remove_absent_fails_witness :
    (7 : Int) ∉ InOrder threeTree.root ∧
      (∃ message, threeTree.Remove 7 = .throws .TreeException message threeTree) ∧
      threeTree.Remove 7
        = .throws .TreeException "Value not found - right subtree ended" threeTree ∧
      emptyTree.Remove 7
        = .throws .TreeException "Tree is empty - cannot check containment" emptyTree :=
  ⟨by decide, Remove_absent_fails threeTree 7 (by decide), by decide, by decide⟩

/-! ## Traversal with a failing action (claim C33) -/

theorem andThen_assoc {σ : Type} (run : TraversalRun σ)
    (f g : σ → List Int → TraversalRun σ) :
    (run.andThen f).andThen g = run.andThen (fun s invoked => (f s invoked).andThen g) := by
  obtain ⟨invoked, outcome⟩ := run
  cases outcome <;> rfl

theorem runList_cons {σ : Type} (message : String) (action : Int → σ → Option σ)
    (value : Int) (values : List Int) :
    runList message action (value :: values)
      = fun s invoked =>
          (callAction message action value s invoked).andThen
            (runList message action values) := rfl

theorem andThen_pure {σ : Type} (run : TraversalRun σ) :
    run.andThen (fun s invoked => ⟨invoked, .returns s⟩) = run := by
  obtain ⟨invoked, outcome⟩ := run
  cases outcome <;> rfl

theorem runList_single {σ : Type} (message : String) (action : Int → σ → Option σ)
    (value : Int) :
    callAction message action value = runList message action [value] := by
  funext s invoked
  show _ = (callAction message action value s invoked).andThen _
  exact (andThen_pure _).symm

theorem runList_append {σ : Type} (message : String) (action : Int → σ → Option σ)
    (xs ys : List Int) (s : σ) (invoked : List Int) :
    (runList message action xs s invoked).andThen (runList message action ys)
      = runList message action (xs ++ ys) s invoked := by
  induction xs generalizing s invoked with
  | nil => rfl
  | cons x xs ih =>
    show ((callAction message action x s invoked).andThen _).andThen _
      = (callAction message action x s invoked).andThen _
    rw [andThen_assoc]
    congr 1
    funext s1 i1
    exact ih s1 i1

theorem PreOrderTry_eq_runList {σ : Type} (action : Int → σ → Option σ) (node : Node) (s : σ)
    (invoked : List Int) :
    PreOrderTry action node s invoked
      = runList "Action failed during PreOrder traversal" action (PreOrder node) s invoked := by
  induction node generalizing s invoked with
  | null => rfl
  | mk data left right ihl ihr =>
    have hl : PreOrderTry action left
        = runList "Action failed during PreOrder traversal" action (PreOrder left) :=
      funext fun s1 => funext fun i1 => ihl s1 i1
    have hr : PreOrderTry action right
        = runList "Action failed during PreOrder traversal" action (PreOrder right) :=
      funext fun s1 => funext fun i1 => ihr s1 i1
    simp only [PreOrderTry]
    rw [hl, hr, runList_single, runList_append, runList_append]
    simp [PreOrder]

theorem ReversePreOrderTry_eq_runList {σ : Type} (action : Int → σ → Option σ) (node : Node) (s : σ)
    (invoked : List Int) :
    ReversePreOrderTry action node s invoked
      = runList "Action failed during ReversePreOrder traversal" action (ReversePreOrder node) s invoked := by
  induction node generalizing s invoked with
  | null => rfl
  | mk data left right ihl ihr =>
    have hl : ReversePreOrderTry action left
        = runList "Action failed during ReversePreOrder traversal" action (ReversePreOrder left) :=
      funext fun s1 => funext fun i1 => ihl s1 i1
    have hr : ReversePreOrderTry action right
        = runList "Action failed during ReversePreOrder traversal" action (ReversePreOrder right) :=
      funext fun s1 => funext fun i1 => ihr s1 i1
    simp only [ReversePreOrderTry]
    rw [hl, hr, runList_single, runList_append, runList_append]
    simp [ReversePreOrder]

theorem InOrderTry_eq_runList {σ : Type} (action : Int → σ → Option σ) (node : Node) (s : σ)
    (invoked : List Int) :
    InOrderTry action node s invoked
      = runList "Action failed during InOrder traversal" action (InOrder node) s invoked := by
  induction node generalizing s invoked with
  | null => rfl
  | mk data left right ihl ihr =>
    have hl : InOrderTry action left
        = runList "Action failed during InOrder traversal" action (InOrder left) :=
      funext fun s1 => funext fun i1 => ihl s1 i1
    have hr : InOrderTry action right
        = runList "Action failed during InOrder traversal" action (InOrder right) :=
      funext fun s1 => funext fun i1 => ihr s1 i1
    simp only [InOrderTry]
    rw [hl, hr, runList_single, runList_append, runList_append]
    simp [InOrder]

theorem ReverseInOrderTry_eq_runList {σ : Type} (action : Int → σ → Option σ) (node : Node) (s : σ)
    (invoked : List Int) :
    ReverseInOrderTry action node s invoked
      = runList "Action failed during ReverseInOrder traversal" action (ReverseInOrder node) s invoked := by
  induction node generalizing s invoked with
  | null => rfl
  | mk data left right ihl ihr =>
    have hl : ReverseInOrderTry action left
        = runList "Action failed during ReverseInOrder traversal" action (ReverseInOrder left) :=
      funext fun s1 => funext fun i1 => ihl s1 i1
    have hr : ReverseInOrderTry action right
        = runList "Action failed during ReverseInOrder traversal" action (ReverseInOrder right) :=
      funext fun s1 => funext fun i1 => ihr s1 i1
    simp only [ReverseInOrderTry]
    rw [hl, hr, runList_single, runList_append, runList_append]
    simp [ReverseInOrder]

theorem PostOrderTry_eq_runList {σ : Type} (action : Int → σ → Option σ) (node : Node) (s : σ)
    (invoked : List Int) :
    PostOrderTry action node s invoked
      = runList "Action failed during PostOrder traversal" action (PostOrder node) s invoked := by
  induction node generalizing s invoked with
  | null => rfl
  | mk data left right ihl ihr =>
    have hl : PostOrderTry action left
        = runList "Action failed during PostOrder traversal" action (PostOrder left) :=
      funext fun s1 => funext fun i1 => ihl s1 i1
    have hr : PostOrderTry action right
        = runList "Action failed during PostOrder traversal" action (PostOrder right) :=
      funext fun s1 => funext fun i1 => ihr s1 i1
    simp only [PostOrderTry]
    rw [hl, hr, runList_single, runList_append, runList_append]
    simp [PostOrder]

theorem ReversePostOrderTry_eq_runList {σ : Type} (action : Int → σ → Option σ) (node : Node) (s : σ)
    (invoked : List Int) :
    ReversePostOrderTry action node s invoked
      = runList "Action failed during ReversePostOrder traversal" action (ReversePostOrder node) s invoked := by
  induction node generalizing s invoked with
  | null => rfl
  | mk data left right ihl ihr =>
    have hl : ReversePostOrderTry action left
        = runList "Action failed during ReversePostOrder traversal" action (ReversePostOrder left) :=
      funext fun s1 => funext fun i1 => ihl s1 i1
    have hr : ReversePostOrderTry action right
        = runList "Action failed during ReversePostOrder traversal" action (ReversePostOrder right) :=
      funext fun s1 => funext fun i1 => ihr s1 i1
    simp only [ReversePostOrderTry]
    rw [hl, hr, runList_single, runList_append, runList_append]
    simp [ReversePostOrder]

/-- When the action throws on none of the values, it is called on all of them. -/
theorem runList_ok {σ : Type} (message : String) (action : Int → σ → Option σ)
    (values : List Int) (s : σ) (invoked : List Int) (s1 : σ)
    (h : values.foldlM (fun s v => action v s) s = some s1) :
    runList message action values s invoked = ⟨invoked ++ values, .returns s1⟩ := by
  induction values generalizing s invoked with
  | nil =>
    simp only [List.foldlM_nil, pure, Option.some.injEq] at h
    subst h
    simp [runList]
  | cons v vs ih =>
    simp only [List.foldlM_cons, bind, Option.bind_eq_some] at h
    obtain ⟨s2, h2, h3⟩ := h
    have hc : callAction message action v s invoked = ⟨invoked ++ [v], .returns s2⟩ := by
      simp only [callAction, h2]
    rw [runList_cons]
    simp only [hc, TraversalRun.andThen]
    rw [ih s2 (invoked ++ [v]) h3]
    simp

/-- When the action throws on a value after running through the values before it, it has been
called on those values and on that value, and on no later value. -/
theorem runList_fail {σ : Type} (message : String) (action : Int → σ → Option σ)
    (before : List Int) (v : Int) (after : List Int) (s : σ) (invoked : List Int) (s1 : σ)
    (h : before.foldlM (fun s v => action v s) s = some s1) (hv : action v s1 = none) :
    runList message action (before ++ v :: after) s invoked
      = ⟨invoked ++ (before ++ [v]), .throws .TreeException message⟩ := by
  rw [← runList_append, runList_ok message action before s invoked s1 h]
  have hc : callAction message action v s1 (invoked ++ before)
      = ⟨invoked ++ before ++ [v], .throws .TreeException message⟩ := by
    simp only [callAction, hv]
  simp only [TraversalRun.andThen, runList_cons, hc, List.append_assoc]

/-- C33: for every tree, order and action: if the action throws on no visited value,
`Traverse` returns after calling it on the whole sequence of the order; if the action throws on
a value after running through the values before it, `Traverse` throws, the action has been
called on exactly those values and that value (on no later value), and the message of the
exception names the order in progress. -/
theorem Traverse_aborts_at_first_failure {σ : Type} (tree : BinaryTree)
    (type : TraversalType) (action : Int → σ → Option σ) (s : σ) :
    (∀ s1, (visitSequence type tree.root).foldlM (fun s v => action v s) s = some s1 →
      tree.TraverseTry type action s = ⟨visitSequence type tree.root, .returns s1⟩) ∧
    (∀ before v after s1, visitSequence type tree.root = before ++ v :: after →
      before.foldlM (fun s v => action v s) s = some s1 → action v s1 = none →
      tree.TraverseTry type action s
        = ⟨before ++ [v], .throws .TreeException
            ("Traversal failed: Action failed during " ++ orderName type ++ " traversal")⟩) := by
  cases type with
  | PRE_ORDER =>
    have e : tree.TraverseTry .PRE_ORDER action s
        = rethrowTraversal (runList "Action failed during PreOrder traversal" action
            (visitSequence .PRE_ORDER tree.root) s []) := by
      simp only [BinaryTree.TraverseTry, PreOrderTry_eq_runList, PreOrder_eq_visitSequence]
    rw [e]
    constructor
    · intro s1 h1
      rw [runList_ok _ action _ s [] s1 h1]
      rfl
    · intro before v after s1 hseq h1 h2
      rw [hseq, runList_fail _ action before v after s [] s1 h1 h2]
      rfl
  | REVERSE_PRE_ORDER =>
    have e : tree.TraverseTry .REVERSE_PRE_ORDER action s
        = rethrowTraversal (runList "Action failed during ReversePreOrder traversal" action
            (visitSequence .REVERSE_PRE_ORDER tree.root) s []) := by
      simp only [BinaryTree.TraverseTry, ReversePreOrderTry_eq_runList, ReversePreOrder_eq_visitSequence]
    rw [e]
    constructor
    · intro s1 h1
      rw [runList_ok _ action _ s [] s1 h1]
      rfl
    · intro before v after s1 hseq h1 h2
      rw [hseq, runList_fail _ action before v after s [] s1 h1 h2]
      rfl
  | IN_ORDER =>
    have e : tree.TraverseTry .IN_ORDER action s
        = rethrowTraversal (runList "Action failed during InOrder traversal" action
            (visitSequence .IN_ORDER tree.root) s []) := by
      simp only [BinaryTree.TraverseTry, InOrderTry_eq_runList, InOrder_eq_visitSequence]
    rw [e]
    constructor
    · intro s1 h1
      rw [runList_ok _ action _ s [] s1 h1]
      rfl
    · intro before v after s1 hseq h1 h2
      rw [hseq, runList_fail _ action before v after s [] s1 h1 h2]
      rfl
  | REVERSE_IN_ORDER =>
    have e : tree.TraverseTry .REVERSE_IN_ORDER action s
        = rethrowTraversal (runList "Action failed during ReverseInOrder traversal" action
            (visitSequence .REVERSE_IN_ORDER tree.root) s []) := by
      simp only [BinaryTree.TraverseTry, ReverseInOrderTry_eq_runList, ReverseInOrder_eq_visitSequence]
    rw [e]
    constructor
    · intro s1 h1
      rw [runList_ok _ action _ s [] s1 h1]
      rfl
    · intro before v after s1 hseq h1 h2
      rw [hseq, runList_fail _ action before v after s [] s1 h1 h2]
      rfl
  | POST_ORDER =>
    have e : tree.TraverseTry .POST_ORDER action s
        = rethrowTraversal (runList "Action failed during PostOrder traversal" action
            (visitSequence .POST_ORDER tree.root) s []) := by
      simp only [BinaryTree.TraverseTry, PostOrderTry_eq_runList, PostOrder_eq_visitSequence]
    rw [e]
    constructor
    · intro s1 h1
      rw [runList_ok _ action _ s [] s1 h1]
      rfl
    · intro before v after s1 hseq h1 h2
      rw [hseq, runList_fail _ action before v after s [] s1 h1 h2]
      rfl
  | REVERSE_POST_ORDER =>
    have e : tree.TraverseTry .REVERSE_POST_ORDER action s
        = rethrowTraversal (runList "Action failed during ReversePostOrder traversal" action
            (visitSequence .REVERSE_POST_ORDER tree.root) s []) := by
      simp only [BinaryTree.TraverseTry, ReversePostOrderTry_eq_runList, ReversePostOrder_eq_visitSequence]
    rw [e]
    constructor
    · intro s1 h1
      rw [runList_ok _ action _ s [] s1 h1]
      rfl
    · intro before v after s1 hseq h1 h2
      rw [hseq, runList_fail _ action before v after s [] s1 h1 h2]
      rfl

/-- C33, at the tree built from 10, 5, 15, 3, 7, in-order, with an action that throws on the
value 5: the action is called on 3 and 5 and the message names `InOrder`. -/
theorem Traverse_aborts_at_first_failure_witness :
    visitSequence .IN_ORDER exampleTree.root = [3] ++ 5 :: [7, 10, 15] ∧
      [3].foldlM (fun s v => failOnFive v s) 0 = some 1 ∧ failOnFive 5 1 = none ∧
      exampleTree.TraverseTry .IN_ORDER failOnFive 0
        = ⟨[3, 5], .throws .TreeException
            "Traversal failed: Action failed during InOrder traversal"⟩ :=
  ⟨by decide, by decide, by decide,
    (Traverse_aborts_at_first_failure exampleTree .IN_ORDER failOnFive 0).2 [3] 5 [7, 10, 15] 1
      (by decide) (by decide) (by decide)⟩

/-! ## The cases of removal (claims C34 and C35) -/

theorem InOrder_plug (ctx : Ctx) (node : Node) :
    InOrder (plug ctx node) = ctx.before ++ InOrder node ++ ctx.after := by
  induction ctx with
  | hole => simp [plug, Ctx.before, Ctx.after]
  | inLeft data ctx right ih => simp [plug, Ctx.before, Ctx.after, InOrder, ih]
  | inRight data left ctx ih => simp [plug, Ctx.before, Ctx.after, InOrder, ih]

theorem IsBST_plug (ctx : Ctx) (node : Node) (h : IsBST (plug ctx node)) : IsBST node := by
  induction ctx with
  | hole => exact h
  | inLeft data ctx right ih => exact ih h.2.2.1
  | inRight data left ctx ih => exact ih h.2.2.2

/-- In a valid tree `RemoveNode` walks to the subtree that holds the value and works there;
the nodes beside the way are left as they are. -/
theorem RemoveNode_plug (ctx : Ctx) (node : Node) (value : Int)
    (hb : IsBST (plug ctx node)) (hm : value ∈ InOrder node) :
    RemoveNode (plug ctx node) value = (RemoveNode node value).map (plug ctx) := by
  induction ctx with
  | hole => simp [plug]
  | inLeft data ctx right ih =>
    obtain ⟨h1, _, hl, _⟩ := hb
    have hlt : value < data := h1 value (by rw [InOrder_plug]; simp [hm])
    simp only [plug, RemoveNode, hlt, if_true, ih hl, Option.map_map]
    rfl
  | inRight data left ctx ih =>
    obtain ⟨_, h2, _, hr⟩ := hb
    have hgt : data < value := h2 value (by rw [InOrder_plug]; simp [hm])
    have hnl : ¬ value < data := by omega
    simp only [plug, RemoveNode, hnl, if_false, gt_iff_lt, hgt, if_true, ih hr, Option.map_map]
    rfl

/-- `Remove` of the value at a position of a valid tree does at that position what
`RemoveNode` does to the subtree rooted there. -/
theorem Remove_plug (ctx : Ctx) (value : Int) (left right node1 : Node)
    (hb : IsBST (plug ctx (.mk value left right)))
    (h : RemoveNode (.mk value left right) value = some node1) :
    BinaryTree.Remove ⟨plug ctx (.mk value left right)⟩ value = .returns ⟨plug ctx node1⟩ := by
  have hm : value ∈ InOrder (plug ctx (.mk value left right)) := by
    rw [InOrder_plug]; simp [InOrder]
  have hc : BinaryTree.Contains ⟨plug ctx (.mk value left right)⟩ value = .returns true := by
    have hl := ContainsLoop_of_mem _ value hb hm
    cases hp : plug ctx (.mk value left right) with
    | null => rw [hp] at hm; simp [InOrder] at hm
    | mk d l r =>
      rw [hp] at hl
      simpa [BinaryTree.Contains, BinaryTree.IsEmpty] using hl
  have hr := RemoveNode_plug ctx (.mk value left right) value hb (by simp [InOrder])
  rw [h] at hr
  simp only [BinaryTree.Remove, hc, hr, Option.map_some']

/-- C34: in a valid tree, `Remove` of a value whose node has no left child gives the tree in
which that node is replaced by its right subtree (possibly absent), and `Remove` of a value
whose node has a left child and no right child gives the tree in which it is replaced by its
left subtree; every other node keeps its value and position. -/
theorem Remove_one_child (ctx : Ctx) (value : Int) :
    (∀ right, IsBST (plug ctx (.mk value .null right)) →
      BinaryTree.Remove ⟨plug ctx (.mk value .null right)⟩ value
        = .returns ⟨plug ctx right⟩) ∧
    (∀ d l r, IsBST (plug ctx (.mk value (.mk d l r) .null)) →
      BinaryTree.Remove ⟨plug ctx (.mk value (.mk d l r) .null)⟩ value
        = .returns ⟨plug ctx (.mk d l r)⟩) := by
  constructor
  · intro right hb
    exact Remove_plug ctx value .null right right hb (by simp [RemoveNode])
  · intro d l r hb
    exact Remove_plug ctx value (.mk d l r) .null (.mk d l r) hb (by simp [RemoveNode])

/-- C34, in the tree built from 10, 5, 15, 7 (the node 5 has only the right child 7) and in
the tree built from 10, 5, 15, 3 (the node 5 has only the left child 3). -/
theorem Remove_one_child_witness :
    IsBST (plug (.inLeft 10 .hole (.mk 15 .null .null)) (.mk 5 .null (.mk 7 .null .null))) ∧
      BinaryTree.Remove ⟨.mk 10 (.mk 5 .null (.mk 7 .null .null)) (.mk 15 .null .null)⟩ 5
        = .returns ⟨.mk 10 (.mk 7 .null .null) (.mk 15 .null .null)⟩ ∧
      IsBST (plug (.inLeft 10 .hole (.mk 15 .null .null)) (.mk 5 (.mk 3 .null .null) .null)) ∧
      BinaryTree.Remove ⟨.mk 10 (.mk 5 (.mk 3 .null .null) .null) (.mk 15 .null .null)⟩ 5
        = .returns ⟨.mk 10 (.mk 3 .null .null) (.mk 15 .null .null)⟩ :=
  ⟨by decide,
    (Remove_one_child (.inLeft 10 .hole (.mk 15 .null .null)) 5).1 (.mk 7 .null .null)
      (by decide),
    by decide,
    (Remove_one_child (.inLeft 10 .hole (.mk 15 .null .null)) 5).2 3 .null .null
      (by decide)⟩

/-- In a valid subtree `FindMin` returns the node with the least value. -/
theorem FindMin_least (node : Node) (hb : IsBST node) (m : Int) (ml mr : Node)
    (h : FindMin node = .mk m ml mr) : m ∈ InOrder node ∧ ∀ x ∈ InOrder node, m ≤ x := by
  induction node with
  | null => simp [FindMin] at h
  | mk data left right ihl _ =>
    obtain ⟨h1, h2, hl, _⟩ := hb
    cases left with
    | null =>
      simp only [FindMin, Node.mk.injEq] at h
      obtain ⟨rfl, _, _⟩ := h
      refine ⟨by simp [InOrder], ?_⟩
      intro x hx
      simp only [InOrder, List.nil_append, List.mem_cons] at hx
      rcases hx with hx | hx
      · omega
      · exact le_of_lt (h2 x hx)
    | mk d l r =>
      have h0 : FindMin (.mk d l r) = .mk m ml mr := h
      obtain ⟨hmem, hle⟩ := ihl hl h0
      have e : InOrder (.mk data (.mk d l r) right)
          = InOrder (.mk d l r) ++ data :: InOrder right := rfl
      rw [e]
      refine ⟨List.mem_append_left _ hmem, ?_⟩
      intro x hx
      have hmd : m < data := h1 m hmem
      rcases List.mem_append.1 hx with hx | hx
      · exact hle x hx
      · rcases List.mem_cons.1 hx with hx | hx
        · omega
        · exact le_of_lt (lt_trans hmd (h2 x hx))

/-- C35: in a valid tree, `RemoveNode` called with the value of a node that has both children
returns the tree of the same shape and with the same nodes in which only that node's value
is overwritten by the least value of its right subtree; that value then occurs twice. -/
theorem RemoveNode_two_children_overwrites (ctx : Ctx) (value ld rd : Int)
    (ll lr rl rr : Node)
    (hb : IsBST (plug ctx (.mk value (.mk ld ll lr) (.mk rd rl rr)))) :
    ∃ m, (∃ ml mr, FindMin (.mk rd rl rr) = .mk m ml mr) ∧
      m ∈ InOrder (.mk rd rl rr) ∧ (∀ x ∈ InOrder (.mk rd rl rr), m ≤ x) ∧
      RemoveNode (plug ctx (.mk value (.mk ld ll lr) (.mk rd rl rr))) value
        = some (plug ctx (.mk m (.mk ld ll lr) (.mk rd rl rr))) ∧
      nodeCount (plug ctx (.mk m (.mk ld ll lr) (.mk rd rl rr)))
        = nodeCount (plug ctx (.mk value (.mk ld ll lr) (.mk rd rl rr))) ∧
      (InOrder (plug ctx (.mk m (.mk ld ll lr) (.mk rd rl rr)))).count m = 2 := by
  have hn := IsBST_plug ctx _ hb
  obtain ⟨m, ml, mr, hfm, hrem⟩ :=
    RemoveNode_two_children value (.mk ld ll lr) (.mk rd rl rr) hn (by simp) (by simp)
  obtain ⟨hmem, hle⟩ := FindMin_least (.mk rd rl rr) hn.2.2.2 m ml mr hfm
  have hvm : value < m := hn.2.1 m hmem
  refine ⟨m, ⟨ml, mr, hfm⟩, hmem, hle, ?_, ?_, ?_⟩
  · rw [RemoveNode_plug ctx _ value hb (by simp [InOrder]), hrem]
    rfl
  · rw [nodeCount_eq_length, nodeCount_eq_length, InOrder_plug, InOrder_plug]
    simp [InOrder]
  · have hnd : (InOrder (plug ctx (.mk value (.mk ld ll lr) (.mk rd rl rr)))).Nodup :=
      (IsBST.sorted _ hb).nodup
    have hmem1 : m ∈ InOrder (plug ctx (.mk value (.mk ld ll lr) (.mk rd rl rr))) := by
      rw [InOrder_plug]
      have : m ∈ InOrder (.mk value (.mk ld ll lr) (.mk rd rl rr)) := by
        simp only [InOrder, List.mem_append, List.mem_cons] at hmem ⊢
        exact Or.inr (Or.inr hmem)
      simp [this]
    have hone := List.count_eq_one_of_mem hnd hmem1
    have hne : ¬ value = m := by omega
    rw [InOrder_plug] at hone ⊢
    have e1 : InOrder (.mk value (.mk ld ll lr) (.mk rd rl rr))
        = InOrder (.mk ld ll lr) ++ value :: InOrder (.mk rd rl rr) := rfl
    have e2 : InOrder (.mk m (.mk ld ll lr) (.mk rd rl rr))
        = InOrder (.mk ld ll lr) ++ m :: InOrder (.mk rd rl rr) := rfl
    rw [e1] at hone
    rw [e2]
    simp only [List.count_append, List.count_cons, beq_iff_eq, hne, if_false,
      add_zero] at hone
    simp only [List.count_append, List.count_cons, beq_self_eq_true, if_true]
    omega

/-- C35, at the tree built from 10, 5, 15: `RemoveNode` with the value 10 overwrites the root
with 15, keeps all three nodes, and 15 occurs twice. -/
theorem RemoveNode_two_children_overwrites_witness :
    IsBST (plug .hole (.mk 10 (.mk 5 .null .null) (.mk 15 .null .null))) ∧
      (∃ m, (∃ ml mr, FindMin (.mk 15 .null .null) = .mk m ml mr) ∧
        m ∈ InOrder (.mk 15 .null .null) ∧ (∀ x ∈ InOrder (.mk 15 .null .null), m ≤ x) ∧
        RemoveNode (plug .hole (.mk 10 (.mk 5 .null .null) (.mk 15 .null .null))) 10
          = some (plug .hole (.mk m (.mk 5 .null .null) (.mk 15 .null .null))) ∧
        nodeCount (plug .hole (.mk m (.mk 5 .null .null) (.mk 15 .null .null)))
          = nodeCount (plug .hole (.mk 10 (.mk 5 .null .null) (.mk 15 .null .null))) ∧
        (InOrder (plug .hole (.mk m (.mk 5 .null .null) (.mk 15 .null .null)))).count m = 2) ∧
      RemoveNode (.mk 10 (.mk 5 .null .null) (.mk 15 .null .null)) 10
        = some (.mk 15 (.mk 5 .null .null) (.mk 15 .null .null)) :=
  ⟨by decide,
    RemoveNode_two_children_overwrites .hole 10 5 15 .null .null .null .null (by decide),
    by decide⟩

/-! ## The frame of `Insert` (claim C37) -/

theorem valueAt_null (path : List Direction) : valueAt .null path = none := by
  cases path <;> rfl

theorem valueAt_leaf_cons (value : Int) (b : Direction) (path : List Direction) :
    valueAt (.mk value .null .null) (b :: path) = none := by
  cases b <;> exact valueAt_null path

theorem valueAt_none_append (node : Node) (p q : List Direction)
    (h : valueAt node p = none) : valueAt node (p ++ q) = none := by
  induction p generalizing node with
  | nil =>
    cases node with
    | null => exact valueAt_null _
    | mk d l r => simp [valueAt] at h
  | cons b p ih =>
    cases node with
    | null => exact valueAt_null _
    | mk d l r =>
      cases b with
      | left => exact ih l h
      | right => exact ih r h

/-- When the loop of `Insert` is left, one position that was free holds the value, and every
other path resolves as before. -/
theorem InsertLoop_frame (fuel : Nat) (data : Int) (left right : Node) (value : Int)
    (node : Node) (h : InsertLoop fuel data left right value = some node) :
    ∃ p, valueAt (.mk data left right) p = none ∧ valueAt node p = some value ∧
      ∀ q, q ≠ p → valueAt node q = valueAt (.mk data left right) q := by
  induction fuel generalizing data left right node with
  | zero => simp [InsertLoop] at h
  | succ fuel ih =>
    by_cases hlt : value < data
    · cases left with
      | null =>
        simp only [InsertLoop, hlt, if_true, Option.some.injEq] at h
        subst h
        refine ⟨[.left], rfl, rfl, ?_⟩
        intro q hq
        match q, hq with
        | [], _ => rfl
        | [.left], hq => exact absurd rfl hq
        | .left :: b :: q2, _ =>
          show valueAt (.mk value .null .null) (b :: q2) = valueAt .null (b :: q2)
          rw [valueAt_leaf_cons, valueAt_null]
        | .right :: _, _ => rfl
      | mk d l r =>
        simp only [InsertLoop, hlt, if_true, Option.map_eq_some'] at h
        obtain ⟨n1, e, rfl⟩ := h
        obtain ⟨p, h1, h2, h3⟩ := ih d l r n1 e
        refine ⟨.left :: p, h1, h2, ?_⟩
        intro q hq
        match q, hq with
        | [], _ => rfl
        | .left :: q1, hq => exact h3 q1 (fun hc => hq (by rw [hc]))
        | .right :: _, _ => rfl
    · by_cases hgt : value > data
      · cases right with
        | null =>
          simp only [InsertLoop, hlt, hgt, if_true, if_false, Option.some.injEq] at h
          subst h
          refine ⟨[.right], rfl, rfl, ?_⟩
          intro q hq
          match q, hq with
          | [], _ => rfl
          | [.right], hq => exact absurd rfl hq
          | .right :: b :: q2, _ =>
            show valueAt (.mk value .null .null) (b :: q2) = valueAt .null (b :: q2)
            rw [valueAt_leaf_cons, valueAt_null]
          | .left :: _, _ => rfl
        | mk d l r =>
          simp only [InsertLoop, hlt, hgt, if_true, if_false, Option.map_eq_some'] at h
          obtain ⟨n1, e, rfl⟩ := h
          obtain ⟨p, h1, h2, h3⟩ := ih d l r n1 e
          refine ⟨.right :: p, h1, h2, ?_⟩
          intro q hq
          match q, hq with
          | [], _ => rfl
          | .right :: q1, hq => exact h3 q1 (fun hc => hq (by rw [hc]))
          | .left :: _, _ => rfl
      · simp only [InsertLoop, hlt, hgt, if_false] at h
        exact ih data left right node h

/-- C37: whenever `Insert` returns, there is one path that resolved to no node before and
resolves to a leaf holding the value afterwards, every other path resolves exactly as before,
the tree has one node more, and a valid tree stays valid. -/
theorem Insert_adds_one_leaf (t : BinaryTree) (fuel : Nat) (value : Int) (t1 : BinaryTree)
    (h : t.Insert fuel value = some t1) :
    (∃ p, valueAt t.root p = none ∧ valueAt t1.root p = some value ∧
      valueAt t1.root (p ++ [.left]) = none ∧ valueAt t1.root (p ++ [.right]) = none ∧
      ∀ q, q ≠ p → valueAt t1.root q = valueAt t.root q) ∧
    nodeCount t1.root = nodeCount t.root + 1 ∧
    (IsBST t.root → IsBST t1.root) := by
  obtain ⟨hp, hb⟩ := Insert_sound t fuel value t1 h
  have hframe : ∃ p, valueAt t.root p = none ∧ valueAt t1.root p = some value ∧
      ∀ q, q ≠ p → valueAt t1.root q = valueAt t.root q := by
    obtain ⟨root⟩ := t
    cases root with
    | null =>
      simp only [BinaryTree.Insert, Option.some.injEq] at h
      subst h
      refine ⟨[], rfl, rfl, ?_⟩
      intro q hq
      match q, hq with
      | [], hq => exact absurd rfl hq
      | .left :: _, _ => simp [valueAt, valueAt_null]
      | .right :: _, _ => simp [valueAt, valueAt_null]
    | mk data left right =>
      simp only [BinaryTree.Insert, Option.map_eq_some'] at h
      obtain ⟨n1, e, rfl⟩ := h
      exact InsertLoop_frame fuel data left right value n1 e
  obtain ⟨p, h1, h2, h3⟩ := hframe
  refine ⟨⟨p, h1, h2, ?_, ?_, h3⟩, ?_, hb⟩
  · rw [h3 _ (by simp)]
    exact valueAt_none_append _ _ _ h1
  · rw [h3 _ (by simp)]
    exact valueAt_none_append _ _ _ h1
  · rw [nodeCount_eq_length, nodeCount_eq_length, hp.length_eq]
    simp

/-- C37, at the tree built from 10, 5, 15 and the value 7: the new leaf is at the path left,
right. -/
theorem Insert_adds_one_leaf_witness :
    threeTree.Insert 3 7 = some ⟨.mk 10 (.mk 5 .null (.mk 7 .null .null)) (.mk 15 .null .null)⟩ ∧
      ((∃ p, valueAt threeTree.root p = none ∧
        valueAt (Node.mk 10 (.mk 5 .null (.mk 7 .null .null)) (.mk 15 .null .null)) p
          = some 7 ∧
        valueAt (Node.mk 10 (.mk 5 .null (.mk 7 .null .null)) (.mk 15 .null .null))
          (p ++ [.left]) = none ∧
        valueAt (Node.mk 10 (.mk 5 .null (.mk 7 .null .null)) (.mk 15 .null .null))
          (p ++ [.right]) = none ∧
        ∀ q, q ≠ p →
          valueAt (Node.mk 10 (.mk 5 .null (.mk 7 .null .null)) (.mk 15 .null .null)) q
            = valueAt threeTree.root q) ∧
      nodeCount (Node.mk 10 (.mk 5 .null (.mk 7 .null .null)) (.mk 15 .null .null))
        = nodeCount threeTree.root + 1 ∧
      (IsBST threeTree.root →
        IsBST (Node.mk 10 (.mk 5 .null (.mk 7 .null .null)) (.mk 15 .null .null)))) ∧
      valueAt (Node.mk 10 (.mk 5 .null (.mk 7 .null .null)) (.mk 15 .null .null))
        [.left, .right] = some 7 :=
  ⟨by decide,
    Insert_adds_one_leaf threeTree 3 7
      ⟨.mk 10 (.mk 5 .null (.mk 7 .null .null)) (.mk 15 .null .null)⟩ (by decide),
    by decide⟩

/-! ## `map` and the shape of rebuilt trees (claims C31, C38, C39) -/

theorem mapAction_foldl_none (fuel : Nat) (mapper : Int → Int) (values : List Int) :
    values.foldl (fun s v => mapAction fuel mapper v s) none = none := by
  induction values with
  | nil => rfl
  | cons v vs ih => exact ih

/-- Running the action of `map` over a list of values inserts their images, one after the
other. -/
theorem mapAction_foldl (fuel : Nat) (mapper : Int → Int) (values : List Int)
    (result : BinaryTree) :
    values.foldl (fun s v => mapAction fuel mapper v s) (some result)
      = InsertAll fuel result (values.map mapper) := by
  induction values generalizing result with
  | nil => rfl
  | cons v vs ih =>
    have hstep : mapAction fuel mapper v (some result) = result.Insert fuel (mapper v) := rfl
    rw [List.foldl_cons, hstep, List.map_cons]
    simp only [InsertAll]
    cases e : result.Insert fuel (mapper v) with
    | none => exact mapAction_foldl_none fuel mapper vs
    | some r1 => exact ih r1

/-- `map` inserts the images of the values, taken in pre-order, into an empty tree. -/
theorem map_eq_InsertAll (t : BinaryTree) (fuel : Nat) (mapper : Int → Int) :
    t.map fuel mapper = InsertAll fuel ⟨.null⟩ ((PreOrder t.root).map mapper) := by
  unfold BinaryTree.map
  cases hroot : t.root with
  | null => rfl
  | mk d l r =>
    simp only [BinaryTree.TraverseWith]
    rw [← hroot, PreOrderWith_foldl, mapAction_foldl]

/-- `where` inserts the values that satisfy the predicate, taken in order, into an empty
tree. -/
theorem where_eq_InsertAll (t : BinaryTree) (fuel : Nat) (predicate : Int → Bool) :
    t.where_ fuel predicate = InsertAll fuel ⟨.null⟩ ((InOrder t.root).filter predicate) := by
  unfold BinaryTree.where_
  cases hroot : t.root with
  | null => rfl
  | mk d l r =>
    simp only [BinaryTree.TraverseWith]
    rw [← hroot, InOrderWith_foldl, whereAction_foldl]

theorem PreOrder_perm_InOrder (node : Node) : List.Perm (PreOrder node) (InOrder node) :=
  List.perm_iff_count.2 (PreOrder_count node)

/-- C31: for every valid tree and every mapper that is injective on its values, `map` returns
(every `Insert` within as many loop iterations as the tree has nodes) the tree obtained by
inserting the images in the receiver's pre-order; it is a valid tree whose in-order sequence
is strictly ascending and consists of the images of the receiver's values. -/
theorem map_injective (t : BinaryTree) (hb : IsBST t.root) (f : Int → Int)
    (hinj : ∀ x ∈ InOrder t.root, ∀ y ∈ InOrder t.root, f x = f y → x = y) (fuel : Nat)
    (hf : nodeCount t.root ≤ fuel) :
    ∃ r, t.map fuel f = some r ∧
      t.map fuel f = InsertAll fuel emptyTree ((t.Traverse .PRE_ORDER).map f) ∧
      IsBST r.root ∧ List.Sorted (· < ·) (r.Traverse .IN_ORDER) ∧
      List.Perm (r.Traverse .IN_ORDER) ((t.Traverse .IN_ORDER).map f) := by
  have hperm := PreOrder_perm_InOrder t.root
  have hnd : (PreOrder t.root).Nodup := hperm.nodup_iff.2 (IsBST.sorted t.root hb).nodup
  have hndm : ((PreOrder t.root).map f).Nodup := by
    apply List.Nodup.map_on _ hnd
    intro x hx y hy hxy
    exact hinj x (hperm.mem_iff.1 hx) y (hperm.mem_iff.1 hy) hxy
  obtain ⟨r, e, hbr, hp⟩ := InsertAll_spec fuel ((PreOrder t.root).map f) ⟨.null⟩ trivial hndm
    (by intro v _; simp [InOrder])
    (by simp only [nodeCount, List.length_map, hperm.length_eq, ← nodeCount_eq_length]; omega)
  refine ⟨r, by rw [map_eq_InsertAll, e], map_eq_InsertAll t fuel f, hbr,
    IsBST.sorted r.root hbr, ?_⟩
  have hp1 : List.Perm (InOrder r.root) ((PreOrder t.root).map f) := by
    simpa [InOrder] using hp
  exact hp1.trans (hperm.map f)

/-- C31, at the map test of `test_all_features`: the tree built from 10, 5, 15, 3, 7 mapped
with doubling has the in-order sequence 6, 10, 14, 20, 30. -/
theorem map_injective_witness :
    IsBST exampleTree.root ∧
      (∀ x ∈ InOrder exampleTree.root, ∀ y ∈ InOrder exampleTree.root,
        doubling x = doubling y → x = y) ∧
      nodeCount exampleTree.root ≤ 5 ∧
      (∃ r, exampleTree.map 5 doubling = some r ∧
        exampleTree.map 5 doubling
          = InsertAll 5 emptyTree ((exampleTree.Traverse .PRE_ORDER).map doubling) ∧
        IsBST r.root ∧ List.Sorted (· < ·) (r.Traverse .IN_ORDER) ∧
        List.Perm (r.Traverse .IN_ORDER) ((exampleTree.Traverse .IN_ORDER).map doubling)) ∧
      (exampleTree.map 5 doubling).map (fun t => t.Traverse .IN_ORDER)
        = some [6, 10, 14, 20, 30] :=
  ⟨by decide, by decide, by decide,
    map_injective exampleTree (by decide) doubling (by decide) 5 (by decide), by decide⟩

/-- The loop of `Insert`, given enough iterations and a value that is not in the subtree, puts
the value at the free position that the ordered search reaches. -/
theorem InsertLoop_eq_insertLeaf (fuel : Nat) (data : Int) (left right : Node) (value : Int)
    (hnot : value ∉ InOrder (.mk data left right))
    (hf : nodeCount (.mk data left right) ≤ fuel) :
    InsertLoop fuel data left right value = some (insertLeaf (.mk data left right) value) := by
  induction fuel generalizing data left right with
  | zero => simp [nodeCount] at hf
  | succ fuel ih =>
    simp only [InOrder, List.mem_append, List.mem_cons, not_or] at hnot
    obtain ⟨hnl, hnd, hnr⟩ := hnot
    simp only [nodeCount] at hf
    by_cases hlt : value < data
    · cases left with
      | null => simp [InsertLoop, insertLeaf, hlt]
      | mk d l r =>
        have := ih d l r hnl (by omega)
        have e1 : insertLeaf (.mk data (.mk d l r) right) value
            = .mk data (insertLeaf (.mk d l r) value) right := by
          show (if value < data then _ else _) = _
          rw [if_pos hlt]
        rw [e1]
        simp only [InsertLoop, hlt, if_true, this, Option.map_some']
    · have hgt : value > data := lt_of_le_of_ne (not_lt.1 hlt) (Ne.symm hnd)
      cases right with
      | null => simp [InsertLoop, insertLeaf, hlt, hgt]
      | mk d l r =>
        have := ih d l r hnr (by omega)
        have e1 : insertLeaf (.mk data left (.mk d l r)) value
            = .mk data left (insertLeaf (.mk d l r) value) := by
          show (if value < data then _ else _) = _
          rw [if_neg hlt, if_pos hgt]
        rw [e1]
        simp only [InsertLoop, hlt, hgt, if_true, if_false, this, Option.map_some']

theorem Insert_eq_insertLeaf (tree : BinaryTree) (fuel : Nat) (value : Int)
    (hnot : value ∉ InOrder tree.root) (hf : nodeCount tree.root ≤ fuel) :
    tree.Insert fuel value = some ⟨insertLeaf tree.root value⟩ := by
  obtain ⟨root⟩ := tree
  cases root with
  | null => rfl
  | mk data left right =>
    simp only [BinaryTree.Insert, InsertLoop_eq_insertLeaf fuel data left right value hnot hf,
      Option.map_some']

/-- Inserting pairwise distinct new values one after the other puts each at the free position
that the ordered search reaches. -/
theorem InsertAll_eq_foldl (fuel : Nat) (values : List Int) (tree : BinaryTree)
    (hnd : values.Nodup) (hdis : ∀ v ∈ values, v ∉ InOrder tree.root)
    (hf : nodeCount tree.root + values.length ≤ fuel) :
    InsertAll fuel tree values = some ⟨values.foldl insertLeaf tree.root⟩ := by
  induction values generalizing tree with
  | nil => rfl
  | cons v vs ih =>
    obtain ⟨hv, hvs⟩ := List.nodup_cons.1 hnd
    simp only [List.length_cons] at hf
    have e := Insert_eq_insertLeaf tree fuel v (hdis v (by simp)) (by omega)
    obtain ⟨hp, _⟩ := Insert_sound tree fuel v _ e
    have hcount : nodeCount (insertLeaf tree.root v) = nodeCount tree.root + 1 := by
      rw [nodeCount_eq_length, nodeCount_eq_length, hp.length_eq]; simp
    have hdis1 : ∀ w ∈ vs, w ∉ InOrder (insertLeaf tree.root v) := by
      intro w hw hmem
      rcases List.mem_cons.1 (hp.mem_iff.1 hmem) with h | h
      · subst h; exact hv hw
      · exact hdis w (List.mem_cons_of_mem _ hw) h
    simp only [InsertAll, e, List.foldl_cons]
    exact ih ⟨insertLeaf tree.root v⟩ hvs hdis1 (by simp only [hcount]; omega)

theorem foldl_insertLeaf_lt (values : List Int) (data : Int) (left right : Node)
    (h : ∀ x ∈ values, x < data) :
    values.foldl insertLeaf (.mk data left right)
      = .mk data (values.foldl insertLeaf left) right := by
  induction values generalizing left with
  | nil => rfl
  | cons v vs ih =>
    have hv : v < data := h v (by simp)
    simp only [List.foldl_cons]
    rw [insertLeaf, if_pos hv]
    exact ih _ (fun x hx => h x (List.mem_cons_of_mem _ hx))

theorem foldl_insertLeaf_gt (values : List Int) (data : Int) (left right : Node)
    (h : ∀ x ∈ values, data < x) :
    values.foldl insertLeaf (.mk data left right)
      = .mk data left (values.foldl insertLeaf right) := by
  induction values generalizing right with
  | nil => rfl
  | cons v vs ih =>
    have hv : data < v := h v (by simp)
    have hn : ¬ v < data := by omega
    simp only [List.foldl_cons]
    rw [insertLeaf, if_neg hn, if_pos hv]
    exact ih _ (fun x hx => h x (List.mem_cons_of_mem _ hx))

/-- Re-inserting the pre-order sequence of a valid tree rebuilds the tree. -/
theorem foldl_insertLeaf_PreOrder (node : Node) (hb : IsBST node) :
    (PreOrder node).foldl insertLeaf .null = node := by
  induction node with
  | null => rfl
  | mk data left right ihl ihr =>
    obtain ⟨h1, h2, hl, hr⟩ := hb
    have e : (PreOrder (.mk data left right)).foldl insertLeaf .null
        = (PreOrder right).foldl insertLeaf
            ((PreOrder left).foldl insertLeaf (.mk data .null .null)) := by
      simp [PreOrder, List.foldl_append, insertLeaf]
    rw [e, foldl_insertLeaf_lt _ _ _ _
        (fun x hx => h1 x ((PreOrder_perm_InOrder left).mem_iff.1 hx)), ihl hl,
      foldl_insertLeaf_gt _ _ _ _
        (fun x hx => h2 x ((PreOrder_perm_InOrder right).mem_iff.1 hx)), ihr hr]

theorem InOrder_mapValues (f : Int → Int) (node : Node) :
    InOrder (mapValues f node) = (InOrder node).map f := by
  induction node with
  | null => rfl
  | mk data left right ihl ihr => simp [mapValues, InOrder, ihl, ihr]

theorem PreOrder_mapValues (f : Int → Int) (node : Node) :
    PreOrder (mapValues f node) = (PreOrder node).map f := by
  induction node with
  | null => rfl
  | mk data left right ihl ihr => simp [mapValues, PreOrder, ihl, ihr]

/-- A function that is strictly increasing on the values of a valid tree maps it to a valid
tree. -/
theorem IsBST_mapValues (f : Int → Int) (node : Node) (hb : IsBST node)
    (hmono : ∀ x ∈ InOrder node, ∀ y ∈ InOrder node, x < y → f x < f y) :
    IsBST (mapValues f node) := by
  induction node with
  | null => trivial
  | mk data left right ihl ihr =>
    obtain ⟨h1, h2, hl, hr⟩ := hb
    have hd : data ∈ InOrder (.mk data left right) := by simp [InOrder]
    have hml : ∀ x ∈ InOrder left, x ∈ InOrder (.mk data left right) := by
      intro x hx; simp [InOrder, hx]
    have hmr : ∀ x ∈ InOrder right, x ∈ InOrder (.mk data left right) := by
      intro x hx; simp [InOrder, hx]
    refine ⟨?_, ?_, ihl hl (fun x hx y hy => hmono x (hml x hx) y (hml y hy)),
      ihr hr (fun x hx y hy => hmono x (hmr x hx) y (hmr y hy))⟩
    · intro y hy
      rw [InOrder_mapValues] at hy
      obtain ⟨x, hx, rfl⟩ := List.mem_map.1 hy
      exact hmono x (hml x hx) data hd (h1 x hx)
    · intro y hy
      rw [InOrder_mapValues] at hy
      obtain ⟨x, hx, rfl⟩ := List.mem_map.1 hy
      exact hmono data hd x (hmr x hx) (h2 x hx)

theorem nodeCount_mapValues (f : Int → Int) (node : Node) :
    nodeCount (mapValues f node) = nodeCount node := by
  induction node with
  | null => rfl
  | mk data left right ihl ihr => simp [mapValues, nodeCount, ihl, ihr]

theorem mapValues_id (node : Node) : mapValues (fun x => x) node = node := by
  induction node with
  | null => rfl
  | mk data left right ihl ihr => simp [mapValues, ihl, ihr]

/-- C38: for every valid tree and every mapper that is strictly increasing on its values,
`map` returns (every `Insert` within as many loop iterations as the tree has nodes) the tree of
the same shape with the mapper applied to the value at every position; with the identity it
returns a tree equal to the receiver. -/
theorem map_strictly_increasing (t : BinaryTree) (hb : IsBST t.root) (f : Int → Int)
    (hmono : ∀ x ∈ InOrder t.root, ∀ y ∈ InOrder t.root, x < y → f x < f y) (fuel : Nat)
    (hf : nodeCount t.root ≤ fuel) :
    t.map fuel f = some ⟨mapValues f t.root⟩ ∧ t.map fuel (fun x => x) = some t := by
  have key : ∀ g : Int → Int,
      (∀ x ∈ InOrder t.root, ∀ y ∈ InOrder t.root, x < y → g x < g y) →
      t.map fuel g = some ⟨mapValues g t.root⟩ := by
    intro g hg
    have hbm := IsBST_mapValues g t.root hb hg
    have hperm := PreOrder_perm_InOrder (mapValues g t.root)
    have hnd : (PreOrder (mapValues g t.root)).Nodup :=
      hperm.nodup_iff.2 (IsBST.sorted _ hbm).nodup
    have hlen : (PreOrder (mapValues g t.root)).length = nodeCount t.root := by
      rw [hperm.length_eq, ← nodeCount_eq_length, nodeCount_mapValues]
    rw [map_eq_InsertAll, ← PreOrder_mapValues,
      InsertAll_eq_foldl fuel _ ⟨.null⟩ hnd (by intro v _; simp [InOrder])
        (by simp only [nodeCount, hlen]; omega)]
    simp only [foldl_insertLeaf_PreOrder _ hbm]
  refine ⟨key f hmono, ?_⟩
  rw [key (fun x => x) (fun x _ y _ hxy => hxy), mapValues_id]

/-- C38, at the tree built from 10, 5, 15, 3, 7 and doubling. -/
theorem map_strictly_increasing_witness :
    IsBST exampleTree.root ∧
      (∀ x ∈ InOrder exampleTree.root, ∀ y ∈ InOrder exampleTree.root,
        x < y → doubling x < doubling y) ∧
      nodeCount exampleTree.root ≤ 5 ∧
      (exampleTree.map 5 doubling = some ⟨mapValues doubling exampleTree.root⟩ ∧
        exampleTree.map 5 (fun x => x) = some exampleTree) ∧
      mapValues doubling exampleTree.root
        = .mk 20 (.mk 10 (.mk 6 .null .null) (.mk 14 .null .null)) (.mk 30 .null .null) :=
  ⟨by decide, by decide, by decide,
    map_strictly_increasing exampleTree (by decide) doubling (by decide) 5 (by decide),
    by decide⟩

theorem mem_insertLeaf (node : Node) (value x : Int)
    (h : x ∈ InOrder (insertLeaf node value)) : x = value ∨ x ∈ InOrder node := by
  induction node with
  | null => simpa [insertLeaf, InOrder] using h
  | mk data left right ihl ihr =>
    by_cases hlt : value < data
    · rw [insertLeaf, if_pos hlt] at h
      simp only [InOrder, List.mem_append, List.mem_cons] at h ⊢
      rcases h with h | h | h
      · rcases ihl h with h | h
        · exact Or.inl h
        · exact Or.inr (Or.inl h)
      · exact Or.inr (Or.inr (Or.inl h))
      · exact Or.inr (Or.inr (Or.inr h))
    · by_cases hgt : value > data
      · rw [insertLeaf, if_neg hlt, if_pos hgt] at h
        simp only [InOrder, List.mem_append, List.mem_cons] at h ⊢
        rcases h with h | h | h
        · exact Or.inr (Or.inl h)
        · exact Or.inr (Or.inr (Or.inl h))
        · rcases ihr h with h | h
          · exact Or.inl h
          · exact Or.inr (Or.inr (Or.inr h))
      · rw [insertLeaf, if_neg hlt, if_neg hgt] at h
        exact Or.inr h

/-- A value above all values of a right-leaning chain is put at its lower end. -/
theorem insertLeaf_chain (node : Node) (value : Int) (hc : IsRightChain node)
    (h : ∀ x ∈ InOrder node, x < value) : IsRightChain (insertLeaf node value) := by
  induction node with
  | null => exact ⟨rfl, trivial⟩
  | mk data left right _ ihr =>
    obtain ⟨hl, hr⟩ := hc
    have hd : data < value := h data (by simp [InOrder])
    have hn : ¬ value < data := by omega
    rw [insertLeaf, if_neg hn, if_pos hd]
    exact ⟨hl, ihr hr (fun x hx => h x (by simp [InOrder, hx]))⟩

theorem foldl_insertLeaf_chain (values : List Int) (node : Node) (hc : IsRightChain node)
    (hs : List.Sorted (· < ·) values) (h : ∀ x ∈ InOrder node, ∀ v ∈ values, x < v) :
    IsRightChain (values.foldl insertLeaf node) := by
  induction values generalizing node with
  | nil => exact hc
  | cons v vs ih =>
    obtain ⟨hv, hvs⟩ := List.pairwise_cons.1 hs
    simp only [List.foldl_cons]
    apply ih _ (insertLeaf_chain node v hc (fun x hx => h x hx v (by simp))) hvs
    intro x hx w hw
    rcases mem_insertLeaf node v x hx with hx | hx
    · subst hx; exact hv w hw
    · exact h x hx w (List.mem_cons_of_mem _ hw)

theorem height_chain (node : Node) (hc : IsRightChain node) :
    height node = nodeCount node := by
  induction node with
  | null => rfl
  | mk data left right _ ihr =>
    obtain ⟨hl, hr⟩ := hc
    subst hl
    simp [height, nodeCount, ihr hr]

/-- C39: for every valid tree and every predicate, the tree that `where` returns (every
`Insert` within as many loop iterations as the receiver has nodes) is a right-leaning chain:
no node of it has a left child, and its height is its number of nodes. -/
theorem where_right_chain (t : BinaryTree) (hb : IsBST t.root) (predicate : Int → Bool)
    (fuel : Nat) (hf : nodeCount t.root ≤ fuel) :
    ∃ r, t.where_ fuel predicate = some r ∧ IsRightChain r.root ∧
      height r.root = nodeCount r.root := by
  have hs := (IsBST.sorted t.root hb).filter predicate
  have hlen : ((InOrder t.root).filter predicate).length ≤ fuel := by
    have := List.length_filter_le predicate (InOrder t.root)
    rw [nodeCount_eq_length] at hf
    omega
  have e := InsertAll_eq_foldl fuel ((InOrder t.root).filter predicate) ⟨.null⟩ hs.nodup
    (by intro v _; simp [InOrder]) (by simpa [nodeCount] using hlen)
  have hc : IsRightChain (((InOrder t.root).filter predicate).foldl insertLeaf .null) :=
    foldl_insertLeaf_chain _ .null trivial hs (by intro x hx; simp [InOrder] at hx)
  exact ⟨_, by rw [where_eq_InsertAll, e], hc, height_chain _ hc⟩

/-- C39, at the tree built from 10, 5, 15, 3, 7 and the predicate `value > 5`: the result is
the chain 7, 10, 15. -/
theorem where_right_chain_witness :
    IsBST exampleTree.root ∧ nodeCount exampleTree.root ≤ 5 ∧
      (∃ r, exampleTree.where_ 5 greaterThanFive = some r ∧ IsRightChain r.root ∧
        height r.root = nodeCount r.root) ∧
      exampleTree.where_ 5 greaterThanFive
        = some ⟨.mk 7 .null (.mk 10 .null (.mk 15 .null .null))⟩ :=
  ⟨by decide, by decide,
    where_right_chain exampleTree (by decide) greaterThanFive 5 (by decide), by decide⟩

end BT
